import Mathlib

/-! # logfilter: a verification development

Shallow embedding of `logfilter.go` (package `main`) together with the parts of the Go
standard library the program calls (`strings.Split`, `strconv.Atoi`, `net.ParseIP`,
`net.IPNet.Contains`, `net.IP.String`, `sort.Sort`).

The library routines follow the sources of a current Go release on a 64-bit platform:
`strconv.Atoi` with its fast path and `ParseInt`, `net.ParseIP` through
`netip.ParseAddr`, and `sort.Sort` as the pattern-defeating quicksort `pdqsort` with its
helpers, and `bufio.Scanner` with its default buffer, which stops at a line of
`MaxScanTokenSize` bytes or more. A library call that would panic on an index out of range, or a loop that would
not end within its bound, is the value `none`; the theorems about the sorter show that
this never happens.

Conventions of the embedding:

* a Go `string` is a Lean `String`, processed as its list of characters; the program's
  input is text, and on valid UTF-8 text the byte-wise library routines used here
  (substring search, digit and separator tests, string comparison) agree with their
  character-wise counterparts;
* a Go `int` is a 64-bit integer, embedded as a Lean `Int` (the values produced by
  `strconv.Atoi` are clamped to the 64-bit range by the library itself);
* a `net.IP` is its list of bytes, the nil address being the empty list;
* the package-level variables `splitchar`, `ipfilter192`, `ipfilter172`, `ipfilter10`
  are written once in `main` before any line is read; `splitchar` is passed to `filter`
  as an argument and the three networks are the constants `net.ParseCIDR` returns.
-/

namespace LogFilter

/-! ## `strings` -/

/-- Go `strings.HasPrefix(s, sep)` on character lists. -/
def startsWith : List Char → List Char → Bool
  | _, [] => true
  | [], _ :: _ => false
  | c :: s, d :: sep => c == d && startsWith s sep

/-- Go `strings.Index(s, substr)`: the position of the first occurrence of `substr` in `s`,
`none` standing for `-1`. -/
def Index : List Char → List Char → Option Nat
  | [], sep => if sep = [] then some 0 else none
  | c :: s, sep =>
    if startsWith (c :: s) sep then some 0
    else (Index s sep).map (· + 1)

/-- The loop of Go `strings.Count(s, substr)` for a non-empty `substr`: the number of
non-overlapping occurrences. The first argument bounds the number of iterations by the
length of the text. -/
def countLoop (sep : List Char) : Nat → List Char → Nat → Nat
  | 0, _, n => n
  | fuel + 1, s, n =>
    match Index s sep with
    | none => n
    | some i => countLoop sep fuel (s.drop (i + sep.length)) (n + 1)

/-- Go `strings.Count(s, substr)`; for the empty `substr` it is the number of runes plus one. -/
def Count (s sep : List Char) : Nat :=
  if sep = [] then s.length + 1 else countLoop sep (s.length + 1) s 0

/-- The loop `for i < n` of Go `strings.genSplit`: cut at the first occurrence of `sep`,
at most `n` times; the remainder is the last field. -/
def genSplitLoop (sep : List Char) : Nat → List Char → List (List Char)
  | 0, s => [s]
  | n + 1, s =>
    match Index s sep with
    | none => [s]
    | some m => s.take m :: genSplitLoop sep n (s.drop (m + sep.length))

/-- Go `strings.explode(s, -1)`: one string per rune (none at all for the empty string). -/
def explode (s : List Char) : List (List Char) :=
  s.map fun c => [c]

/-- Go `strings.genSplit(s, sep, 0, -1)`. -/
def genSplit (s sep : List Char) : List (List Char) :=
  if sep = [] then explode s
  else
    let n := Count s sep + 1
    let n := if n > s.length + 1 then s.length + 1 else n
    genSplitLoop sep (n - 1) s

/-- Go `strings.Split(s, sep)`. -/
def Split (s sep : String) : List String :=
  (genSplit s.data sep.data).map String.mk

/-- The comparison of character lists behind Go's `<` on strings: lexicographic, a proper
initial segment being smaller. -/
def listLess : List Char → List Char → Bool
  | _, [] => false
  | [], _ :: _ => true
  | x :: xs, y :: ys =>
    if x.toNat < y.toNat then true
    else if y.toNat < x.toNat then false
    else listLess xs ys

/-- Go's operator `<` on strings. -/
def stringLess (s t : String) : Bool := listLess s.data t.data

/-! ## `strconv` -/

/-- Size of a Go `int` in bits (`strconv.IntSize`). -/
def intSize : Nat := 64

/-- The two errors of `strconv`: `ErrSyntax` and `ErrRange`. -/
inductive NumError where
  | errSyn
  | errRange
  deriving DecidableEq, Repr

/-- Go `strconv.lower(c)`: `c | ('x' - 'X')`. -/
def lower (c : Char) : Nat := c.toNat ||| 32

/-- The digit loop of Go `strconv.ParseUint(s, 10, 64)`; `n` is the accumulator, a `uint64`. -/
def parseUintLoop : List Char → Nat → Nat × Option NumError
  | [], n => (n, none)
  | c :: cs, n =>
    let maxVal := 2 ^ 64 - 1
    let cutoff := (2 ^ 64 - 1) / 10 + 1
    if '0'.toNat ≤ c.toNat ∧ c.toNat ≤ '9'.toNat then
      let d := c.toNat - '0'.toNat
      if n ≥ cutoff then (maxVal, some .errRange)
      else
        let n10 := n * 10
        let n1 := (n10 + d) % 2 ^ 64
        if n1 < n10 ∨ n1 > maxVal then (maxVal, some .errRange)
        else parseUintLoop cs n1
    else if 'a'.toNat ≤ lower c ∧ lower c ≤ 'z'.toNat then
      -- a letter is a digit of value at least 10, never below the base
      (0, some .errSyn)
    else (0, some .errSyn)

/-- Go `strconv.ParseUint(s, 10, 64)`. -/
def ParseUint (s : List Char) : Nat × Option NumError :=
  if s = [] then (0, some .errSyn) else parseUintLoop s 0

/-- Go `strconv.ParseInt(s, 10, 0)`. -/
def ParseInt (s : List Char) : Int × Option NumError :=
  match s with
  | [] => (0, some .errSyn)
  | c :: cs =>
    let neg := c == '-'
    let body := if c == '+' ∨ c == '-' then cs else c :: cs
    match ParseUint body with
    | (_, some .errSyn) => (0, some .errSyn)
    | (un, _) =>
      let cutoff := 2 ^ (intSize - 1)
      if !neg ∧ un ≥ cutoff then ((cutoff : Int) - 1, some .errRange)
      else if neg ∧ un > cutoff then (-(cutoff : Int), some .errRange)
      else (if neg then -(un : Int) else (un : Int), none)

/-- The digit loop of the fast path of Go `strconv.Atoi`. -/
def atoiFastLoop : List Char → Nat → Option Nat
  | [], n => some n
  | ch :: cs, n =>
    if '0'.toNat ≤ ch.toNat ∧ ch.toNat ≤ '9'.toNat then
      atoiFastLoop cs (n * 10 + (ch.toNat - '0'.toNat))
    else none

/-- Go `strconv.Atoi(s)`: the value and the error. -/
def Atoi (s : String) : Int × Option NumError :=
  let sLen := s.data.length
  if 0 < sLen ∧ sLen < 19 then
    match s.data with
    | [] => (0, some .errSyn)
    | c :: cs =>
      let body := if c == '-' ∨ c == '+' then cs else c :: cs
      if body.length < 1 then (0, some .errSyn)
      else
        match atoiFastLoop body 0 with
        | none => (0, some .errSyn)
        | some n => (if c == '-' then -(n : Int) else (n : Int), none)
  else ParseInt s.data

/-! ## `net` and `net/netip` -/

/-- Go `net.IP`: a slice of bytes, `[]` standing for the nil address. -/
abbrev IP := List Nat

/-- Go `net.IPNet`: a network number and a mask. -/
structure IPNet where
  ip : IP
  mask : List Nat
  deriving DecidableEq, Repr

/-- The loop of Go `netip.parseIPv4Fields` over `s = in[off:end]`; the first argument is the
number of characters still to read, `i` the index of the next one. The result is the
array `fields`, `none` standing for an error. -/
def parseIPv4FieldsLoop (s : List Char) :
    Nat → Nat → Nat → Nat → Nat → List Nat → Option (List Nat)
  | 0, _, val, pos, _, fields =>
    if pos < 3 then none else some (fields.set 3 val)
  | todo + 1, i, val, pos, digLen, fields =>
    let c := s.getD i ' '
    if '0'.toNat ≤ c.toNat ∧ c.toNat ≤ '9'.toNat then
      if digLen = 1 ∧ val = 0 then none
      else
        let val := val * 10 + c.toNat - '0'.toNat
        if val > 255 then none
        else parseIPv4FieldsLoop s todo (i + 1) val pos (digLen + 1) fields
    else if c = '.' then
      if i = 0 ∨ i = s.length - 1 ∨ s.getD (i - 1) ' ' = '.' then none
      else if pos = 3 then none
      else parseIPv4FieldsLoop s todo (i + 1) 0 (pos + 1) 0 (fields.set pos val)
    else none

/-- Go `netip.parseIPv4Fields(in, off, end, fields)` on the substring `s = in[off:end]`. -/
def parseIPv4Fields (s : List Char) : Option (List Nat) :=
  parseIPv4FieldsLoop s s.length 0 0 0 0 [0, 0, 0, 0]

/-- The sixteen bytes of an IPv4 address mapped into IPv6 (`netip.Addr.As16` of
`netip.AddrFrom4`). -/
def v4InV6 (fields : List Nat) : IP :=
  [0, 0, 0, 0, 0, 0, 0, 0, 0, 0, 255, 255] ++ fields

/-- The value of a hexadecimal digit, if the character is one. -/
def hexVal (c : Char) : Option Nat :=
  if '0'.toNat ≤ c.toNat ∧ c.toNat ≤ '9'.toNat then some (c.toNat - '0'.toNat)
  else if 'a'.toNat ≤ c.toNat ∧ c.toNat ≤ 'f'.toNat then some (c.toNat - 'a'.toNat + 10)
  else if 'A'.toNat ≤ c.toNat ∧ c.toNat ≤ 'F'.toNat then some (c.toNat - 'A'.toNat + 10)
  else none

/-- The inner loop of Go `netip.parseIPv6` reading one hexadecimal group at the head of `s`:
the number `off` of digits read and their value `acc`, `none` standing for an error. -/
def hexGroup : List Char → Nat → Nat → Option (Nat × Nat)
  | [], off, acc => some (off, acc)
  | c :: cs, off, acc =>
    match hexVal c with
    | none => some (off, acc)
    | some d =>
      let acc := acc * 16 + d
      if off > 3 then none
      else if acc > 65535 then none
      else hexGroup cs (off + 1) acc

/-- The main loop `for i < 16` of Go `netip.parseIPv6`. The state is the rest `s` of the text,
the byte index `i`, the position `ellipsis` of the `::` (`none` for `-1`) and the bytes `ip`;
the result is the state at the exit of the loop, `none` standing for an error. -/
def parseIPv6Loop : Nat → List Char → Nat → Option Nat → List Nat →
    Option (List Char × Nat × Option Nat × List Nat)
  | 0, s, i, ellipsis, ip => some (s, i, ellipsis, ip)
  | fuel + 1, s, i, ellipsis, ip =>
    if ¬ i < 16 then some (s, i, ellipsis, ip)
    else
      match hexGroup s 0 0 with
      | none => none
      | some (off, acc) =>
        if off = 0 then none
        else if off < s.length ∧ s.getD off ' ' = '.' then
          if ellipsis = none ∧ i ≠ 12 then none
          else if i + 4 > 16 then none
          else
            match parseIPv4Fields s with
            | none => none
            | some f =>
              some ([], i + 4, ellipsis,
                (((ip.set i (f.getD 0 0)).set (i + 1) (f.getD 1 0)).set (i + 2)
                  (f.getD 2 0)).set (i + 3) (f.getD 3 0))
        else
          let ip := (ip.set i (acc / 256)).set (i + 1) (acc % 256)
          let i := i + 2
          let s := s.drop off
          match s with
          | [] => some ([], i, ellipsis, ip)
          | c :: s1 =>
            if c ≠ ':' then none
            else
              match s1 with
              | [] => none
              | c1 :: s2 =>
                if c1 = ':' then
                  if ellipsis ≠ none then none
                  else
                    match s2 with
                    | [] => some ([], i, some i, ip)
                    | _ :: _ => parseIPv6Loop fuel s2 i (some i) ip
                else parseIPv6Loop fuel s1 i ellipsis ip

/-- The expansion of the ellipsis at the end of Go `netip.parseIPv6`: the `i - ellipsis` bytes
from `ellipsis` on move to the end and `16 - i` zero bytes take their place. -/
def expandEllipsis (ip : List Nat) (i ellipsis : Nat) : List Nat :=
  ip.take ellipsis ++ List.replicate (16 - i) 0 ++ (ip.drop ellipsis).take (i - ellipsis)

/-- Go `netip.parseIPv6(in)`: the sixteen bytes and the zone, `none` standing for an error. -/
def parseIPv6 (input : List Char) : Option (List Nat × List Char) :=
  let cut : Option (List Char × List Char) :=
    match Index input ['%'] with
    | none => some (input, [])
    | some k =>
      if input.drop (k + 1) = [] then none else some (input.take k, input.drop (k + 1))
  match cut with
  | none => none
  | some (s, zone) =>
    let zero16 := List.replicate 16 0
    let lead := s.length ≥ 2 ∧ s.getD 0 ' ' = ':' ∧ s.getD 1 ' ' = ':'
    let s := if lead then s.drop 2 else s
    let ellipsis : Option Nat := if lead then some 0 else none
    if lead ∧ s.length = 0 then some (zero16, zone)
    else
      match parseIPv6Loop 9 s 0 ellipsis zero16 with
      | none => none
      | some (s, i, ellipsis, ip) =>
        if s.length ≠ 0 then none
        else if i < 16 then
          match ellipsis with
          | none => none
          | some e => some (expandEllipsis ip i e, zone)
        else if ellipsis ≠ none then none
        else some (ip, zone)

/-- The scan of Go `netip.ParseAddr(s)` for the first `.`, `:` or `%`, which selects the
parser; the result is the sixteen-byte form (`Addr.As16`) and the zone. -/
def parseAddrScan (s : List Char) : List Char → Option (List Nat × List Char)
  | [] => none
  | c :: cs =>
    if c = '.' then (parseIPv4Fields s).map fun f => (v4InV6 f, [])
    else if c = ':' then parseIPv6 s
    else if c = '%' then none
    else parseAddrScan s cs

/-- Go `net.ParseIP(s)`: the sixteen bytes of the address, or nil (`[]`) when `s` is not the
text of an IPv4 or IPv6 address or carries a zone. -/
def ParseIP (s : String) : IP :=
  match parseAddrScan s.data s.data with
  | none => []
  | some (ip, zone) => if zone ≠ [] then [] else ip

/-- Go `net.IP.To4`: the four-byte form of an IPv4 address, nil otherwise. -/
def To4 (ip : IP) : IP :=
  if ip.length = 4 then ip
  else if ip.length = 16 ∧ (ip.take 10).all (· == 0) ∧ ip.getD 10 0 = 255 ∧ ip.getD 11 0 = 255 then
    ip.drop 12
  else []

/-- Go `net.networkNumberAndMask(n)`; `none` stands for the pair of nils. -/
def networkNumberAndMask (n : IPNet) : Option (IP × List Nat) :=
  let ip4 := To4 n.ip
  if ip4 = [] ∧ n.ip.length ≠ 16 then none
  else
    let ip := if ip4 = [] then n.ip else ip4
    if n.mask.length = 4 then
      if ip.length ≠ 4 then none else some (ip, n.mask)
    else if n.mask.length = 16 then
      if ip.length = 4 then some (ip, n.mask.drop 12) else some (ip, n.mask)
    else none

/-- Go `(*net.IPNet).Contains(ip)`. -/
def Contains (n : IPNet) (ip : IP) : Bool :=
  let (nn, m) := (networkNumberAndMask n).getD ([], [])
  let ip := if To4 ip ≠ [] then To4 ip else ip
  if ip.length ≠ nn.length then false
  else (List.range ip.length).all fun i =>
    nn.getD i 0 &&& m.getD i 0 == ip.getD i 0 &&& m.getD i 0

/-- The network `net.ParseCIDR("192.168.0.0/16")` returns. -/
def ipfilter192 : IPNet := ⟨[192, 168, 0, 0], [255, 255, 0, 0]⟩

/-- The network `net.ParseCIDR("172.16.0.0/12")` returns. -/
def ipfilter172 : IPNet := ⟨[172, 16, 0, 0], [255, 240, 0, 0]⟩

/-- The network `net.ParseCIDR("10.0.0.0/8")` returns. -/
def ipfilter10 : IPNet := ⟨[10, 0, 0, 0], [255, 0, 0, 0]⟩

/-- The sixteen-bit group `i` of a sixteen-byte address (`netip.Addr.v6u16`). -/
def v6u16 (ip : IP) (i : Nat) : Nat :=
  ip.getD (2 * i) 0 * 256 + ip.getD (2 * i + 1) 0

/-- The loop `for j < 8 && ip.v6u16(j) == 0 { j++ }` of Go `netip.Addr.appendTo6`; the first
argument bounds the number of turns. -/
def zeroRun (ip : IP) : Nat → Nat → Nat
  | 0, j => j
  | n + 1, j => if j < 8 ∧ v6u16 ip j = 0 then zeroRun ip n (j + 1) else j

/-- The first loop of Go `netip.Addr.appendTo6`: the longest run of at least two zero groups,
as `(zeroStart, zeroEnd)`; the first argument is the number `8 - i` of turns left. -/
def longestZeroRun (ip : IP) : Nat → Nat → Nat × Nat → Nat × Nat
  | 0, _, z => z
  | n + 1, i, (zeroStart, zeroEnd) =>
    let j := zeroRun ip 8 i
    let l := j - i
    if l ≥ 2 ∧ l > zeroEnd - zeroStart then longestZeroRun ip n (i + 1) (i, j)
    else longestZeroRun ip n (i + 1) (zeroStart, zeroEnd)

/-- The digit of value `d` in `"0123456789abcdef"`. -/
def hexDigit (d : Nat) : Char :=
  "0123456789abcdef".data.getD d '0'

/-- Go `netip.appendHex(b, x)`: `x` in hexadecimal without leading zeros. -/
def appendHex (b : List Char) (x : Nat) : List Char :=
  let b := if x ≥ 0x1000 then b ++ [hexDigit (x / 4096)] else b
  let b := if x ≥ 0x100 then b ++ [hexDigit (x / 256 % 16)] else b
  let b := if x ≥ 0x10 then b ++ [hexDigit (x / 16 % 16)] else b
  b ++ [hexDigit (x % 16)]

/-- The second loop of Go `netip.Addr.appendTo6`, which writes the groups and the `::`; the
first argument bounds the number of turns. -/
def appendGroups (ip : IP) (zeroStart zeroEnd : Nat) : Nat → Nat → List Char → List Char
  | 0, _, ret => ret
  | n + 1, i, ret =>
    if ¬ i < 8 then ret
    else if i = zeroStart then
      let ret := ret ++ [':', ':']
      let i := zeroEnd
      if i ≥ 8 then ret
      else appendGroups ip zeroStart zeroEnd n (i + 1) (appendHex ret (v6u16 ip i))
    else
      let ret := if i > 0 then ret ++ [':'] else ret
      appendGroups ip zeroStart zeroEnd n (i + 1) (appendHex ret (v6u16 ip i))

/-- The text of an IPv6 address (`netip.Addr.string6` without a zone). -/
def string6 (ip : IP) : List Char :=
  let z := longestZeroRun ip 8 0 (255, 255)
  appendGroups ip z.1 z.2 8 0 []

/-- The text of an IPv4 address (`netip.Addr.string4`): the four bytes in decimal, separated
by dots. -/
def string4 (p4 : IP) : List Char :=
  (Nat.repr (p4.getD 0 0)).data ++ ['.'] ++ (Nat.repr (p4.getD 1 0)).data ++ ['.'] ++
    (Nat.repr (p4.getD 2 0)).data ++ ['.'] ++ (Nat.repr (p4.getD 3 0)).data

/-- Go `net.hexString(b)`: two hexadecimal digits per byte. -/
def hexString (b : List Nat) : List Char :=
  b.flatMap fun x => [hexDigit (x / 16), hexDigit (x % 16)]

/-- Go `net.IP.String`: `<nil>` for the nil address, dotted decimal for an IPv4 address, the
compressed hexadecimal form for an IPv6 address. -/
def IP.String (ip : IP) : String :=
  if ip.length = 0 then "<nil>"
  else if ip.length ≠ 4 ∧ ip.length ≠ 16 then String.mk (['?'] ++ hexString ip)
  else if (To4 ip).length = 4 then String.mk (string4 (To4 ip))
  else String.mk (string6 ip)

/-! ## The record and the line filter (`logfilter.go`) -/

/-- Go `type logLine struct`; the default value is Go's zero value. -/
structure logLine where
  time : String := ""
  srcip : IP := []
  srcport : Int := 0
  dstip : IP := []
  dstport : Int := 0
  deriving DecidableEq, Repr, Inhabited

/-- One turn of the loop `for arg := range linesl` of `filter`: the `switch arg` applied to
the field `param`, on the pair `(ret, err)`. The `break` statements leave the `switch`
only, so the loop goes on to the next field. -/
def filterCase (arg : Nat) (param : String) (st : logLine × Bool) : logLine × Bool :=
  let ret := st.1
  let err := st.2
  if arg = 0 then ({ ret with time := param }, err)
  else if arg = 8 then
    let ret := { ret with srcip := ParseIP param }
    if ret.srcip = [] then (ret, true) else (ret, err)
  else if arg = 9 then ({ ret with srcport := (Atoi param).1 }, err)
  else if arg = 10 then
    let ip := ParseIP param
    if ip = [] ∨ Contains ipfilter192 ip ∨ Contains ipfilter172 ip ∨ Contains ipfilter10 ip then
      (ret, true)
    else ({ ret with dstip := ip }, err)
  else if arg = 11 then ({ ret with dstport := (Atoi param).1 }, err)
  else (ret, err)

/-- The loop `for arg := range linesl` of `filter`, from index `arg` on. -/
def filterLoop : List String → Nat → logLine × Bool → logLine × Bool
  | [], _, st => st
  | param :: rest, arg, st => filterLoop rest (arg + 1) (filterCase arg param st)

/-- Go `filter(line)`, with the package variable `splitchar` as first argument: the record
and the rejection flag. -/
def filter (splitchar line : String) : logLine × Bool :=
  filterLoop (Split line splitchar) 0 ({}, false)

/-- The field at index `i` of a line, the empty string when the line has no such field. -/
def field (splitchar line : String) (i : Nat) : String :=
  (Split line splitchar).getD i ""

/-- A destination address is private when one of the three networks of `main` contains it. -/
def isPrivate (ip : IP) : Bool :=
  Contains ipfilter192 ip || Contains ipfilter172 ip || Contains ipfilter10 ip

/-! ## Printing a record -/

/-- Go `strconv.Itoa(i)`: the decimal text of `i`, with a leading `-` when `i` is negative. -/
def Itoa (i : Int) : String :=
  if i < 0 then String.mk ('-' :: (Nat.repr i.natAbs).data) else Nat.repr i.natAbs

/-- Go `(logLine).String`. -/
def logLine.String (l : logLine) : String :=
  let ret := "Time: " ++ l.time ++ "\n"
  let ret := ret ++ ("Source IP: " ++ IP.String l.srcip ++ "\n")
  let ret := ret ++ ("Source Port: " ++ Itoa l.srcport ++ "\n")
  let ret := ret ++ ("Destination IP: " ++ IP.String l.dstip ++ "\n")
  let ret := ret ++ ("Destination Port: " ++ Itoa l.dstport ++ "\n")
  ret

/-! ## The read loop of `main` -/

/-- Go `bufio.MaxScanTokenSize`: the size of the largest buffer of a `bufio.Scanner` that is
given no buffer of its own, as the one of `main`. -/
def MaxScanTokenSize : Nat := 64 * 1024

/-- Go `bufio.dropCR(data)`: the line without its final carriage return, if it has one. -/
def dropCR (line : String) : String :=
  if line.data.getLast? = some '\r' then String.mk line.data.dropLast else line

/-- The texts `scanner.Text()` returns over the successive calls of `scanner.Scan()` that
return true, for an input made of the given lines (each without its newline). A line
whose bytes fill the buffer (`MaxScanTokenSize` bytes or more) makes `Scan` fail with
`ErrTooLong`; it returns false then and at every later call. -/
def scanLines : List String → List String
  | [] => []
  | line :: rest =>
    if line.utf8ByteSize ≥ MaxScanTokenSize then []
    else dropCR line :: scanLines rest

/-- The loop `for scanner.Scan()` of `main` over the lines of the input (each without its
newline), on the pair of the slice `logline` and the diagnostics printed so far. The loop
ends when `Scan` returns false, at the end of the input or at the first line that is too
long for the scanner; `main` never looks at `scanner.Err()`. -/
def readLoop (splitchar : String) :
    List String → List logLine × List String → List logLine × List String
  | [], st => st
  | line :: rest, (logline, out) =>
    if line.utf8ByteSize ≥ MaxScanTokenSize then (logline, out)
    else
      let (ret, err) := filter splitchar (dropCR line)
      if err != true then readLoop splitchar rest (logline ++ [ret], out)
      else readLoop splitchar rest (logline, out ++ ["Error parsing"])

/-- The records `main` has collected when the read loop ends. -/
def collect (splitchar : String) (lines : List String) : List logLine :=
  (readLoop splitchar lines ([], [])).1

/-! ## The sorter (`logfilter.go`) -/

/-- Go `type logSorter struct`: the slice being sorted and the comparator (`by` in the
source). -/
structure logSorter where
  logs : List logLine
  by_ : logLine → logLine → Bool

/-- Go `(*logSorter).Len`. -/
def logSorter.Len (l : logSorter) : Nat := l.logs.length

/-- Go `(*logSorter).Swap(i, j)`; `none` stands for the run-time panic of an index out of
range. -/
def logSorter.Swap (l : logSorter) (i j : Nat) : Option logSorter :=
  match l.logs[i]?, l.logs[j]? with
  | some x, some y => some { l with logs := (l.logs.set i y).set j x }
  | _, _ => none

/-- Go `(*logSorter).Less(i, j)`; `none` stands for the run-time panic of an index out of
range. -/
def logSorter.Less (l : logSorter) (i j : Nat) : Option Bool :=
  match l.logs[i]?, l.logs[j]? with
  | some x, some y => some (l.by_ x y)
  | _, _ => none

/-- Go `sortBySrcPort`. -/
def sortBySrcPort (l1 l2 : logLine) : Bool := decide (l1.srcport < l2.srcport)

/-- Go `sortByDstPort`. -/
def sortByDstPort (l1 l2 : logLine) : Bool := decide (l1.dstport < l2.dstport)

/-- Go `sortByTime`. -/
def sortByTime (l1 l2 : logLine) : Bool := stringLess l1.time l2.time

/-- Go `sortBySrcIP`: the comparison of the texts of the source addresses. -/
def sortBySrcIP (l1 l2 : logLine) : Bool := stringLess (IP.String l1.srcip) (IP.String l2.srcip)

/-- Go `sortByDstIP`: the comparison of the texts of the destination addresses. -/
def sortByDstIP (l1 l2 : logLine) : Bool := stringLess (IP.String l1.dstip) (IP.String l2.dstip)

/-! ## `sort.Sort` (pattern-defeating quicksort of package `sort`) -/

/-- The inner loop `for j := i; j > a && data.Less(j, j-1); j--` of Go `sort.insertionSort`. -/
def insertionSortInner (a : Nat) : Nat → logSorter → Option logSorter
  | 0, data => some data
  | j + 1, data =>
    if j + 1 > a then
      match data.Less (j + 1) j with
      | none => none
      | some false => some data
      | some true =>
        match data.Swap (j + 1) j with
        | none => none
        | some data => insertionSortInner a j data
    else some data

/-- The outer loop `for i := a + 1; i < b; i++` of Go `sort.insertionSort`; the first argument
is the number `b - i` of turns still to make. -/
def insertionSortOuter (a : Nat) : Nat → Nat → logSorter → Option logSorter
  | 0, _, data => some data
  | n + 1, i, data =>
    match insertionSortInner a i data with
    | none => none
    | some data => insertionSortOuter a n (i + 1) data

/-- Go `sort.insertionSort(data, a, b)`. -/
def insertionSort (data : logSorter) (a b : Nat) : Option logSorter :=
  insertionSortOuter a (b - (a + 1)) (a + 1) data

/-- The statement `if child+1 < hi && data.Less(first+child, first+child+1) { child++ }` of
Go `sort.siftDown`: the new value of `child`. -/
def greaterChild (data : logSorter) (hi first child : Nat) : Option Nat :=
  if child + 1 < hi then
    match data.Less (first + child) (first + child + 1) with
    | none => none
    | some true => some (child + 1)
    | some false => some child
  else some child

/-- Go `sort.siftDown(data, lo, hi, first)`; the loop variable is `root`, and the first
argument bounds the number of turns (`root` grows at every turn and stays below `hi`). -/
def siftDown (hi first : Nat) : Nat → Nat → logSorter → Option logSorter
  | 0, _, _ => none
  | fuel + 1, root, data =>
    let child := 2 * root + 1
    if child ≥ hi then some data
    else
      match greaterChild data hi first child with
      | none => none
      | some child =>
        match data.Less (first + root) (first + child) with
        | none => none
        | some false => some data
        | some true =>
          match data.Swap (first + root) (first + child) with
          | none => none
          | some data => siftDown hi first fuel child data

/-- The loop `for i := (hi - 1) / 2; i >= 0; i--` of Go `sort.heapSort`; the first argument is
`i + 1`. -/
def heapSortBuild (hi first : Nat) : Nat → logSorter → Option logSorter
  | 0, data => some data
  | i + 1, data =>
    match siftDown hi first (hi + 1) i data with
    | none => none
    | some data => heapSortBuild hi first i data

/-- The loop `for i := hi - 1; i >= 0; i--` of Go `sort.heapSort`; the first argument is
`i + 1`. -/
def heapSortPop (first : Nat) : Nat → logSorter → Option logSorter
  | 0, data => some data
  | i + 1, data =>
    match data.Swap first (first + i) with
    | none => none
    | some data =>
      match siftDown i first (i + 1) 0 data with
      | none => none
      | some data => heapSortPop first i data

/-- Go `sort.heapSort(data, a, b)`. -/
def heapSort (data : logSorter) (a b : Nat) : Option logSorter :=
  let first := a
  let hi := b - a
  match heapSortBuild hi first ((hi - 1) / 2 + 1) data with
  | none => none
  | some data => heapSortPop first hi data

/-- The loop `for i <= j && data.Less(i, a) { i++ }` of Go `sort.partition`; the first
argument is `j + 1 - i`, which is 0 exactly when `i > j`. The result is the final `i`. -/
def scanLess (data : logSorter) (a : Nat) : Nat → Nat → Option Nat
  | 0, i => some i
  | n + 1, i =>
    match data.Less i a with
    | none => none
    | some true => scanLess data a n (i + 1)
    | some false => some i

/-- The loop `for i <= j && !data.Less(j, a) { j-- }` of Go `sort.partition`; the first
argument is `j + 1 - i`. The result is the final `j`. -/
def scanNotLess (data : logSorter) (a : Nat) : Nat → Nat → Option Nat
  | 0, j => some j
  | n + 1, j =>
    match data.Less j a with
    | none => none
    | some false => scanNotLess data a n (j - 1)
    | some true => some j

/-- The final `for` loop of Go `sort.partition`, on the state `(data, i, j)`; the result is the
state at the `break`. The first argument bounds the number of turns. -/
def partitionLoop (a : Nat) : Nat → logSorter → Nat → Nat → Option (logSorter × Nat × Nat)
  | 0, _, _, _ => none
  | fuel + 1, data, i, j =>
    match scanLess data a (j + 1 - i) i with
    | none => none
    | some i =>
      match scanNotLess data a (j + 1 - i) j with
      | none => none
      | some j =>
        if i > j then some (data, i, j)
        else
          match data.Swap i j with
          | none => none
          | some data => partitionLoop a fuel data (i + 1) (j - 1)

/-- Go `sort.partition(data, a, b, pivot)`: the data, `newpivot` and `alreadyPartitioned`. -/
def partition (data : logSorter) (a b pivot : Nat) : Option (logSorter × Nat × Bool) :=
  match data.Swap a pivot with
  | none => none
  | some data =>
    let i := a + 1
    let j := b - 1
    match scanLess data a (j + 1 - i) i with
    | none => none
    | some i =>
      match scanNotLess data a (j + 1 - i) j with
      | none => none
      | some j =>
        if i > j then
          match data.Swap j a with
          | none => none
          | some data => some (data, j, true)
        else
          match data.Swap i j with
          | none => none
          | some data =>
            match partitionLoop a (b - a) data (i + 1) (j - 1) with
            | none => none
            | some (data, _, j) =>
              match data.Swap j a with
              | none => none
              | some data => some (data, j, false)

/-- The loop `for i <= j && !data.Less(a, i) { i++ }` of Go `sort.partitionEqual`; the first
argument is `j + 1 - i`. -/
def scanNotGreater (data : logSorter) (a : Nat) : Nat → Nat → Option Nat
  | 0, i => some i
  | n + 1, i =>
    match data.Less a i with
    | none => none
    | some false => scanNotGreater data a n (i + 1)
    | some true => some i

/-- The loop `for i <= j && data.Less(a, j) { j-- }` of Go `sort.partitionEqual`; the first
argument is `j + 1 - i`. -/
def scanGreater (data : logSorter) (a : Nat) : Nat → Nat → Option Nat
  | 0, j => some j
  | n + 1, j =>
    match data.Less a j with
    | none => none
    | some true => scanGreater data a n (j - 1)
    | some false => some j

/-- The `for` loop of Go `sort.partitionEqual`, on the state `(data, i, j)`; the result is the
data and `i` at the `break`. The first argument bounds the number of turns. -/
def partitionEqualLoop (a : Nat) : Nat → logSorter → Nat → Nat → Option (logSorter × Nat)
  | 0, _, _, _ => none
  | fuel + 1, data, i, j =>
    match scanNotGreater data a (j + 1 - i) i with
    | none => none
    | some i =>
      match scanGreater data a (j + 1 - i) j with
      | none => none
      | some j =>
        if i > j then some (data, i)
        else
          match data.Swap i j with
          | none => none
          | some data => partitionEqualLoop a fuel data (i + 1) (j - 1)

/-- Go `sort.partitionEqual(data, a, b, pivot)`: the data and `newpivot`. -/
def partitionEqual (data : logSorter) (a b pivot : Nat) : Option (logSorter × Nat) :=
  match data.Swap a pivot with
  | none => none
  | some data => partitionEqualLoop a (b - a + 1) data (a + 1) (b - 1)

/-- The loop `for i < b && !data.Less(i, i-1) { i++ }` of Go `sort.partialInsertionSort`; the
first argument is `b - i`. The result is the final `i`. -/
def scanOrdered (data : logSorter) : Nat → Nat → Option Nat
  | 0, i => some i
  | n + 1, i =>
    match data.Less i (i - 1) with
    | none => none
    | some false => scanOrdered data n (i + 1)
    | some true => some i

/-- The loop `for j := i - 1; j >= 1; j--` of Go `sort.partialInsertionSort`, which shifts the
smaller element to the left; the argument is `j`. -/
def shiftLeft : Nat → logSorter → Option logSorter
  | 0, data => some data
  | j + 1, data =>
    match data.Less (j + 1) j with
    | none => none
    | some false => some data
    | some true =>
      match data.Swap (j + 1) j with
      | none => none
      | some data => shiftLeft j data

/-- The loop `for j := i + 1; j < b; j++` of Go `sort.partialInsertionSort`, which shifts the
greater element to the right; the first argument is `b - j`. -/
def shiftRight : Nat → Nat → logSorter → Option logSorter
  | 0, _, data => some data
  | n + 1, j, data =>
    match data.Less j (j - 1) with
    | none => none
    | some false => some data
    | some true =>
      match data.Swap j (j - 1) with
      | none => none
      | some data => shiftRight n (j + 1) data

/-- The loop `for j := 0; j < maxSteps; j++` of Go `sort.partialInsertionSort`; the first
argument is the number of steps left, and the result tells whether the slice is sorted. -/
def partialInsertionSortLoop (a b : Nat) : Nat → Nat → logSorter → Option (logSorter × Bool)
  | 0, _, data => some (data, false)
  | steps + 1, i, data =>
    match scanOrdered data (b - i) i with
    | none => none
    | some i =>
      if i = b then some (data, true)
      else if b - a < 50 then some (data, false)
      else
        match data.Swap i (i - 1) with
        | none => none
        | some data =>
          let left := if i - a ≥ 2 then shiftLeft (i - 1) data else some data
          match left with
          | none => none
          | some data =>
            let right := if b - i ≥ 2 then shiftRight (b - (i + 1)) (i + 1) data else some data
            match right with
            | none => none
            | some data => partialInsertionSortLoop a b steps i data

/-- Go `sort.partialInsertionSort(data, a, b)`, with `maxSteps = 5` and
`shortestShifting = 50`. -/
def partialInsertionSort (data : logSorter) (a b : Nat) : Option (logSorter × Bool) :=
  partialInsertionSortLoop a b 5 (a + 1) data

/-- Go `bits.Len(x)`: the number of bits of `x`; the first argument bounds the recursion. -/
def bitsLenAux : Nat → Nat → Nat
  | 0, _ => 0
  | fuel + 1, x => if x = 0 then 0 else bitsLenAux fuel (x / 2) + 1

/-- Go `bits.Len(uint(x))`. -/
def bitsLen (x : Nat) : Nat := bitsLenAux x x

/-- Go `(*xorshift).Next` of package `sort`, on a `uint64`. -/
def xorshiftNext (r : Nat) : Nat :=
  let r := r ^^^ ((r <<< 13) % 2 ^ 64)
  let r := r ^^^ (r >>> 7)
  r ^^^ ((r <<< 17) % 2 ^ 64)

/-- Go `sort.nextPowerOfTwo(length)`. -/
def nextPowerOfTwo (length : Nat) : Nat := 2 ^ bitsLen length

/-- The loop `for i := 0; i < 3; i++` of Go `sort.breakPatterns`; the first argument is the
number of turns left. -/
def breakPatternsLoop (a length modulus idx : Nat) : Nat → Nat → Nat → logSorter →
    Option logSorter
  | 0, _, _, data => some data
  | n + 1, i, random, data =>
    let random := xorshiftNext random
    let other := random &&& (modulus - 1)
    let other := if other ≥ length then other - length else other
    match data.Swap (idx - 1 + i) (a + other) with
    | none => none
    | some data => breakPatternsLoop a length modulus idx n (i + 1) random data

/-- Go `sort.breakPatterns(data, a, b)`. -/
def breakPatterns (data : logSorter) (a b : Nat) : Option logSorter :=
  let length := b - a
  if length ≥ 8 then
    breakPatternsLoop a length (nextPowerOfTwo length) (a + (length / 4) * 2 - 1) 3 0 length data
  else some data

/-- Go `sort.sortedHint`. -/
inductive sortedHint where
  | unknownHint
  | increasingHint
  | decreasingHint
  deriving DecidableEq, Repr

/-- Go `sort.order2(data, a, b, swaps)`: the two indices in order and the new count. -/
def order2 (data : logSorter) (a b swaps : Nat) : Option (Nat × Nat × Nat) :=
  match data.Less b a with
  | none => none
  | some true => some (b, a, swaps + 1)
  | some false => some (a, b, swaps)

/-- Go `sort.median(data, a, b, c, swaps)`: the index of the median and the new count. -/
def median (data : logSorter) (a b c swaps : Nat) : Option (Nat × Nat) :=
  match order2 data a b swaps with
  | none => none
  | some (a, b, swaps) =>
    match order2 data b c swaps with
    | none => none
    | some (b, _, swaps) =>
      match order2 data a b swaps with
      | none => none
      | some (_, b, swaps) => some (b, swaps)

/-- Go `sort.medianAdjacent(data, a, swaps)`. -/
def medianAdjacent (data : logSorter) (a swaps : Nat) : Option (Nat × Nat) :=
  median data (a - 1) a (a + 1) swaps

/-- Go `sort.choosePivot(data, a, b)`, with `shortestNinther = 50` and `maxSwaps = 4 * 3`. -/
def choosePivot (data : logSorter) (a b : Nat) : Option (Nat × sortedHint) :=
  let l := b - a
  let i := a + l / 4 * 1
  let j := a + l / 4 * 2
  let k := a + l / 4 * 3
  let chosen : Option (Nat × Nat) :=
    if l ≥ 8 then
      let ijk : Option (Nat × Nat × Nat × Nat) :=
        if l ≥ 50 then
          match medianAdjacent data i 0 with
          | none => none
          | some (i, swaps) =>
            match medianAdjacent data j swaps with
            | none => none
            | some (j, swaps) =>
              match medianAdjacent data k swaps with
              | none => none
              | some (k, swaps) => some (i, j, k, swaps)
        else some (i, j, k, 0)
      match ijk with
      | none => none
      | some (i, j, k, swaps) => median data i j k swaps
    else some (j, 0)
  match chosen with
  | none => none
  | some (j, swaps) =>
    if swaps = 0 then some (j, .increasingHint)
    else if swaps = 4 * 3 then some (j, .decreasingHint)
    else some (j, .unknownHint)

/-- The loop `for i < j` of Go `sort.reverseRange`; the first argument bounds the number of
turns. -/
def reverseRangeLoop : Nat → Nat → Nat → logSorter → Option logSorter
  | 0, _, _, data => some data
  | n + 1, i, j, data =>
    if i < j then
      match data.Swap i j with
      | none => none
      | some data => reverseRangeLoop n (i + 1) (j - 1) data
    else some data

/-- Go `sort.reverseRange(data, a, b)`. -/
def reverseRange (data : logSorter) (a b : Nat) : Option logSorter :=
  reverseRangeLoop (b - a) a (b - 1) data

/-- The statement `if !wasBalanced { breakPatterns(data, a, b); limit-- }` of Go
`sort.pdqsort`: the data and the new `limit`. -/
def pdqBreak (data : logSorter) (a b limit : Nat) (wasBalanced : Bool) :
    Option (logSorter × Nat) :=
  if !wasBalanced then
    match breakPatterns data a b with
    | none => none
    | some data => some (data, limit - 1)
  else some (data, limit)

/-- The statement `if hint == decreasingHint { reverseRange(data, a, b); ... }` of Go
`sort.pdqsort`: the data, the new `pivot` and the new `hint`. -/
def pdqReverse (data : logSorter) (a b pivot : Nat) (hint : sortedHint) :
    Option (logSorter × Nat × sortedHint) :=
  if hint = .decreasingHint then
    match reverseRange data a b with
    | none => none
    | some data => some (data, (b - 1) - (pivot - a), .increasingHint)
  else some (data, pivot, hint)

/-- The statement `if wasBalanced && wasPartitioned && hint == increasingHint` of Go
`sort.pdqsort`: the data and whether `partialInsertionSort` was called and returned true. -/
def pdqPartial (data : logSorter) (a b : Nat) (wasBalanced wasPartitioned : Bool)
    (hint : sortedHint) : Option (logSorter × Bool) :=
  if wasBalanced ∧ wasPartitioned ∧ hint = .increasingHint then
    partialInsertionSort data a b
  else some (data, false)

/-- The condition `a > 0 && !data.Less(a-1, pivot)` of Go `sort.pdqsort`. -/
def pdqEqual (data : logSorter) (a pivot : Nat) : Option Bool :=
  if a > 0 then
    match data.Less (a - 1) pivot with
    | none => none
    | some c => some (!c)
  else some false

/-- Go `sort.pdqsort(data, a, b, limit)`: the `for` loop on the state `(a, b, limit,
wasBalanced, wasPartitioned)`; the recursive call on the smaller part starts a new loop with
both flags true. The first argument bounds the number of nested turns, each of which works
on a shorter range. -/
def pdqsortLoop : Nat → logSorter → Nat → Nat → Nat → Bool → Bool → Option logSorter
  | 0, _, _, _, _, _, _ => none
  | fuel + 1, data, a, b, limit, wasBalanced, wasPartitioned =>
    let length := b - a
    if length ≤ 12 then insertionSort data a b
    else if limit = 0 then heapSort data a b
    else
      match pdqBreak data a b limit wasBalanced with
      | none => none
      | some (data, limit) =>
        match choosePivot data a b with
        | none => none
        | some (pivot, hint) =>
          match pdqReverse data a b pivot hint with
          | none => none
          | some (data, pivot, hint) =>
            match pdqPartial data a b wasBalanced wasPartitioned hint with
            | none => none
            | some (data, true) => some data
            | some (data, false) =>
              match pdqEqual data a pivot with
              | none => none
              | some true =>
                match partitionEqual data a b pivot with
                | none => none
                | some (data, mid) => pdqsortLoop fuel data mid b limit wasBalanced wasPartitioned
              | some false =>
                match partition data a b pivot with
                | none => none
                | some (data, mid, alreadyPartitioned) =>
                  let leftLen := mid - a
                  let rightLen := b - mid
                  let balanceThreshold := length / 8
                  if leftLen < rightLen then
                    match pdqsortLoop fuel data a mid limit true true with
                    | none => none
                    | some data =>
                      pdqsortLoop fuel data (mid + 1) b limit (decide (leftLen ≥ balanceThreshold))
                        alreadyPartitioned
                  else
                    match pdqsortLoop fuel data (mid + 1) b limit true true with
                    | none => none
                    | some data =>
                      pdqsortLoop fuel data a mid limit (decide (rightLen ≥ balanceThreshold))
                        alreadyPartitioned

/-- Go `sort.pdqsort(data, a, b, limit)`. -/
def pdqsort (data : logSorter) (a b limit : Nat) : Option logSorter :=
  pdqsortLoop (b - a + 1) data a b limit true true

/-- Go `sort.Sort(data)` (`Sort` alone is reserved in Lean). -/
def sort_Sort (data : logSorter) : Option logSorter :=
  let n := data.Len
  if n ≤ 1 then some data
  else pdqsort data 0 n (bitsLen n)

/-- Go `By.Sort(logline)`: the content of the slice `logline` when `sort.Sort` returns,
`none` if it panics or does not return. -/
def By_Sort (by_ : logLine → logLine → Bool) (logline : List logLine) : Option (List logLine) :=
  (sort_Sort { logs := logline, by_ := by_ }).map (·.logs)

/-! ## The sort step of `main` -/

/-- The `switch orderby` of `main`: the slice `logline` after the sort step, `none` if the
sort panics or does not return. -/
def sortStep (orderby : String) (logline : List logLine) : Option (List logLine) :=
  if orderby = "time" then By_Sort sortByTime logline
  else if orderby = "srcip" then By_Sort sortBySrcIP logline
  else if orderby = "srcport" then By_Sort sortBySrcPort logline
  else if orderby = "dstip" then By_Sort sortByDstIP logline
  else if orderby = "dstport" then By_Sort sortByDstPort logline
  else some logline

/-- The records `main` prints: the records collected from the input lines, after the sort
step. -/
def mainRecords (splitchar orderby : String) (lines : List String) : Option (List logLine) :=
  sortStep orderby (collect splitchar lines)

/-! ## Predicates used in the proofs about the sorter -/

/-- Requirements on a comparator for `sort.Sort` to sort: a strict weak ordering, given by
asymmetry and negative transitivity. -/
structure StrictWeak (less : logLine → logLine → Bool) : Prop where
  asymm : ∀ x y, less x y = true → less y x = false
  negtrans : ∀ x y z, less x y = false → less y z = false → less x z = false

/-- The element at index `k` of the slice (Go's zero value beyond its end). -/
def logSorter.val (l : logSorter) (k : Nat) : logLine := l.logs.getD k default

/-- The slice is sorted on the index range `[a, b)`: no element is less than an earlier one. -/
def SortedOn (s : logSorter) (a b : Nat) : Prop :=
  ∀ i j, a ≤ i → i < j → j < b → s.by_ (s.val j) (s.val i) = false

/-- The state `s'` arises from `s` by permuting the elements at the indices of `[a, b)`. -/
structure Shuffle (a b : Nat) (s s' : logSorter) : Prop where
  by_eq : s'.by_ = s.by_
  len_eq : s'.logs.length = s.logs.length
  perm : ∃ σ : Equiv.Perm Nat, (∀ k, k < a ∨ b ≤ k → σ k = k) ∧ ∀ k, s'.val k = s.val (σ k)

/-- The heap order at node `k` of the heap laid out from index `first` on: no child of `k`
below `hi` is greater than `k`. -/
def HeapAt (s : logSorter) (first hi k : Nat) : Prop :=
  ∀ c, (c = 2 * k + 1 ∨ c = 2 * k + 2) → c < hi →
    s.by_ (s.val (first + k)) (s.val (first + c)) = false

/-- The invariant of the scans of `partition`: the pivot `p` is at index `a`, the elements
of `(a, i)` are less than `p` and those of `(j, b)` are not. -/
structure PartInv (less : logLine → logLine → Bool) (s : logSorter) (a b i j : Nat)
    (p : logLine) : Prop where
  hi : a + 1 ≤ i
  hj : j + 1 ≤ b
  hij : i ≤ j + 1
  pa : s.val a = p
  lo : ∀ k, a < k → k < i → less (s.val k) p = true
  up : ∀ k, j < k → k < b → less (s.val k) p = false

/-- The invariant of the scans of `partitionEqual`: the pivot `p` is at index `a`, no
element of `(a, i)` is greater than `p` and every element of `(j, b)` is. -/
structure EqualInv (less : logLine → logLine → Bool) (s : logSorter) (a b i j : Nat)
    (p : logLine) : Prop where
  hi : a + 1 ≤ i
  hj : j + 1 ≤ b
  hij : i ≤ j + 1
  pa : s.val a = p
  lo : ∀ k, a < k → k < i → less p (s.val k) = false
  up : ∀ k, j < k → k < b → less p (s.val k) = true

/-- The element just before the range is not greater than any element of the range. -/
def LowerBounded (s : logSorter) (a b : Nat) : Prop :=
  0 < a → ∀ k, a ≤ k → k < b → s.by_ (s.val k) (s.val (a - 1)) = false

/-! ## Predicates used in the statements about printing and about the comparators -/

/-- The five lines of the printed block of a record as the specification lists them, each
without its final newline. -/
def specLines (l : logLine) : List String :=
  ["Time: " ++ l.time,
   "Source IP: " ++ IP.String l.srcip,
   "Source Port: " ++ Itoa l.srcport,
   "Destination IP: " ++ IP.String l.dstip,
   "Destination Port: " ++ Itoa l.dstport]

/-- The comparator `less` is a strict weak ordering whose classes of incomparable records
are the records with the same `key`: it is irreflexive, asymmetric and transitive, two
records are incomparable exactly when their keys are equal, and incomparability is
transitive. -/
structure StrictWeakByKey {κ : Type} (less : logLine → logLine → Bool) (key : logLine → κ) :
    Prop where
  irreflexive : ∀ x, less x x = false
  asymmetric : ∀ x y, less x y = true → less y x = false
  transitive : ∀ x y z, less x y = true → less y z = true → less x z = true
  incomparable_iff : ∀ x y, (less x y = false ∧ less y x = false) ↔ key x = key y
  incomparable_trans : ∀ x y z, (less x y = false ∧ less y x = false) →
    (less y z = false ∧ less z y = false) → (less x z = false ∧ less z x = false)

/-! ## The line filter: lemmas -/

theorem filterLoop_tail (rest : List String) (arg : Nat) (st : logLine × Bool)
    (h : 12 ≤ arg) : filterLoop rest arg st = st := by
  induction rest generalizing arg st with
  | nil => rfl
  | cons p rest ih =>
    have hc : filterCase arg p st = st := by
      unfold filterCase
      have h0 : arg ≠ 0 := by omega
      have h8 : arg ≠ 8 := by omega
      have h9 : arg ≠ 9 := by omega
      have h10 : arg ≠ 10 := by omega
      have h11 : arg ≠ 11 := by omega
      simp [h0, h8, h9, h10, h11]
    rw [filterLoop, hc]
    exact ih (arg + 1) st (by omega)

theorem exists_twelve (l : List String) (h : 12 ≤ l.length) :
    ∃ f0 f1 f2 f3 f4 f5 f6 f7 f8 f9 f10 f11 rest,
      l = f0 :: f1 :: f2 :: f3 :: f4 :: f5 :: f6 :: f7 :: f8 :: f9 :: f10 :: f11 :: rest := by
  rcases l with _ | ⟨f0, _ | ⟨f1, _ | ⟨f2, _ | ⟨f3, _ | ⟨f4, _ | ⟨f5, _ | ⟨f6, _ | ⟨f7,
    _ | ⟨f8, _ | ⟨f9, _ | ⟨f10, _ | ⟨f11, rest⟩⟩⟩⟩⟩⟩⟩⟩⟩⟩⟩⟩
  all_goals first
    | (simp only [List.length_cons, List.length_nil] at h; omega)
    | exact ⟨_, _, _, _, _, _, _, _, _, _, _, _, _, rfl⟩

theorem isPrivate_nil : isPrivate [] = false := by decide

theorem isPrivate_eq_false_iff (ip : IP) :
    isPrivate ip = false ↔
      Contains ipfilter192 ip = false ∧ Contains ipfilter172 ip = false ∧
        Contains ipfilter10 ip = false := by
  unfold isPrivate
  cases Contains ipfilter192 ip <;> cases Contains ipfilter172 ip <;>
    cases Contains ipfilter10 ip <;> simp

/-- C1. A line with at least 12 fields whose field 8 parses as an IP address and whose
field 10 parses as an IP address outside the three private networks is accepted, and the
record holds field 0 verbatim, the parsed addresses and the integer values of fields 9
and 11. -/
theorem filter_accepts_public_line (splitchar line : String)
    (hlen : 12 ≤ (Split line splitchar).length)
    (hsrc : ParseIP (field splitchar line 8) ≠ [])
    (hdst : ParseIP (field splitchar line 10) ≠ [])
    (hpub : isPrivate (ParseIP (field splitchar line 10)) = false) :
    filter splitchar line =
      ({ time := field splitchar line 0,
         srcip := ParseIP (field splitchar line 8),
         srcport := (Atoi (field splitchar line 9)).1,
         dstip := ParseIP (field splitchar line 10),
         dstport := (Atoi (field splitchar line 11)).1 }, false) := by
  unfold filter field at *
  generalize Split line splitchar = fields at *
  obtain ⟨h1, h2, h3⟩ := (isPrivate_eq_false_iff _).1 hpub
  obtain ⟨f0, f1, f2, f3, f4, f5, f6, f7, f8, f9, f10, f11, rest, rfl⟩ := exists_twelve fields hlen
  simp only [List.getD_cons_succ, List.getD_cons_zero] at *
  simp [filterLoop, filterCase, filterLoop_tail, hsrc, hdst, h1, h2, h3]

theorem isPrivate_eq_true_iff (ip : IP) :
    isPrivate ip = true ↔
      (Contains ipfilter192 ip = true ∨ Contains ipfilter172 ip = true ∨
        Contains ipfilter10 ip = true) := by
  unfold isPrivate
  cases Contains ipfilter192 ip <;> cases Contains ipfilter172 ip <;>
    cases Contains ipfilter10 ip <;> simp

theorem filterLoop_twelve (rest : List String) (st : logLine × Bool) :
    filterLoop rest 12 st = st :=
  filterLoop_tail rest 12 st (Nat.le_refl 12)

/-- Closed form of the loop of `filter` on the list of fields. -/
theorem filterLoop_closed (fields : List String) :
    filterLoop fields 0 ({}, false) =
      ({ time := fields.getD 0 "",
         srcip := if 8 < fields.length then ParseIP (fields.getD 8 "") else [],
         srcport := if 9 < fields.length then (Atoi (fields.getD 9 "")).1 else 0,
         dstip := if 10 < fields.length ∧ ParseIP (fields.getD 10 "") ≠ [] ∧
             isPrivate (ParseIP (fields.getD 10 "")) = false
           then ParseIP (fields.getD 10 "") else [],
         dstport := if 11 < fields.length then (Atoi (fields.getD 11 "")).1 else 0 },
       decide ((8 < fields.length ∧ ParseIP (fields.getD 8 "") = []) ∨
         (10 < fields.length ∧ (ParseIP (fields.getD 10 "") = [] ∨
            isPrivate (ParseIP (fields.getD 10 "")) = true)))) := by
  rcases fields with _ | ⟨f0, _ | ⟨f1, _ | ⟨f2, _ | ⟨f3, _ | ⟨f4, _ | ⟨f5, _ | ⟨f6, _ | ⟨f7,
    _ | ⟨f8, _ | ⟨f9, _ | ⟨f10, _ | ⟨f11, rest⟩⟩⟩⟩⟩⟩⟩⟩⟩⟩⟩⟩
  all_goals
    simp only [filterLoop, filterCase, filterLoop_tail, List.length_cons, List.length_nil,
      List.getD_cons_succ, List.getD_cons_zero, List.getD_nil]
    simp only [isPrivate_eq_true_iff, isPrivate_eq_false_iff]
    try simp
    try (split_ifs <;> simp_all [filterLoop_twelve])

theorem filter_closed (splitchar line : String) :
    filter splitchar line =
      ({ time := field splitchar line 0,
         srcip := if 8 < (Split line splitchar).length then ParseIP (field splitchar line 8)
           else [],
         srcport := if 9 < (Split line splitchar).length then (Atoi (field splitchar line 9)).1
           else 0,
         dstip := if 10 < (Split line splitchar).length ∧
             ParseIP (field splitchar line 10) ≠ [] ∧
             isPrivate (ParseIP (field splitchar line 10)) = false
           then ParseIP (field splitchar line 10) else [],
         dstport := if 11 < (Split line splitchar).length then
             (Atoi (field splitchar line 11)).1 else 0 },
       decide ((8 < (Split line splitchar).length ∧ ParseIP (field splitchar line 8) = []) ∨
         (10 < (Split line splitchar).length ∧ (ParseIP (field splitchar line 10) = [] ∨
            isPrivate (ParseIP (field splitchar line 10)) = true)))) :=
  filterLoop_closed (Split line splitchar)

/-- C2. A line whose field 10 is an address inside one of the three private networks is
rejected, whatever the other fields are and however many fields follow. -/
theorem filter_rejects_private_destination (splitchar line : String)
    (hlen : 10 < (Split line splitchar).length)
    (hpriv : isPrivate (ParseIP (field splitchar line 10)) = true) :
    (filter splitchar line).2 = true := by
  rw [filter_closed]
  simp [hlen, hpriv]

theorem filter_rejects_private_destination_witness :
    (filter ";"
      "12:00:01;allow;fw1;in;out;1;rule1;svc;8.8.8.8;5000;192.168.1.1;443;tcp;;;;").2 = true :=
  filter_rejects_private_destination ";"
    "12:00:01;allow;fw1;in;out;1;rule1;svc;8.8.8.8;5000;192.168.1.1;443;tcp;;;;"
    (by decide) (by decide)

/-- C3. A line whose field 8 or field 10 is present and does not parse as an IP address is
rejected, whatever the other fields are. -/
theorem filter_rejects_unparseable_address (splitchar line : String)
    (h : (8 < (Split line splitchar).length ∧ ParseIP (field splitchar line 8) = []) ∨
      (10 < (Split line splitchar).length ∧ ParseIP (field splitchar line 10) = [])) :
    (filter splitchar line).2 = true := by
  rw [filter_closed]
  rcases h with ⟨h1, h2⟩ | ⟨h1, h2⟩ <;> simp [h1, h2]

theorem filter_rejects_unparseable_address_witness :
    ParseIP "1.1.1.1" ≠ [] ∧ isPrivate (ParseIP "1.1.1.1") = false ∧
    (filter ";" "12:00:01;allow;fw1;in;out;1;rule1;svc;8.8.8.x;5000;1.1.1.1;443;tcp").2 = true :=
  ⟨by decide, by decide,
    filter_rejects_unparseable_address ";"
      "12:00:01;allow;fw1;in;out;1;rule1;svc;8.8.8.x;5000;1.1.1.1;443;tcp"
      (Or.inl ⟨by decide, by decide⟩)⟩

/-! ## `strconv.Atoi` on failure -/

theorem parseUintLoop_errSyn (s : List Char) (n : Nat)
    (h : (parseUintLoop s n).2 = some .errSyn) : (parseUintLoop s n).1 = 0 := by
  induction s generalizing n with
  | nil => simp [parseUintLoop] at h
  | cons c cs ih =>
    unfold parseUintLoop at h ⊢
    simp only at h ⊢
    split_ifs at h ⊢ <;> first | rfl | (simp at h; done) | exact ih _ h

theorem ParseInt_errSyn (s : List Char) (h : (ParseInt s).2 = some .errSyn) :
    (ParseInt s).1 = 0 := by
  cases s with
  | nil => rfl
  | cons c cs =>
    simp only [ParseInt] at h ⊢
    generalize ParseUint (if (c == '+') = true ∨ (c == '-') = true then cs else c :: cs) = r
      at h ⊢
    rcases r with ⟨un, _ | _ | _⟩
    · simp only at h ⊢
      split_ifs at h ⊢ <;> simp_all
    · rfl
    · simp only at h ⊢
      split_ifs at h ⊢ <;> simp_all

theorem ParseInt_errRange (s : List Char) (h : (ParseInt s).2 = some .errRange) :
    (ParseInt s).1 = if s.head? = some '-' then -2 ^ 63 else 2 ^ 63 - 1 := by
  cases s with
  | nil => simp [ParseInt] at h
  | cons c cs =>
    simp only [ParseInt, List.head?_cons, Option.some.injEq] at h ⊢
    generalize ParseUint (if (c == '+') = true ∨ (c == '-') = true then cs else c :: cs) = r
      at h ⊢
    rcases r with ⟨un, _ | _ | _⟩
    · simp only at h ⊢
      split_ifs at h ⊢ <;> simp_all [intSize]
    · simp at h
    · simp only at h ⊢
      split_ifs at h ⊢ <;> simp_all [intSize]

theorem Atoi_errSyn (s : String) (h : (Atoi s).2 = some .errSyn) : (Atoi s).1 = 0 := by
  unfold Atoi at h ⊢
  simp only at h ⊢
  split_ifs at h ⊢
  · cases hs : s.data with
    | nil => rfl
    | cons c cs =>
      simp only [hs] at h ⊢
      generalize (if (c == '-') = true ∨ (c == '+') = true then cs else c :: cs) = body at h ⊢
      by_cases hb : body.length < 1
      · simp [hb]
      · simp only [hb, if_false] at h ⊢
        cases hr : atoiFastLoop body 0 with
        | none => simp
        | some n => simp [hr] at h
  · exact ParseInt_errSyn _ h

theorem Atoi_errRange (s : String) (h : (Atoi s).2 = some .errRange) :
    (Atoi s).1 = if s.data.head? = some '-' then -2 ^ 63 else 2 ^ 63 - 1 := by
  unfold Atoi at h ⊢
  simp only at h ⊢
  by_cases hfast : 0 < s.data.length ∧ s.data.length < 19
  · exfalso
    simp only [hfast, and_self, if_true] at h
    cases hs : s.data with
    | nil => simp [hs] at h
    | cons c cs =>
      simp only [hs] at h
      generalize (if (c == '-') = true ∨ (c == '+') = true then cs else c :: cs) = body at h
      by_cases hb : body.length < 1
      · simp [hb] at h
      · simp only [hb, if_false] at h
        cases hr : atoiFastLoop body 0 <;> simp [hr] at h
  · simp only [hfast, if_false] at h ⊢
    exact ParseInt_errRange _ h

theorem Atoi_empty : Atoi "" = (0, some .errSyn) := by decide

theorem field_absent (splitchar line : String) (i : Nat)
    (h : ¬ i < (Split line splitchar).length) : field splitchar line i = "" := by
  unfold field
  exact List.getD_eq_default _ _ (by omega)

/-- C4 (amended). A port field that fails to parse with a syntax error (non-numeric or
empty text) gives port 0; one that fails with a range error (a digit string too large for
an `int`) gives the nearest bound of the `int` range, which is `-2^63` when the text begins
with `-` and `2^63 - 1` otherwise; in no case does the port field change the rejection
flag, which is the same for every line that differs only in fields 9 and 11. -/
theorem port_parse_failure (splitchar line : String) :
    ((Atoi (field splitchar line 9)).2 = some .errSyn →
      (filter splitchar line).1.srcport = 0) ∧
    ((Atoi (field splitchar line 9)).2 = some .errRange →
      (filter splitchar line).1.srcport =
        if (field splitchar line 9).data.head? = some '-' then -2 ^ 63 else 2 ^ 63 - 1) ∧
    ((Atoi (field splitchar line 11)).2 = some .errSyn →
      (filter splitchar line).1.dstport = 0) ∧
    ((Atoi (field splitchar line 11)).2 = some .errRange →
      (filter splitchar line).1.dstport =
        if (field splitchar line 11).data.head? = some '-' then -2 ^ 63 else 2 ^ 63 - 1) ∧
    (∀ line' : String,
      (Split line' splitchar).length = (Split line splitchar).length →
      (∀ i, i ≠ 9 → i ≠ 11 → field splitchar line' i = field splitchar line i) →
      (filter splitchar line').2 = (filter splitchar line).2) := by
  refine ⟨?_, ?_, ?_, ?_, ?_⟩
  · intro h
    rw [filter_closed]
    simp only
    split_ifs
    · exact Atoi_errSyn _ h
    · rfl
  · intro h
    have hv := Atoi_errRange _ h
    rw [filter_closed]
    simp only
    by_cases hl : 9 < (Split line splitchar).length
    · simp only [hl, if_true]
      exact hv
    · rw [field_absent _ _ _ hl, Atoi_empty] at h
      simp at h
  · intro h
    rw [filter_closed]
    simp only
    split_ifs
    · exact Atoi_errSyn _ h
    · rfl
  · intro h
    have hv := Atoi_errRange _ h
    rw [filter_closed]
    simp only
    by_cases hl : 11 < (Split line splitchar).length
    · simp only [hl, if_true]
      exact hv
    · rw [field_absent _ _ _ hl, Atoi_empty] at h
      simp at h
  · intro line' hlen hf
    rw [filter_closed, filter_closed]
    simp only [hlen, hf 8 (by decide) (by decide), hf 10 (by decide) (by decide)]

theorem port_parse_failure_witness :
    (filter ";"
      "12:00:01;allow;fw1;in;out;1;rule1;svc;8.8.8.8;9223372036854775808;1.1.1.1;443;tcp;;;;"
      ).1.srcport = 9223372036854775807 ∧
    (filter ";"
      "12:00:01;allow;fw1;in;out;1;rule1;svc;8.8.8.8;5000;1.1.1.1;-9223372036854775809;tcp"
      ).1.dstport = -9223372036854775808 ∧
    (filter ";"
      "12:00:01;allow;fw1;in;out;1;rule1;svc;8.8.8.8;abc;1.1.1.1;443;tcp;;;;").1.srcport = 0 ∧
    (filter ";"
      "12:00:01;allow;fw1;in;out;1;rule1;svc;8.8.8.8;abc;1.1.1.1;443;tcp;;;;").2 = false :=
  ⟨((port_parse_failure ";"
      "12:00:01;allow;fw1;in;out;1;rule1;svc;8.8.8.8;9223372036854775808;1.1.1.1;443;tcp;;;;"
      ).2.1 (by decide)).trans (by decide),
    ((port_parse_failure ";"
      "12:00:01;allow;fw1;in;out;1;rule1;svc;8.8.8.8;5000;1.1.1.1;-9223372036854775809;tcp"
      ).2.2.2.1 (by decide)).trans (by decide),
    (port_parse_failure ";"
      "12:00:01;allow;fw1;in;out;1;rule1;svc;8.8.8.8;abc;1.1.1.1;443;tcp;;;;").1 (by decide),
    ((port_parse_failure ";"
      "12:00:01;allow;fw1;in;out;1;rule1;svc;8.8.8.8;abc;1.1.1.1;443;tcp;;;;").2.2.2.2
      "12:00:01;allow;fw1;in;out;1;rule1;svc;8.8.8.8;5000;1.1.1.1;443;tcp;;;;"
      (by decide) (by
        intro i h9 h11
        have h12 : i < 9 ∨ i = 10 ∨ 11 < i := by omega
        rcases h12 with h | h | h
        · interval_cases i <;> decide
        · subst h; decide
        · obtain ⟨k, rfl⟩ : ∃ k, i = k + 12 := ⟨i - 12, by omega⟩
          simp only [field]
          have e1 : Split "12:00:01;allow;fw1;in;out;1;rule1;svc;8.8.8.8;5000;1.1.1.1;443;tcp;;;;" ";"
              = ["12:00:01", "allow", "fw1", "in", "out", "1", "rule1", "svc", "8.8.8.8", "5000",
                  "1.1.1.1", "443", "tcp", "", "", "", ""] := by decide
          have e2 : Split "12:00:01;allow;fw1;in;out;1;rule1;svc;8.8.8.8;abc;1.1.1.1;443;tcp;;;;" ";"
              = ["12:00:01", "allow", "fw1", "in", "out", "1", "rule1", "svc", "8.8.8.8", "abc",
                  "1.1.1.1", "443", "tcp", "", "", "", ""] := by decide
          rw [e1, e2]
          simp only [List.getD_cons_succ])).symm.trans (by decide)⟩

/-- C4 as stated fails: a digit string too large for an `int` at index 9 is a parse failure
of `strconv.Atoi`, yet the source port of the record is the largest `int`, not 0. -/
theorem port_range_failure_not_zero :
    ¬ ∀ splitchar line : String,
      (Atoi (field splitchar line 9)).2 ≠ none → (filter splitchar line).1.srcport = 0 := by
  intro h
  have h1 := h ";"
    "12:00:01;allow;fw1;in;out;1;rule1;svc;8.8.8.8;9223372036854775808;1.1.1.1;443;tcp;;;;"
    (by decide)
  revert h1
  decide

theorem filter_accepts_public_line_witness :
    filter ";" "12:00:01;allow;fw1;in;out;1;rule1;svc;8.8.8.8;5000;1.1.1.1;443;tcp;;;;" =
      ({ time := "12:00:01",
         srcip := [0, 0, 0, 0, 0, 0, 0, 0, 0, 0, 255, 255, 8, 8, 8, 8],
         srcport := 5000,
         dstip := [0, 0, 0, 0, 0, 0, 0, 0, 0, 0, 255, 255, 1, 1, 1, 1],
         dstport := 443 }, false) :=
  (filter_accepts_public_line ";"
    "12:00:01;allow;fw1;in;out;1;rule1;svc;8.8.8.8;5000;1.1.1.1;443;tcp;;;;"
    (by decide) (by decide) (by decide) (by decide)).trans (by decide)

/-- C5 (amended). An accepted line with at least 9 fields has a non-nil source address and
an accepted line with at least 11 fields has a non-nil destination address; a line with
fewer fields leaves the missing address nil. -/
theorem accepted_record_addresses (splitchar line : String)
    (hacc : (filter splitchar line).2 = false) :
    (9 ≤ (Split line splitchar).length → (filter splitchar line).1.srcip ≠ []) ∧
    (11 ≤ (Split line splitchar).length → (filter splitchar line).1.dstip ≠ []) ∧
    ((Split line splitchar).length < 9 → (filter splitchar line).1.srcip = []) ∧
    ((Split line splitchar).length < 11 → (filter splitchar line).1.dstip = []) := by
  rw [filter_closed] at hacc ⊢
  simp only [decide_eq_false_iff_not, not_or, not_and] at hacc
  obtain ⟨h8, h10⟩ := hacc
  refine ⟨?_, ?_, ?_, ?_⟩
  · intro hl
    have hl' : 8 < (Split line splitchar).length := by omega
    simp only [hl', if_true]
    exact h8 hl'
  · intro hl
    have hl' : 10 < (Split line splitchar).length := by omega
    have := h10 hl'
    simp only [not_or] at this
    have hp : isPrivate (ParseIP (field splitchar line 10)) = false := by
      simpa using this.2
    simp only [hl', this.1, hp, ne_eq, not_false_eq_true, and_self, if_true]
  · intro hl
    have hl' : ¬ 8 < (Split line splitchar).length := by omega
    simp only [hl', if_false]
  · intro hl
    have hl' : ¬ 10 < (Split line splitchar).length := by omega
    simp only [hl', false_and, if_false]

theorem accepted_record_addresses_witness :
    (filter ";" "12:00:01;allow;fw1;in;out;1;rule1;svc;8.8.8.8;5000;1.1.1.1;443").1.srcip ≠ [] ∧
    (filter ";" "12:00:01;allow;fw1;in;out;1;rule1;svc;8.8.8.8;5000;1.1.1.1;443").1.dstip ≠ [] :=
  ⟨(accepted_record_addresses ";"
      "12:00:01;allow;fw1;in;out;1;rule1;svc;8.8.8.8;5000;1.1.1.1;443" (by decide)).1
      (by decide),
    (accepted_record_addresses ";"
      "12:00:01;allow;fw1;in;out;1;rule1;svc;8.8.8.8;5000;1.1.1.1;443" (by decide)).2.1
      (by decide)⟩

/-- C5 as stated fails: the line `12:00:01;allow` is accepted and its record has neither a
source nor a destination address. -/
theorem accepted_record_partial :
    (filter ";" "12:00:01;allow").2 = false ∧
    (filter ";" "12:00:01;allow").1.srcip = [] ∧
    (filter ";" "12:00:01;allow").1.dstip = [] := by
  decide

theorem filter_dstip_not_private (splitchar line : String) :
    isPrivate (filter splitchar line).1.dstip = false := by
  rw [filter_closed]
  simp only
  split_ifs with h
  · exact h.2.2
  · exact isPrivate_nil

theorem readLoop_mem (splitchar : String) (lines : List String)
    (st : List logLine × List String) (r : logLine)
    (hr : r ∈ (readLoop splitchar lines st).1) :
    r ∈ st.1 ∨ ∃ line ∈ scanLines lines, (filter splitchar line).2 = false ∧
      r = (filter splitchar line).1 := by
  induction lines generalizing st with
  | nil => exact Or.inl hr
  | cons line rest ih =>
    obtain ⟨logline, out⟩ := st
    simp only [readLoop] at hr
    by_cases hlong : line.utf8ByteSize ≥ MaxScanTokenSize
    · simp only [hlong, if_true] at hr
      exact Or.inl hr
    · simp only [hlong, if_false, scanLines] at hr ⊢
      by_cases he : (filter splitchar (dropCR line)).2 = true
      · simp only [he, bne_self_eq_false, Bool.false_eq_true, if_false] at hr
        rcases ih _ hr with h | ⟨l, hl, h⟩
        · exact Or.inl h
        · exact Or.inr ⟨l, List.mem_cons_of_mem _ hl, h⟩
      · have he' : (filter splitchar (dropCR line)).2 = false := by simpa using he
        simp only [he', show (false != true) = true from rfl, if_true] at hr
        rcases ih _ hr with h | ⟨l, hl, h⟩
        · simp only [List.mem_append, List.mem_singleton] at h
          rcases h with h | h
          · exact Or.inl h
          · exact Or.inr ⟨dropCR line, List.mem_cons_self _ _, he', h⟩
        · exact Or.inr ⟨l, List.mem_cons_of_mem _ hl, h⟩

/-! ## The read loop -/

theorem readLoop_eq (splitchar : String) (lines : List String)
    (st : List logLine × List String) :
    (readLoop splitchar lines st).1 =
      st.1 ++ (scanLines lines).filterMap fun line =>
        if (filter splitchar line).2 = true then none else some (filter splitchar line).1 := by
  induction lines generalizing st with
  | nil => simp [readLoop, scanLines]
  | cons line rest ih =>
    obtain ⟨logline, out⟩ := st
    simp only [readLoop, scanLines]
    by_cases hlong : line.utf8ByteSize ≥ MaxScanTokenSize
    · simp [hlong]
    · simp only [hlong, if_false]
      by_cases he : (filter splitchar (dropCR line)).2 = true
      · simp only [he, bne_self_eq_false, Bool.false_eq_true, if_false]
        rw [ih]
        simp [List.filterMap_cons, he]
      · have he' : (filter splitchar (dropCR line)).2 = false := by simpa using he
        simp only [he', show (false != true) = true from rfl, if_true]
        rw [ih]
        simp [List.filterMap_cons, he']

theorem collect_eq (splitchar : String) (lines : List String) :
    collect splitchar lines =
      (scanLines lines).filterMap fun line =>
        if (filter splitchar line).2 = true then none else some (filter splitchar line).1 := by
  unfold collect
  rw [readLoop_eq]
  rfl

/-- When no line is too long for the scanner, every line is delivered, without its final
carriage return. -/
theorem scanLines_all (lines : List String)
    (h : ∀ line ∈ lines, line.utf8ByteSize < MaxScanTokenSize) :
    scanLines lines = lines.map dropCR := by
  induction lines with
  | nil => rfl
  | cons line rest ih =>
    have h1 : ¬ line.utf8ByteSize ≥ MaxScanTokenSize := by
      have := h line (List.mem_cons_self _ _)
      omega
    simp only [scanLines, h1, if_false, List.map_cons]
    rw [ih (fun l hl => h l (List.mem_cons_of_mem _ hl))]

/-- C10. With a sort key other than `time`, `srcip`, `srcport`, `dstip` and `dstport` the
sort step returns the slice unchanged: the output is the records of the accepted lines in
the order the lines were read, and the step does not fail. The lines read are those the
scanner delivers, which are all the lines of the input when none is too long for it. -/
theorem unknown_key_passes_through (splitchar orderby : String) (lines : List String)
    (h1 : orderby ≠ "time") (h2 : orderby ≠ "srcip") (h3 : orderby ≠ "srcport")
    (h4 : orderby ≠ "dstip") (h5 : orderby ≠ "dstport") :
    sortStep orderby (collect splitchar lines) = some (collect splitchar lines) ∧
    mainRecords splitchar orderby lines =
      some ((scanLines lines).filterMap fun line =>
        if (filter splitchar line).2 = true then none else some (filter splitchar line).1) ∧
    ((∀ line ∈ lines, line.utf8ByteSize < MaxScanTokenSize) →
      mainRecords splitchar orderby lines =
        some ((lines.map dropCR).filterMap fun line =>
          if (filter splitchar line).2 = true then none
          else some (filter splitchar line).1)) := by
  have hs : ∀ l, sortStep orderby l = some l := by
    intro l
    simp [sortStep, h1, h2, h3, h4, h5]
  have hm : mainRecords splitchar orderby lines =
      some ((scanLines lines).filterMap fun line =>
        if (filter splitchar line).2 = true then none
        else some (filter splitchar line).1) := by
    unfold mainRecords
    rw [hs, collect_eq]
  refine ⟨hs _, hm, ?_⟩
  intro hshort
  rw [hm, scanLines_all lines hshort]

theorem unknown_key_passes_through_witness :
    mainRecords ";" "Time"
      ["b;;;;;;;;1.1.1.1;5;2.2.2.2;1", "x;;;;;;;;1.1.1.1;5;10.2.2.2;1",
       "a;;;;;;;;1.1.1.1;3;2.2.2.2;1"] =
      some [(filter ";" "b;;;;;;;;1.1.1.1;5;2.2.2.2;1").1,
        (filter ";" "a;;;;;;;;1.1.1.1;3;2.2.2.2;1").1] :=
  ((unknown_key_passes_through ";" "Time"
      ["b;;;;;;;;1.1.1.1;5;2.2.2.2;1", "x;;;;;;;;1.1.1.1;5;10.2.2.2;1",
       "a;;;;;;;;1.1.1.1;3;2.2.2.2;1"]
      (by decide) (by decide) (by decide) (by decide) (by decide)).2.1).trans (by decide)

/-! ## The sorter: elements, comparisons and swaps -/

theorem StrictWeak.irrefl {less : logLine → logLine → Bool} (h : StrictWeak less) (x : logLine) :
    less x x = false := by
  cases hx : less x x
  · rfl
  · have := h.asymm x x hx
    rw [hx] at this
    exact this

theorem StrictWeak.lt_trans {less : logLine → logLine → Bool} (h : StrictWeak less)
    {x y z : logLine} (hxy : less x y = true) (hyz : less y z = true) : less x z = true := by
  cases hxz : less x z
  · have := h.negtrans x z y hxz (h.asymm y z hyz)
    rw [hxy] at this
    exact absurd this (by simp)
  · rfl

theorem StrictWeak.lt_of_le_of_lt {less : logLine → logLine → Bool} (h : StrictWeak less)
    {x y z : logLine} (hxy : less y x = false) (hyz : less y z = true) : less x z = true := by
  cases hxz : less x z
  · have := h.negtrans y x z hxy hxz
    rw [hyz] at this
    exact absurd this (by simp)
  · rfl

theorem StrictWeak.lt_of_lt_of_le {less : logLine → logLine → Bool} (h : StrictWeak less)
    {x y z : logLine} (hxy : less x y = true) (hyz : less z y = false) : less x z = true := by
  cases hxz : less x z
  · have := h.negtrans x z y hxz hyz
    rw [hxy] at this
    exact absurd this (by simp)
  · rfl

theorem logSorter.Less_eq (s : logSorter) {i j : Nat} (hi : i < s.logs.length)
    (hj : j < s.logs.length) : s.Less i j = some (s.by_ (s.val i) (s.val j)) := by
  simp [logSorter.Less, logSorter.val, List.getD_eq_getElem?_getD, List.getElem?_eq_getElem, hi, hj]

theorem logSorter.Swap_eq (s : logSorter) {i j : Nat} (hi : i < s.logs.length)
    (hj : j < s.logs.length) :
    ∃ s', s.Swap i j = some s' ∧ s'.by_ = s.by_ ∧ s'.logs.length = s.logs.length ∧
      ∀ k, s'.val k = if k = j then s.val i else if k = i then s.val j else s.val k := by
  refine ⟨{ s with logs := (s.logs.set i s.logs[j]).set j s.logs[i] }, ?_, rfl, by simp, ?_⟩
  · simp [logSorter.Swap, List.getElem?_eq_getElem, hi, hj]
  · intro k
    simp only [logSorter.val, List.getD_eq_getElem?_getD, List.getElem?_set, List.length_set]
    by_cases hkj : k = j
    · subst hkj
      simp [hi, hj]
    · by_cases hki : k = i
      · subst hki
        simp [hi, hj, hkj, Ne.symm hkj]
      · simp [hkj, hki, Ne.symm hkj, Ne.symm hki]

theorem Shuffle.refl (a b : Nat) (s : logSorter) : Shuffle a b s s :=
  ⟨rfl, rfl, ⟨Equiv.refl _, fun _ _ => rfl, fun _ => rfl⟩⟩

theorem Shuffle.trans {a b : Nat} {s t u : logSorter} (h1 : Shuffle a b s t)
    (h2 : Shuffle a b t u) : Shuffle a b s u := by
  obtain ⟨σ, hσ, hv⟩ := h1.perm
  obtain ⟨τ, hτ, hw⟩ := h2.perm
  refine ⟨h2.by_eq.trans h1.by_eq, h2.len_eq.trans h1.len_eq, ⟨τ.trans σ, ?_, ?_⟩⟩
  · intro k hk
    simp [Equiv.trans_apply, hτ k hk, hσ k hk]
  · intro k
    simp [Equiv.trans_apply, hw k, hv (τ k)]

theorem Shuffle.mono {a b a' b' : Nat} {s t : logSorter} (h : Shuffle a b s t)
    (ha : a' ≤ a) (hb : b ≤ b') : Shuffle a' b' s t := by
  obtain ⟨σ, hσ, hv⟩ := h.perm
  exact ⟨h.by_eq, h.len_eq, ⟨σ, fun k hk => hσ k (by omega), hv⟩⟩

/-- A swap of two elements of the range is a shuffle of the range. -/
theorem Shuffle.of_swap {a b : Nat} {s s' : logSorter} {i j : Nat}
    (hi : a ≤ i ∧ i < b) (hj : a ≤ j ∧ j < b) (hby : s'.by_ = s.by_)
    (hlen : s'.logs.length = s.logs.length)
    (hv : ∀ k, s'.val k = if k = j then s.val i else if k = i then s.val j else s.val k) :
    Shuffle a b s s' := by
  refine ⟨hby, hlen, ⟨Equiv.swap i j, ?_, ?_⟩⟩
  · intro k hk
    exact Equiv.swap_apply_of_ne_of_ne (by omega) (by omega)
  · intro k
    rw [hv k]
    by_cases hkj : k = j
    · subst hkj
      simp
    · by_cases hki : k = i
      · subst hki
        simp [hkj]
      · simp [hkj, hki, Equiv.swap_apply_of_ne_of_ne hki hkj]

/-- Outside the range a shuffle changes nothing. -/
theorem Shuffle.val_outside {a b : Nat} {s t : logSorter} (h : Shuffle a b s t) {k : Nat}
    (hk : k < a ∨ b ≤ k) : t.val k = s.val k := by
  obtain ⟨σ, hσ, hv⟩ := h.perm
  rw [hv k, hσ k hk]

/-- Every element of the range comes, after a shuffle, from some index of the range. -/
theorem Shuffle.val_inside {a b : Nat} {s t : logSorter} (h : Shuffle a b s t) {k : Nat}
    (hk : a ≤ k ∧ k < b) : ∃ m, (a ≤ m ∧ m < b) ∧ t.val k = s.val m := by
  obtain ⟨σ, hσ, hv⟩ := h.perm
  refine ⟨σ k, ?_, hv k⟩
  by_contra hm
  have hfix : σ (σ k) = σ k := hσ (σ k) (by omega)
  have := σ.injective hfix
  omega

/-- A property of all the elements of the range survives a shuffle. -/
theorem Shuffle.forall_inside {a b : Nat} {s t : logSorter} (h : Shuffle a b s t)
    {P : logLine → Prop} (hP : ∀ k, a ≤ k → k < b → P (s.val k)) :
    ∀ k, a ≤ k → k < b → P (t.val k) := by
  intro k hk1 hk2
  obtain ⟨m, hm, e⟩ := h.val_inside ⟨hk1, hk2⟩
  rw [e]
  exact hP m hm.1 hm.2

/-! ## `insertionSort` -/

theorem insertionSortInner_spec {less : logLine → logLine → Bool} (hsw : StrictWeak less)
    (a i : Nat) : ∀ (j : Nat) (s : logSorter), s.by_ = less → a ≤ j → j ≤ i →
      i < s.logs.length →
      (∀ p q, a ≤ p → p < q → q ≤ i → q ≠ j → less (s.val q) (s.val p) = false) →
      ∃ s', insertionSortInner a j s = some s' ∧ Shuffle a (i + 1) s s' ∧
        SortedOn s' a (i + 1) := by
  intro j
  induction j with
  | zero =>
    intro s hby _ _ _ hinv
    refine ⟨s, rfl, Shuffle.refl _ _ _, ?_⟩
    intro p q hp hpq hq
    rw [hby]
    exact hinv p q hp hpq (by omega) (by omega)
  | succ j ih =>
    intro s hby haj hji hlen hinv
    have hdone : (∀ p, a ≤ p → p < j + 1 → less (s.val (j + 1)) (s.val p) = false) →
        SortedOn s a (i + 1) := by
      intro hj p q hp hpq hq
      rw [hby]
      by_cases hqj : q = j + 1
      · subst hqj
        exact hj p hp hpq
      · exact hinv p q hp hpq (by omega) hqj
    by_cases hgt : j + 1 > a
    · simp only [insertionSortInner, hgt, if_true,
        s.Less_eq (show j + 1 < s.logs.length by omega) (show j < s.logs.length by omega), hby]
      cases hc : less (s.val (j + 1)) (s.val j)
      · refine ⟨s, rfl, Shuffle.refl _ _ _, hdone ?_⟩
        intro p hp hpj
        by_cases hpj' : p = j
        · subst hpj'
          exact hc
        · exact hsw.negtrans _ _ _ hc (hinv p j hp (by omega) (by omega) (by omega))
      · obtain ⟨s1, hswap, hby1, hlen1, hv1⟩ :=
          s.Swap_eq (show j + 1 < s.logs.length by omega) (show j < s.logs.length by omega)
        simp only [hswap]
        have hsh : Shuffle a (i + 1) s s1 :=
          Shuffle.of_swap (i := j + 1) (j := j) (by omega) (by omega) hby1 hlen1 hv1
        obtain ⟨s', hs', hsh', hsorted⟩ := ih s1 (hby1.trans hby) (by omega) (by omega)
          (by omega) (by
            intro p q hp hpq hq hqj
            rw [hv1 p, hv1 q]
            have hqj2 : ¬ q = j := hqj
            simp only [hqj2, if_false]
            by_cases hq1 : q = j + 1
            · subst hq1
              simp only [if_true]
              by_cases hpj : p = j
              · subst hpj
                simp only [if_true]
                exact hsw.asymm _ _ hc
              · have hp1 : ¬ p = j + 1 := by omega
                simp only [hpj, hp1, if_false]
                exact hinv p j hp (by omega) (by omega) (by omega)
            · simp only [hq1, if_false]
              by_cases hpj : p = j
              · subst hpj
                simp only [if_true]
                exact hinv (p + 1) q (by omega) (by omega) hq hq1
              · by_cases hp1 : p = j + 1
                · subst hp1
                  simp only [hpj, if_false, if_true]
                  exact hinv j q (by omega) (by omega) hq hq1
                · simp only [hpj, hp1, if_false]
                  exact hinv p q hp hpq hq hq1)
        exact ⟨s', hs', hsh.trans hsh', hsorted⟩
    · simp only [insertionSortInner, hgt, if_false]
      refine ⟨s, rfl, Shuffle.refl _ _ _, hdone ?_⟩
      intro p hp hpj
      omega

theorem insertionSortOuter_spec {less : logLine → logLine → Bool} (hsw : StrictWeak less)
    (a b : Nat) : ∀ (n i : Nat) (s : logSorter), s.by_ = less → a < i → i + n = b →
      b ≤ s.logs.length → SortedOn s a i →
      ∃ s', insertionSortOuter a n i s = some s' ∧ Shuffle a b s s' ∧ SortedOn s' a b := by
  intro n
  induction n with
  | zero =>
    intro i s _ _ hin _ hs
    have : i = b := by omega
    subst this
    exact ⟨s, rfl, Shuffle.refl _ _ _, hs⟩
  | succ n ih =>
    intro i s hby hai hin hb hs
    obtain ⟨s1, h1, hsh1, hs1⟩ := insertionSortInner_spec hsw a i i s hby (by omega)
      (Nat.le_refl _) (by omega) (by
        intro p q hp hpq hq hqi
        have := hs p q hp hpq (by omega)
        rw [hby] at this
        exact this)
    simp only [insertionSortOuter, h1]
    obtain ⟨s', h2, hsh2, hs2⟩ := ih (i + 1) s1 (hsh1.by_eq.trans hby) (by omega) (by omega)
      (by rw [hsh1.len_eq]; exact hb) hs1
    exact ⟨s', h2, (hsh1.mono (Nat.le_refl _) (by omega)).trans hsh2, hs2⟩

theorem insertionSort_spec {less : logLine → logLine → Bool} (hsw : StrictWeak less)
    (s : logSorter) (a b : Nat) (hby : s.by_ = less) (hb : b ≤ s.logs.length) :
    ∃ s', insertionSort s a b = some s' ∧ Shuffle a b s s' ∧ SortedOn s' a b := by
  unfold insertionSort
  by_cases hab : a + 1 ≤ b
  · exact insertionSortOuter_spec hsw a b _ _ s hby (by omega) (by omega) hb
      (by intro p q hp hpq hq; omega)
  · have : b - (a + 1) = 0 := by omega
    rw [this]
    exact ⟨s, rfl, Shuffle.refl _ _ _, by intro p q hp hpq hq; omega⟩

/-! ## `heapSort` -/

theorem greaterChild_spec {less : logLine → logLine → Bool} (hsw : StrictWeak less)
    (s : logSorter) (hby : s.by_ = less) (hi first root : Nat)
    (hlen : first + hi ≤ s.logs.length) (hc : 2 * root + 1 < hi) :
    ∃ c', greaterChild s hi first (2 * root + 1) = some c' ∧
      (c' = 2 * root + 1 ∨ c' = 2 * root + 2) ∧ c' < hi ∧
      ∀ c, (c = 2 * root + 1 ∨ c = 2 * root + 2) → c < hi →
        less (s.val (first + c')) (s.val (first + c)) = false := by
  unfold greaterChild
  by_cases h2 : 2 * root + 1 + 1 < hi
  · simp only [h2, if_true,
      s.Less_eq (show first + (2 * root + 1) < s.logs.length by omega)
        (show first + (2 * root + 1) + 1 < s.logs.length by omega), hby]
    cases hl : less (s.val (first + (2 * root + 1))) (s.val (first + (2 * root + 1) + 1))
    · refine ⟨2 * root + 1, rfl, Or.inl rfl, hc, ?_⟩
      intro c hcc hch
      rcases hcc with rfl | rfl
      · exact hsw.irrefl _
      · exact hl
    · refine ⟨2 * root + 1 + 1, rfl, Or.inr rfl, h2, ?_⟩
      intro c hcc hch
      rcases hcc with rfl | rfl
      · exact hsw.asymm _ _ hl
      · exact hsw.irrefl _
  · simp only [h2, if_false]
    refine ⟨2 * root + 1, rfl, Or.inl rfl, hc, ?_⟩
    intro c hcc hch
    rcases hcc with rfl | rfl
    · exact hsw.irrefl _
    · omega

theorem siftDown_spec {less : logLine → logLine → Bool} (hsw : StrictWeak less)
    (hi first lo : Nat) : ∀ (fuel root : Nat) (s : logSorter), s.by_ = less →
      first + hi ≤ s.logs.length → lo ≤ root → hi < fuel + root → 1 ≤ fuel →
      (∀ k, lo ≤ k → k ≠ root → HeapAt s first hi k) →
      (∀ p, lo ≤ p → (root = 2 * p + 1 ∨ root = 2 * p + 2) →
        ∀ c, (c = 2 * root + 1 ∨ c = 2 * root + 2) → c < hi →
          less (s.val (first + p)) (s.val (first + c)) = false) →
      ∃ s', siftDown hi first fuel root s = some s' ∧
        Shuffle (first + lo) (first + hi) s s' ∧ ∀ k, lo ≤ k → HeapAt s' first hi k := by
  intro fuel
  induction fuel with
  | zero => intro root s _ _ _ _ h; omega
  | succ fuel ih =>
    intro root s hby hlen hlo hfuel _ hheap hbridge
    simp only [siftDown]
    by_cases hch : 2 * root + 1 ≥ hi
    · simp only [hch, if_true]
      refine ⟨s, rfl, Shuffle.refl _ _ _, ?_⟩
      intro k hk
      by_cases hkr : k = root
      · subst hkr
        intro c hc hchi
        omega
      · exact hheap k hk hkr
    · simp only [hch, if_false]
      obtain ⟨c', hpick, hc'eq, hc'hi, hc'max⟩ :=
        greaterChild_spec hsw s hby hi first root hlen (by omega)
      simp only [hpick,
        s.Less_eq (show first + root < s.logs.length by omega)
          (show first + c' < s.logs.length by omega), hby]
      cases hl : less (s.val (first + root)) (s.val (first + c'))
      · refine ⟨s, rfl, Shuffle.refl _ _ _, ?_⟩
        intro k hk
        by_cases hkr : k = root
        · subst hkr
          intro c hc hchi
          rw [hby]
          exact hsw.negtrans _ _ _ hl (hc'max c hc hchi)
        · exact hheap k hk hkr
      · obtain ⟨s1, hswap, hby1, hlen1, hv1⟩ :=
          s.Swap_eq (show first + root < s.logs.length by omega)
            (show first + c' < s.logs.length by omega)
        simp only [hswap]
        have hsh : Shuffle (first + lo) (first + hi) s s1 :=
          Shuffle.of_swap (i := first + root) (j := first + c') (by omega) (by omega)
            hby1 hlen1 hv1
        have hval : ∀ k, s1.val (first + k) =
            if k = c' then s.val (first + root) else if k = root then s.val (first + c')
            else s.val (first + k) := by
          intro k
          rw [hv1]
          by_cases h1 : k = c'
          · simp [h1]
          · by_cases h2 : k = root
            · simp [h1, h2]
            · simp [h1, h2]
        obtain ⟨s', hs', hsh', hheap'⟩ := ih c' s1 (hby1.trans hby) (by omega) (by omega)
          (by omega) (by omega)
          (by
            intro k hk hkc c hc hchi
            rw [hby1, hby, hval k, hval c]
            simp only [hkc, if_false]
            by_cases hkr : k = root
            · subst hkr
              simp only [if_true]
              by_cases hcc : c = c'
              · subst hcc
                simp only [if_true]
                exact hsw.asymm _ _ hl
              · have hcr : ¬ c = k := by omega
                simp only [hcc, hcr, if_false]
                exact hc'max c hc hchi
            · simp only [hkr, if_false]
              by_cases hcc : c = c'
              · omega
              · simp only [hcc, if_false]
                by_cases hcr : c = root
                · subst hcr
                  simp only [if_true]
                  exact hbridge k hk hc c' hc'eq hc'hi
                · simp only [hcr, if_false]
                  have := hheap k hk hkr c hc hchi
                  rw [hby] at this
                  exact this)
          (by
            intro p hp hpc c hc hchi
            have hpr : p = root := by omega
            subst hpr
            rw [hval p, hval c]
            have h1 : ¬ p = c' := by omega
            have h2 : ¬ c = c' := by omega
            have h3 : ¬ c = p := by omega
            simp only [h1, h2, h3, if_false, if_true]
            have := hheap c' (by omega) (by omega) c hc hchi
            rw [hby] at this
            exact this)
        exact ⟨s', hs', hsh.trans hsh', hheap'⟩

theorem heapSortBuild_spec {less : logLine → logLine → Bool} (hsw : StrictWeak less)
    (hi first : Nat) : ∀ (n : Nat) (s : logSorter), s.by_ = less →
      first + hi ≤ s.logs.length → (∀ k, n ≤ k → HeapAt s first hi k) →
      ∃ s', heapSortBuild hi first n s = some s' ∧ Shuffle first (first + hi) s s' ∧
        ∀ k, HeapAt s' first hi k := by
  intro n
  induction n with
  | zero =>
    intro s _ _ h
    exact ⟨s, rfl, Shuffle.refl _ _ _, fun k => h k (Nat.zero_le _)⟩
  | succ i ih =>
    intro s hby hlen hheap
    obtain ⟨s1, h1, hsh1, hheap1⟩ := siftDown_spec hsw hi first i (hi + 1) i s hby hlen
      (Nat.le_refl _) (by omega) (by omega)
      (fun k hk hki => hheap k (by omega))
      (fun p hp hpc => by omega)
    simp only [heapSortBuild, h1]
    obtain ⟨s', h2, hsh2, hheap2⟩ := ih s1 (hsh1.by_eq.trans hby)
      (by rw [hsh1.len_eq]; exact hlen) hheap1
    exact ⟨s', h2, (hsh1.mono (by omega) (Nat.le_refl _)).trans hsh2, hheap2⟩

/-- The root of a heap is not less than any of its nodes. -/
theorem heap_root_max {less : logLine → logLine → Bool} (hsw : StrictWeak less)
    (s : logSorter) (hby : s.by_ = less) (first hi : Nat)
    (hheap : ∀ k, HeapAt s first hi k) :
    ∀ k, k < hi → less (s.val first) (s.val (first + k)) = false := by
  intro k
  induction k using Nat.strong_induction_on with
  | _ k ih =>
    intro hk
    rcases Nat.eq_zero_or_pos k with rfl | hpos
    · exact hsw.irrefl _
    · have h1 := ih ((k - 1) / 2) (by omega) (by omega)
      have h2 := hheap ((k - 1) / 2) k (by omega) hk
      rw [hby] at h2
      exact hsw.negtrans _ _ _ h1 h2

theorem heapSortPop_spec {less : logLine → logLine → Bool} (hsw : StrictWeak less)
    (first hi : Nat) : ∀ (n : Nat) (s : logSorter), s.by_ = less → n ≤ hi →
      first + hi ≤ s.logs.length → (∀ k, HeapAt s first n k) →
      SortedOn s (first + n) (first + hi) →
      (∀ k m, k < n → n ≤ m → m < hi →
        less (s.val (first + m)) (s.val (first + k)) = false) →
      ∃ s', heapSortPop first n s = some s' ∧ Shuffle first (first + hi) s s' ∧
        SortedOn s' first (first + hi) := by
  intro n
  induction n with
  | zero =>
    intro s _ _ _ _ hs _
    exact ⟨s, rfl, Shuffle.refl _ _ _, by simpa using hs⟩
  | succ i ih =>
    intro s hby hn hlen hheap hsorted hbound
    obtain ⟨s1, hswap, hby1, hlen1, hv1⟩ :=
      s.Swap_eq (show first < s.logs.length by omega) (show first + i < s.logs.length by omega)
    have hsh1 : Shuffle first (first + hi) s s1 :=
      Shuffle.of_swap (i := first) (j := first + i) (by omega) (by omega) hby1 hlen1 hv1
    have hroot := heap_root_max hsw s hby first (i + 1) hheap
    obtain ⟨s2, hsift, hsh2, hheap2⟩ := siftDown_spec hsw i first 0 (i + 1) 0 s1
      (hby1.trans hby) (by omega) (Nat.le_refl _) (by omega) (by omega)
      (by
        intro k _ hk0 c hc hci
        have e1 : s1.val (first + k) = s.val (first + k) := by
          rw [hv1]
          have h1 : ¬ first + k = first + i := by omega
          have h2 : ¬ first + k = first := by omega
          simp only [h1, h2, if_false]
        have e2 : s1.val (first + c) = s.val (first + c) := by
          rw [hv1]
          have h1 : ¬ first + c = first + i := by omega
          have h2 : ¬ first + c = first := by omega
          simp only [h1, h2, if_false]
        rw [hby1, e1, e2]
        exact hheap k c hc (by omega))
      (fun p _ hpc => by omega)
    simp only [heapSortPop, hswap, hsift]
    have hout : ∀ m, i ≤ m → s2.val (first + m) = s1.val (first + m) := fun m hm =>
      hsh2.val_outside (Or.inr (by omega))
    have hs1i : s1.val (first + i) = s.val first := by
      rw [hv1]
      simp
    have hs1m : ∀ m, i < m → s1.val (first + m) = s.val (first + m) := by
      intro m hm
      rw [hv1]
      have h1 : ¬ first + m = first + i := by omega
      have h2 : ¬ first + m = first := by omega
      simp only [h1, h2, if_false]
    obtain ⟨s', hpop, hsh3, hsorted3⟩ := ih s2 (hsh2.by_eq.trans (hby1.trans hby)) (by omega)
      (by rw [hsh2.len_eq, hlen1]; exact hlen) (fun k => hheap2 k (Nat.zero_le _))
      (by
        intro m1 m2 hm1 hm12 hm2
        rw [hsh2.by_eq, hby1, hby]
        obtain ⟨d1, rfl⟩ : ∃ d, m1 = first + d := ⟨m1 - first, by omega⟩
        obtain ⟨d2, rfl⟩ : ∃ d, m2 = first + d := ⟨m2 - first, by omega⟩
        rw [hout d1 (by omega), hout d2 (by omega), hs1m d2 (by omega)]
        by_cases hd : d1 = i
        · subst hd
          rw [hs1i]
          have := hbound 0 d2 (by omega) (by omega) (by omega)
          simpa using this
        · rw [hs1m d1 (by omega)]
          have := hsorted (first + d1) (first + d2) (by omega) (by omega) (by omega)
          rw [hby] at this
          exact this)
      (by
        intro k m hk hm hmhi
        rw [hout m hm]
        have hall : ∀ k', first ≤ k' → k' < first + i →
            less (s1.val (first + m)) (s1.val k') = false := by
          intro k' hk1 hk2
          obtain ⟨d, rfl⟩ : ∃ d, k' = first + d := ⟨k' - first, by omega⟩
          have hk'v : s1.val (first + d) = s.val (first + d) ∨
              s1.val (first + d) = s.val (first + i) := by
            rw [hv1]
            have h1 : ¬ first + d = first + i := by omega
            simp only [h1, if_false]
            by_cases h2 : first + d = first
            · simp [h2]
            · simp [h2]
          by_cases hmi : m = i
          · subst hmi
            rw [hs1i]
            rcases hk'v with e | e
            · rw [e]
              exact hroot d (by omega)
            · rw [e]
              exact hroot m (by omega)
          · rw [hs1m m (by omega)]
            rcases hk'v with e | e
            · rw [e]
              exact hbound d m (by omega) (by omega) hmhi
            · rw [e]
              exact hbound i m (by omega) (by omega) hmhi
        exact hsh2.forall_inside (P := fun x => less (s1.val (first + m)) x = false) hall
          (first + k) (by omega) (by omega))
    exact ⟨s', hpop, hsh1.trans ((hsh2.mono (Nat.le_refl _) (by omega)).trans hsh3), hsorted3⟩

theorem heapSort_spec {less : logLine → logLine → Bool} (hsw : StrictWeak less)
    (s : logSorter) (a b : Nat) (hby : s.by_ = less) (hab : a ≤ b) (hb : b ≤ s.logs.length) :
    ∃ s', heapSort s a b = some s' ∧ Shuffle a b s s' ∧ SortedOn s' a b := by
  have hab' : a + (b - a) = b := by omega
  obtain ⟨s1, h1, hsh1, hheap1⟩ := heapSortBuild_spec hsw (b - a) a ((b - a - 1) / 2 + 1) s hby
    (by omega) (by intro k hk c hc hchi; omega)
  obtain ⟨s', h2, hsh2, hsorted⟩ := heapSortPop_spec hsw a (b - a) (b - a) s1
    (hsh1.by_eq.trans hby) (Nat.le_refl _) (by rw [hsh1.len_eq]; omega) hheap1
    (by intro p q hp hpq hq; omega) (by intro k m hk hm hmhi; omega)
  rw [hab'] at hsh1 hsh2 hsorted
  refine ⟨s', ?_, hsh1.trans hsh2, hsorted⟩
  simp only [heapSort, h1, h2]

/-! ## `partition` -/

theorem scanLess_spec {less : logLine → logLine → Bool} (s : logSorter) (hby : s.by_ = less)
    (a : Nat) (ha : a < s.logs.length) : ∀ (n i : Nat), i + n ≤ s.logs.length →
      ∃ i', scanLess s a n i = some i' ∧ i ≤ i' ∧ i' ≤ i + n ∧
        (∀ k, i ≤ k → k < i' → less (s.val k) (s.val a) = true) ∧
        (i' < i + n → less (s.val i') (s.val a) = false) := by
  intro n
  induction n with
  | zero =>
    intro i _
    exact ⟨i, rfl, Nat.le_refl _, Nat.le_refl _, fun k h1 h2 => by omega, fun h => by omega⟩
  | succ n ih =>
    intro i hin
    simp only [scanLess, s.Less_eq (show i < s.logs.length by omega) ha, hby]
    cases hc : less (s.val i) (s.val a)
    · exact ⟨i, rfl, Nat.le_refl _, by omega, fun k h1 h2 => by omega, fun _ => hc⟩
    · obtain ⟨i', h1, h2, h3, h4, h5⟩ := ih (i + 1) (by omega)
      refine ⟨i', h1, by omega, by omega, ?_, fun h => h5 (by omega)⟩
      intro k hk1 hk2
      by_cases hki : k = i
      · subst hki
        exact hc
      · exact h4 k (by omega) hk2

theorem scanNotLess_spec {less : logLine → logLine → Bool} (s : logSorter)
    (hby : s.by_ = less) (a : Nat) (ha : a < s.logs.length) : ∀ (n j : Nat), n ≤ j →
      j < s.logs.length →
      ∃ j', scanNotLess s a n j = some j' ∧ j' ≤ j ∧ j ≤ j' + n ∧
        (∀ k, j' < k → k ≤ j → less (s.val k) (s.val a) = false) ∧
        (j < j' + n → less (s.val j') (s.val a) = true) := by
  intro n
  induction n with
  | zero =>
    intro j _ _
    exact ⟨j, rfl, Nat.le_refl _, Nat.le_refl _, fun k h1 h2 => by omega, fun h => by omega⟩
  | succ n ih =>
    intro j hnj hj
    simp only [scanNotLess, s.Less_eq hj ha, hby]
    cases hc : less (s.val j) (s.val a)
    · obtain ⟨j', h1, h2, h3, h4, h5⟩ := ih (j - 1) (by omega) (by omega)
      refine ⟨j', h1, by omega, by omega, ?_, fun h => h5 (by omega)⟩
      intro k hk1 hk2
      by_cases hkj : k = j
      · subst hkj
        exact hc
      · exact h4 k hk1 (by omega)
    · exact ⟨j, rfl, Nat.le_refl _, by omega, fun k h1 h2 => by omega, fun _ => hc⟩

/-- One round of scans of `partition`. -/
theorem partition_round {less : logLine → logLine → Bool} (s : logSorter) (hby : s.by_ = less)
    (a b i j : Nat) (p : logLine) (hb : b ≤ s.logs.length) (inv : PartInv less s a b i j p) :
    ∃ i' j', scanLess s a (j + 1 - i) i = some i' ∧
      scanNotLess s a (j + 1 - i') j = some j' ∧ i ≤ i' ∧ j' ≤ j ∧
      PartInv less s a b i' j' p ∧
      (j' < i' ∨ (less (s.val i') p = false ∧ less (s.val j') p = true)) := by
  obtain ⟨h1, h2, h3, h4, h5, h6⟩ := inv
  have ha : a < s.logs.length := by omega
  obtain ⟨i', e1, hi1, hi2, hi3, hi4⟩ := scanLess_spec s hby a ha (j + 1 - i) i (by omega)
  obtain ⟨j', e2, hj1, hj2, hj3, hj4⟩ :=
    scanNotLess_spec s hby a ha (j + 1 - i') j (by omega) (by omega)
  rw [h4] at hi3 hi4 hj3 hj4
  refine ⟨i', j', e1, e2, hi1, hj1, ⟨by omega, by omega, by omega, h4, ?_, ?_⟩, ?_⟩
  · intro k hk1 hk2
    by_cases hki : k < i
    · exact h5 k hk1 hki
    · exact hi3 k (by omega) hk2
  · intro k hk1 hk2
    by_cases hkj : j < k
    · exact h6 k hkj hk2
    · exact hj3 k hk1 (by omega)
  · by_cases hlt : j' < i'
    · exact Or.inl hlt
    · exact Or.inr ⟨hi4 (by omega), hj4 (by omega)⟩

/-- The swap of `partition` that follows a round of scans. -/
theorem partition_swap {less : logLine → logLine → Bool} (s : logSorter)
    (a b i j : Nat) (p : logLine) (hb : b ≤ s.logs.length) (inv : PartInv less s a b i j p)
    (hnot : ¬ j < i) (hvi : less (s.val i) p = false) (hvj : less (s.val j) p = true) :
    ∃ s1, s.Swap i j = some s1 ∧ Shuffle (a + 1) b s s1 ∧
      PartInv less s1 a b (i + 1) (j - 1) p ∧ i < j := by
  obtain ⟨h1, h2, h3, h4, h5, h6⟩ := inv
  have hne : i ≠ j := by
    intro h
    subst h
    rw [hvi] at hvj
    exact absurd hvj (by simp)
  obtain ⟨s1, hswap, hby1, hlen1, hv1⟩ :=
    s.Swap_eq (show i < s.logs.length by omega) (show j < s.logs.length by omega)
  refine ⟨s1, hswap, Shuffle.of_swap (by omega) (by omega) hby1 hlen1 hv1,
    ⟨by omega, by omega, by omega, ?_, ?_, ?_⟩, by omega⟩
  · rw [hv1]
    have e1 : ¬ a = j := by omega
    have e2 : ¬ a = i := by omega
    simp only [e1, e2, if_false]
    exact h4
  · intro k hk1 hk2
    rw [hv1]
    have e1 : ¬ k = j := by omega
    simp only [e1, if_false]
    by_cases hki : k = i
    · simp only [hki, if_true]
      exact hvj
    · simp only [hki, if_false]
      exact h5 k hk1 (by omega)
  · intro k hk1 hk2
    rw [hv1]
    by_cases hkj : k = j
    · simp only [hkj, if_true]
      exact hvi
    · have e1 : ¬ k = i := by omega
      simp only [hkj, e1, if_false]
      exact h6 k (by omega) hk2

theorem partitionLoop_spec {less : logLine → logLine → Bool} (a b : Nat) (p : logLine) :
    ∀ (fuel : Nat) (s : logSorter) (i j : Nat), s.by_ = less → b ≤ s.logs.length →
      PartInv less s a b i j p → j + 1 - i < fuel →
      ∃ s' i' j', partitionLoop a fuel s i j = some (s', i', j') ∧ Shuffle (a + 1) b s s' ∧
        PartInv less s' a b i' j' p ∧ i' = j' + 1 := by
  intro fuel
  induction fuel with
  | zero => intro s i j _ _ _ h; omega
  | succ fuel ih =>
    intro s i j hby hb inv hfuel
    obtain ⟨i', j', e1, e2, hi, hj, inv', hcase⟩ := partition_round s hby a b i j p hb inv
    simp only [partitionLoop, e1, e2]
    by_cases hlt : i' > j'
    · simp only [hlt, if_true]
      exact ⟨s, i', j', rfl, Shuffle.refl _ _ _, inv', by have := inv'.hij; omega⟩
    · simp only [hlt, if_false]
      rcases hcase with h | ⟨hvi, hvj⟩
      · omega
      · obtain ⟨s1, hswap, hsh1, inv1, hij⟩ :=
          partition_swap s a b i' j' p hb inv' hlt hvi hvj
        simp only [hswap]
        obtain ⟨s', i2, j2, e3, hsh2, inv2, hfin⟩ := ih s1 (i' + 1) (j' - 1)
          (hsh1.by_eq.trans hby) (by rw [hsh1.len_eq]; exact hb) inv1 (by omega)
        exact ⟨s', i2, j2, e3, hsh1.trans hsh2, inv2, hfin⟩

/-- The final swap of `partition`, which puts the pivot between the two parts. -/
theorem partition_finish {less : logLine → logLine → Bool} (s : logSorter)
    (a b i j : Nat) (p : logLine) (hb : b ≤ s.logs.length) (inv : PartInv less s a b i j p)
    (hfin : i = j + 1) :
    ∃ s', s.Swap j a = some s' ∧ Shuffle a b s s' ∧ a ≤ j ∧ j < b ∧
      (∀ k, a ≤ k → k < j → less (s'.val k) (s'.val j) = true) ∧
      (∀ k, j < k → k < b → less (s'.val k) (s'.val j) = false) := by
  obtain ⟨h1, h2, h3, h4, h5, h6⟩ := inv
  obtain ⟨s', hswap, hby1, hlen1, hv1⟩ :=
    s.Swap_eq (show j < s.logs.length by omega) (show a < s.logs.length by omega)
  have hvj : s'.val j = p := by
    rw [hv1]
    by_cases hja : j = a
    · simp only [hja, if_true]
      rw [← hja]
      rw [hja]
      exact h4
    · simp only [hja, if_false, if_true]
      exact h4
  refine ⟨s', hswap, Shuffle.of_swap (by omega) (by omega) hby1 hlen1 hv1, by omega, by omega,
    ?_, ?_⟩
  · intro k hk1 hk2
    rw [hvj, hv1]
    by_cases hka : k = a
    · simp only [hka, if_true]
      exact h5 j (by omega) (by omega)
    · have e1 : ¬ k = j := by omega
      simp only [hka, e1, if_false]
      exact h5 k (by omega) (by omega)
  · intro k hk1 hk2
    rw [hvj, hv1]
    have e1 : ¬ k = a := by omega
    have e2 : ¬ k = j := by omega
    simp only [e1, e2, if_false]
    exact h6 k hk1 hk2

theorem partition_spec {less : logLine → logLine → Bool}
    (s : logSorter) (hby : s.by_ = less) (a b pivot : Nat) (hb : b ≤ s.logs.length)
    (hpa : a ≤ pivot) (hpb : pivot < b) :
    ∃ s' mid ap, partition s a b pivot = some (s', mid, ap) ∧ Shuffle a b s s' ∧
      a ≤ mid ∧ mid < b ∧
      (∀ k, a ≤ k → k < mid → less (s'.val k) (s'.val mid) = true) ∧
      (∀ k, mid < k → k < b → less (s'.val k) (s'.val mid) = false) := by
  obtain ⟨s0, hswap0, hby0, hlen0, hv0⟩ :=
    s.Swap_eq (show a < s.logs.length by omega) (show pivot < s.logs.length by omega)
  have hsh0 : Shuffle a b s s0 := Shuffle.of_swap (by omega) (by omega) hby0 hlen0 hv0
  have hby0' : s0.by_ = less := hby0.trans hby
  have hb0 : b ≤ s0.logs.length := by rw [hlen0]; exact hb
  have inv0 : PartInv less s0 a b (a + 1) (b - 1) (s0.val a) :=
    ⟨Nat.le_refl _, by omega, by omega, rfl, fun k h1 h2 => by omega, fun k h1 h2 => by omega⟩
  obtain ⟨i1, j1, e1, e2, hi1, hj1, inv1, hcase1⟩ :=
    partition_round s0 hby0' a b (a + 1) (b - 1) (s0.val a) hb0 inv0
  simp only [partition, hswap0, e1, e2]
  by_cases hlt : i1 > j1
  · simp only [hlt, if_true]
    obtain ⟨s', hswap, hsh, h1, h2, h3, h4⟩ :=
      partition_finish s0 a b i1 j1 (s0.val a) hb0 inv1
        (by have := inv1.hij; omega)
    simp only [hswap]
    exact ⟨s', j1, true, rfl, hsh0.trans hsh, h1, h2, h3, h4⟩
  · simp only [hlt, if_false]
    rcases hcase1 with h | ⟨hvi, hvj⟩
    · omega
    · obtain ⟨s1, hswap1, hsh1, inv2, hij⟩ :=
        partition_swap s0 a b i1 j1 (s0.val a) hb0 inv1 hlt hvi hvj
      simp only [hswap1]
      have hby1 : s1.by_ = less := hsh1.by_eq.trans hby0'
      have hb1 : b ≤ s1.logs.length := by rw [hsh1.len_eq]; exact hb0
      obtain ⟨s2, i2, j2, e3, hsh2, inv3, hfin⟩ :=
        partitionLoop_spec a b (s0.val a) (b - a) s1 (i1 + 1) (j1 - 1) hby1 hb1 inv2
          (by have := inv1.hi; have := inv1.hj; omega)
      simp only [e3]
      obtain ⟨s', hswap, hsh, h1, h2, h3, h4⟩ :=
        partition_finish s2 a b i2 j2 (s0.val a)
          (by rw [hsh2.len_eq]; exact hb1) inv3 hfin
      simp only [hswap]
      exact ⟨s', j2, false, rfl,
        hsh0.trans (((hsh1.trans hsh2).mono (by omega) (Nat.le_refl _)).trans hsh), h1, h2, h3, h4⟩

/-! ## `partitionEqual` -/

theorem scanNotGreater_spec {less : logLine → logLine → Bool} (s : logSorter)
    (hby : s.by_ = less) (a : Nat) (ha : a < s.logs.length) : ∀ (n i : Nat),
      i + n ≤ s.logs.length →
      ∃ i', scanNotGreater s a n i = some i' ∧ i ≤ i' ∧ i' ≤ i + n ∧
        (∀ k, i ≤ k → k < i' → less (s.val a) (s.val k) = false) ∧
        (i' < i + n → less (s.val a) (s.val i') = true) := by
  intro n
  induction n with
  | zero =>
    intro i _
    exact ⟨i, rfl, Nat.le_refl _, Nat.le_refl _, fun k h1 h2 => by omega, fun h => by omega⟩
  | succ n ih =>
    intro i hin
    simp only [scanNotGreater, s.Less_eq ha (show i < s.logs.length by omega), hby]
    cases hc : less (s.val a) (s.val i)
    · obtain ⟨i', h1, h2, h3, h4, h5⟩ := ih (i + 1) (by omega)
      refine ⟨i', h1, by omega, by omega, ?_, fun h => h5 (by omega)⟩
      intro k hk1 hk2
      by_cases hki : k = i
      · subst hki
        exact hc
      · exact h4 k (by omega) hk2
    · exact ⟨i, rfl, Nat.le_refl _, by omega, fun k h1 h2 => by omega, fun _ => hc⟩

theorem scanGreater_spec {less : logLine → logLine → Bool} (s : logSorter)
    (hby : s.by_ = less) (a : Nat) (ha : a < s.logs.length) : ∀ (n j : Nat), n ≤ j →
      j < s.logs.length →
      ∃ j', scanGreater s a n j = some j' ∧ j' ≤ j ∧ j ≤ j' + n ∧
        (∀ k, j' < k → k ≤ j → less (s.val a) (s.val k) = true) ∧
        (j < j' + n → less (s.val a) (s.val j') = false) := by
  intro n
  induction n with
  | zero =>
    intro j _ _
    exact ⟨j, rfl, Nat.le_refl _, Nat.le_refl _, fun k h1 h2 => by omega, fun h => by omega⟩
  | succ n ih =>
    intro j hnj hj
    simp only [scanGreater, s.Less_eq ha hj, hby]
    cases hc : less (s.val a) (s.val j)
    · exact ⟨j, rfl, Nat.le_refl _, by omega, fun k h1 h2 => by omega, fun _ => hc⟩
    · obtain ⟨j', h1, h2, h3, h4, h5⟩ := ih (j - 1) (by omega) (by omega)
      refine ⟨j', h1, by omega, by omega, ?_, fun h => h5 (by omega)⟩
      intro k hk1 hk2
      by_cases hkj : k = j
      · subst hkj
        exact hc
      · exact h4 k hk1 (by omega)

/-- One round of scans of `partitionEqual`. -/
theorem partitionEqual_round {less : logLine → logLine → Bool} (s : logSorter)
    (hby : s.by_ = less) (a b i j : Nat) (p : logLine) (hb : b ≤ s.logs.length)
    (inv : EqualInv less s a b i j p) :
    ∃ i' j', scanNotGreater s a (j + 1 - i) i = some i' ∧
      scanGreater s a (j + 1 - i') j = some j' ∧ i ≤ i' ∧ j' ≤ j ∧
      EqualInv less s a b i' j' p ∧
      (j' < i' ∨ (less p (s.val i') = true ∧ less p (s.val j') = false)) := by
  obtain ⟨h1, h2, h3, h4, h5, h6⟩ := inv
  have ha : a < s.logs.length := by omega
  obtain ⟨i', e1, hi1, hi2, hi3, hi4⟩ :=
    scanNotGreater_spec s hby a ha (j + 1 - i) i (by omega)
  obtain ⟨j', e2, hj1, hj2, hj3, hj4⟩ :=
    scanGreater_spec s hby a ha (j + 1 - i') j (by omega) (by omega)
  rw [h4] at hi3 hi4 hj3 hj4
  refine ⟨i', j', e1, e2, hi1, hj1, ⟨by omega, by omega, by omega, h4, ?_, ?_⟩, ?_⟩
  · intro k hk1 hk2
    by_cases hki : k < i
    · exact h5 k hk1 hki
    · exact hi3 k (by omega) hk2
  · intro k hk1 hk2
    by_cases hkj : j < k
    · exact h6 k hkj hk2
    · exact hj3 k hk1 (by omega)
  · by_cases hlt : j' < i'
    · exact Or.inl hlt
    · exact Or.inr ⟨hi4 (by omega), hj4 (by omega)⟩

theorem partitionEqualLoop_spec {less : logLine → logLine → Bool} (a b : Nat) (p : logLine) :
    ∀ (fuel : Nat) (s : logSorter) (i j : Nat), s.by_ = less → b ≤ s.logs.length →
      EqualInv less s a b i j p → j + 1 - i < fuel →
      ∃ s' mid, partitionEqualLoop a fuel s i j = some (s', mid) ∧ Shuffle (a + 1) b s s' ∧
        a < mid ∧ mid ≤ b ∧ s'.val a = p ∧
        (∀ k, a < k → k < mid → less p (s'.val k) = false) ∧
        (∀ k, mid ≤ k → k < b → less p (s'.val k) = true) := by
  intro fuel
  induction fuel with
  | zero => intro s i j _ _ _ h; omega
  | succ fuel ih =>
    intro s i j hby hb inv hfuel
    obtain ⟨i', j', e1, e2, hi, hj, inv', hcase⟩ := partitionEqual_round s hby a b i j p hb inv
    simp only [partitionEqualLoop, e1, e2]
    by_cases hlt : i' > j'
    · simp only [hlt, if_true]
      obtain ⟨h1, h2, h3, h4, h5, h6⟩ := inv'
      exact ⟨s, i', rfl, Shuffle.refl _ _ _, by omega, by omega, h4, h5,
        fun k hk1 hk2 => h6 k (by omega) hk2⟩
    · simp only [hlt, if_false]
      rcases hcase with h | ⟨hvi, hvj⟩
      · omega
      · obtain ⟨h1, h2, h3, h4, h5, h6⟩ := inv'
        have hne : i' ≠ j' := by
          intro h
          subst h
          rw [hvi] at hvj
          exact absurd hvj (by simp)
        obtain ⟨s1, hswap, hby1, hlen1, hv1⟩ :=
          s.Swap_eq (show i' < s.logs.length by omega) (show j' < s.logs.length by omega)
        have hsh1 : Shuffle (a + 1) b s s1 :=
          Shuffle.of_swap (by omega) (by omega) hby1 hlen1 hv1
        simp only [hswap]
        have inv1 : EqualInv less s1 a b (i' + 1) (j' - 1) p := by
          refine ⟨by omega, by omega, by omega, ?_, ?_, ?_⟩
          · rw [hv1]
            have e1 : ¬ a = j' := by omega
            have e2 : ¬ a = i' := by omega
            simp only [e1, e2, if_false]
            exact h4
          · intro k hk1 hk2
            rw [hv1]
            have e1 : ¬ k = j' := by omega
            simp only [e1, if_false]
            by_cases hki : k = i'
            · simp only [hki, if_true]
              exact hvj
            · simp only [hki, if_false]
              exact h5 k hk1 (by omega)
          · intro k hk1 hk2
            rw [hv1]
            by_cases hkj : k = j'
            · simp only [hkj, if_true]
              exact hvi
            · have e1 : ¬ k = i' := by omega
              simp only [hkj, e1, if_false]
              exact h6 k (by omega) hk2
        obtain ⟨s', mid, e3, hsh2, r1, r2, r3, r4, r5⟩ := ih s1 (i' + 1) (j' - 1)
          (hby1.trans hby) (by rw [hlen1]; exact hb) inv1 (by omega)
        exact ⟨s', mid, e3, hsh1.trans hsh2, r1, r2, r3, r4, r5⟩

theorem partitionEqual_spec {less : logLine → logLine → Bool} (hsw : StrictWeak less)
    (s : logSorter) (hby : s.by_ = less) (a b pivot : Nat) (hb : b ≤ s.logs.length)
    (hpa : a ≤ pivot) (hpb : pivot < b) :
    ∃ s' mid, partitionEqual s a b pivot = some (s', mid) ∧ Shuffle a b s s' ∧
      a < mid ∧ mid ≤ b ∧
      (∀ k, a ≤ k → k < mid → less (s.val pivot) (s'.val k) = false) ∧
      (∀ k, mid ≤ k → k < b → less (s.val pivot) (s'.val k) = true) := by
  obtain ⟨s0, hswap0, hby0, hlen0, hv0⟩ :=
    s.Swap_eq (show a < s.logs.length by omega) (show pivot < s.logs.length by omega)
  have hsh0 : Shuffle a b s s0 := Shuffle.of_swap (by omega) (by omega) hby0 hlen0 hv0
  have hp : s0.val a = s.val pivot := by
    rw [hv0]
    by_cases h : a = pivot
    · simp [h]
    · simp [h]
  have inv0 : EqualInv less s0 a b (a + 1) (b - 1) (s.val pivot) :=
    ⟨Nat.le_refl _, by omega, by omega, hp, fun k h1 h2 => by omega, fun k h1 h2 => by omega⟩
  obtain ⟨s', mid, e, hsh, r1, r2, r3, r4, r5⟩ :=
    partitionEqualLoop_spec a b (s.val pivot) (b - a + 1) s0 (a + 1) (b - 1)
      (hby0.trans hby) (by rw [hlen0]; exact hb) inv0 (by omega)
  refine ⟨s', mid, ?_, hsh0.trans (hsh.mono (by omega) (Nat.le_refl _)), r1, r2, ?_, r5⟩
  · simp only [partitionEqual, hswap0, e]
  · intro k hk1 hk2
    by_cases hka : k = a
    · subst hka
      rw [r3]
      exact hsw.irrefl _
    · exact r4 k (by omega) hk2

/-! ## `reverseRange`, `breakPatterns`, `choosePivot` -/

theorem reverseRangeLoop_spec (a b : Nat) : ∀ (n i j : Nat) (s : logSorter),
    b ≤ s.logs.length → a ≤ i → (i < j → j < b) →
    ∃ s', reverseRangeLoop n i j s = some s' ∧ Shuffle a b s s' := by
  intro n
  induction n with
  | zero => intro i j s _ _ _; exact ⟨s, rfl, Shuffle.refl _ _ _⟩
  | succ n ih =>
    intro i j s hb hai hjb
    by_cases hij : i < j
    · have hj := hjb hij
      obtain ⟨s1, hswap, hby1, hlen1, hv1⟩ :=
        s.Swap_eq (show i < s.logs.length by omega) (show j < s.logs.length by omega)
      simp only [reverseRangeLoop, hij, if_true, hswap]
      obtain ⟨s', h, hsh⟩ := ih (i + 1) (j - 1) s1 (by rw [hlen1]; exact hb) (by omega)
        (fun _ => by omega)
      exact ⟨s', h, (Shuffle.of_swap (by omega) (by omega) hby1 hlen1 hv1).trans hsh⟩
    · simp only [reverseRangeLoop, hij, if_false]
      exact ⟨s, rfl, Shuffle.refl _ _ _⟩

theorem reverseRange_spec (s : logSorter) (a b : Nat) (hb : b ≤ s.logs.length) :
    ∃ s', reverseRange s a b = some s' ∧ Shuffle a b s s' :=
  reverseRangeLoop_spec a b (b - a) a (b - 1) s hb (Nat.le_refl _) (fun h => by omega)

theorem bitsLenAux_zero (fuel : Nat) : bitsLenAux fuel 0 = 0 := by
  cases fuel <;> simp [bitsLenAux]

theorem two_pow_bitsLenAux_le : ∀ (fuel x : Nat), 1 ≤ x → x ≤ fuel →
    2 ^ bitsLenAux fuel x ≤ 2 * x := by
  intro fuel
  induction fuel with
  | zero => intro x h1 h2; omega
  | succ fuel ih =>
    intro x h1 h2
    have hx : ¬ x = 0 := by omega
    simp only [bitsLenAux, hx, if_false, pow_succ]
    by_cases h : x / 2 = 0
    · rw [h, bitsLenAux_zero]
      simp
      omega
    · have := ih (x / 2) (by omega) (by omega)
      omega

theorem nextPowerOfTwo_le (length : Nat) (h : 1 ≤ length) :
    nextPowerOfTwo length ≤ 2 * length :=
  two_pow_bitsLenAux_le length length h (Nat.le_refl _)

theorem breakPatternsLoop_spec (a length modulus idx : Nat) (hm : modulus ≤ 2 * length)
    (hl : 1 ≤ length) (hidx : a + 1 ≤ idx) :
    ∀ (n i random : Nat) (s : logSorter), a + length ≤ s.logs.length →
      idx - 1 + i + n ≤ a + length →
      ∃ s', breakPatternsLoop a length modulus idx n i random s = some s' ∧
        Shuffle a (a + length) s s' := by
  intro n
  induction n with
  | zero => intro i random s _ _; exact ⟨s, rfl, Shuffle.refl _ _ _⟩
  | succ n ih =>
    intro i random s hlen hin
    have hother : (if xorshiftNext random &&& (modulus - 1) ≥ length
        then (xorshiftNext random &&& (modulus - 1)) - length
        else xorshiftNext random &&& (modulus - 1)) < length := by
      have := Nat.and_le_right (n := xorshiftNext random) (m := modulus - 1)
      split_ifs <;> omega
    obtain ⟨s1, hswap, hby1, hlen1, hv1⟩ :=
      s.Swap_eq (show idx - 1 + i < s.logs.length by omega)
        (show a + (if xorshiftNext random &&& (modulus - 1) ≥ length
          then (xorshiftNext random &&& (modulus - 1)) - length
          else xorshiftNext random &&& (modulus - 1)) < s.logs.length by omega)
    simp only [breakPatternsLoop, hswap]
    obtain ⟨s', h, hsh⟩ := ih (i + 1) (xorshiftNext random) s1 (by rw [hlen1]; exact hlen)
      (by omega)
    exact ⟨s', h, (Shuffle.of_swap (by omega) (by omega) hby1 hlen1 hv1).trans hsh⟩

theorem breakPatterns_spec (s : logSorter) (a b : Nat) (hab : a ≤ b) (hb : b ≤ s.logs.length) :
    ∃ s', breakPatterns s a b = some s' ∧ Shuffle a b s s' := by
  unfold breakPatterns
  by_cases h8 : b - a ≥ 8
  · simp only [h8, if_true]
    have hab' : a + (b - a) = b := by omega
    have := breakPatternsLoop_spec a (b - a) (nextPowerOfTwo (b - a))
      (a + (b - a) / 4 * 2 - 1) (nextPowerOfTwo_le _ (by omega)) (by omega) (by omega)
      3 0 (b - a) s (by omega) (by omega)
    rw [hab'] at this
    exact this
  · simp only [h8, if_false]
    exact ⟨s, rfl, Shuffle.refl _ _ _⟩

theorem order2_spec (s : logSorter) (x y swaps : Nat) (hx : x < s.logs.length)
    (hy : y < s.logs.length) :
    ∃ x' y' swaps', order2 s x y swaps = some (x', y', swaps') ∧
      ((x' = x ∧ y' = y) ∨ (x' = y ∧ y' = x)) ∧
      (s.by_ (s.val y) (s.val x) = false → x' = x ∧ y' = y ∧ swaps' = swaps) := by
  simp only [order2, s.Less_eq hy hx]
  cases hc : s.by_ (s.val y) (s.val x)
  · exact ⟨x, y, swaps, rfl, Or.inl ⟨rfl, rfl⟩, fun _ => ⟨rfl, rfl, rfl⟩⟩
  · exact ⟨y, x, swaps + 1, rfl, Or.inr ⟨rfl, rfl⟩, fun h => by simp at h⟩

theorem median_spec (s : logSorter) (x y z swaps : Nat) (hx : x < s.logs.length)
    (hy : y < s.logs.length) (hz : z < s.logs.length) :
    ∃ m swaps', median s x y z swaps = some (m, swaps') ∧ (m = x ∨ m = y ∨ m = z) ∧
      (s.by_ (s.val y) (s.val x) = false → s.by_ (s.val z) (s.val y) = false →
        m = y ∧ swaps' = swaps) := by
  obtain ⟨x1, y1, sw1, e1, h1, k1⟩ := order2_spec s x y swaps hx hy
  have hx1 : x1 < s.logs.length := by rcases h1 with ⟨rfl, rfl⟩ | ⟨rfl, rfl⟩ <;> assumption
  have hy1 : y1 < s.logs.length := by rcases h1 with ⟨rfl, rfl⟩ | ⟨rfl, rfl⟩ <;> assumption
  obtain ⟨y2, z2, sw2, e2, h2, k2⟩ := order2_spec s y1 z sw1 hy1 hz
  have hy2 : y2 < s.logs.length := by rcases h2 with ⟨rfl, rfl⟩ | ⟨rfl, rfl⟩ <;> assumption
  obtain ⟨x3, y3, sw3, e3, h3, k3⟩ := order2_spec s x1 y2 sw2 hx1 hy2
  refine ⟨y3, sw3, ?_, ?_, ?_⟩
  · simp only [median, e1, e2, e3]
  · rcases h1 with ⟨rfl, rfl⟩ | ⟨rfl, rfl⟩ <;> rcases h2 with ⟨rfl, rfl⟩ | ⟨rfl, rfl⟩ <;>
      rcases h3 with ⟨rfl, rfl⟩ | ⟨rfl, rfl⟩ <;> simp
  · intro hyx hzy
    obtain ⟨rfl, rfl, rfl⟩ := k1 hyx
    obtain ⟨rfl, rfl, rfl⟩ := k2 hzy
    obtain ⟨rfl, rfl, rfl⟩ := k3 hyx
    exact ⟨rfl, rfl⟩

theorem choosePivot_spec (s : logSorter) (a b : Nat) (h8 : 8 ≤ b - a)
    (hb : b ≤ s.logs.length) :
    ∃ pivot hint, choosePivot s a b = some (pivot, hint) ∧ a ≤ pivot ∧ pivot < b ∧
      (SortedOn s a b → hint = .increasingHint) := by
  have hq : 2 ≤ (b - a) / 4 := by omega
  have hq4 : (b - a) / 4 * 4 ≤ b - a := Nat.div_mul_le_self _ _
  by_cases h50 : b - a ≥ 50
  · obtain ⟨i, sw1, e1, r1, k1⟩ := median_spec s (a + (b - a) / 4 * 1 - 1)
      (a + (b - a) / 4 * 1) (a + (b - a) / 4 * 1 + 1) 0 (by omega) (by omega) (by omega)
    obtain ⟨j, sw2, e2, r2, k2⟩ := median_spec s (a + (b - a) / 4 * 2 - 1)
      (a + (b - a) / 4 * 2) (a + (b - a) / 4 * 2 + 1) sw1 (by omega) (by omega) (by omega)
    obtain ⟨k, sw3, e3, r3, k3⟩ := median_spec s (a + (b - a) / 4 * 3 - 1)
      (a + (b - a) / 4 * 3) (a + (b - a) / 4 * 3 + 1) sw2 (by omega) (by omega) (by omega)
    obtain ⟨m, sw4, e4, r4, k4⟩ := median_spec s i j k sw3 (by omega) (by omega) (by omega)
    have hm : a ≤ m ∧ m < b := by omega
    have hsorted : SortedOn s a b → sw4 = 0 := by
      intro hs
      obtain ⟨rfl, rfl⟩ := k1 (hs _ _ (by omega) (by omega) (by omega))
        (hs _ _ (by omega) (by omega) (by omega))
      obtain ⟨rfl, rfl⟩ := k2 (hs _ _ (by omega) (by omega) (by omega))
        (hs _ _ (by omega) (by omega) (by omega))
      obtain ⟨rfl, rfl⟩ := k3 (hs _ _ (by omega) (by omega) (by omega))
        (hs _ _ (by omega) (by omega) (by omega))
      obtain ⟨rfl, rfl⟩ := k4 (hs _ _ (by omega) (by omega) (by omega))
        (hs _ _ (by omega) (by omega) (by omega))
      rfl
    simp only [choosePivot, medianAdjacent, h8, h50, if_true, ge_iff_le, e1, e2, e3, e4]
    by_cases hz : sw4 = 0
    · simp only [hz, if_true]
      exact ⟨m, _, rfl, hm.1, hm.2, fun _ => rfl⟩
    · simp only [hz, if_false]
      by_cases h12 : sw4 = 4 * 3
      · simp only [h12, if_true]
        exact ⟨m, _, rfl, hm.1, hm.2, fun hs => absurd (hsorted hs) hz⟩
      · simp only [h12, if_false]
        exact ⟨m, _, rfl, hm.1, hm.2, fun hs => absurd (hsorted hs) hz⟩
  · obtain ⟨m, sw4, e4, r4, k4⟩ := median_spec s (a + (b - a) / 4 * 1) (a + (b - a) / 4 * 2)
      (a + (b - a) / 4 * 3) 0 (by omega) (by omega) (by omega)
    have hm : a ≤ m ∧ m < b := by omega
    have hsorted : SortedOn s a b → sw4 = 0 := by
      intro hs
      obtain ⟨rfl, rfl⟩ := k4 (hs _ _ (by omega) (by omega) (by omega))
        (hs _ _ (by omega) (by omega) (by omega))
      rfl
    simp only [choosePivot, h8, h50, if_true, if_false, ge_iff_le, e4]
    by_cases hz : sw4 = 0
    · simp only [hz, if_true]
      exact ⟨m, _, rfl, hm.1, hm.2, fun _ => rfl⟩
    · simp only [hz, if_false]
      by_cases h12 : sw4 = 4 * 3
      · simp only [h12, if_true]
        exact ⟨m, _, rfl, hm.1, hm.2, fun hs => absurd (hsorted hs) hz⟩
      · simp only [h12, if_false]
        exact ⟨m, _, rfl, hm.1, hm.2, fun hs => absurd (hsorted hs) hz⟩

/-! ## `partialInsertionSort` -/

theorem LowerBounded.shuffle {a b : Nat} {s t : logSorter} (h : LowerBounded s a b)
    (hsh : Shuffle a b s t) : LowerBounded t a b := by
  intro ha k hk1 hk2
  rw [hsh.by_eq, hsh.val_outside (k := a - 1) (Or.inl (by omega))]
  exact hsh.forall_inside (P := fun x => s.by_ x (s.val (a - 1)) = false) (h ha) k hk1 hk2

theorem LowerBounded.shrink {a b b' : Nat} {s : logSorter} (h : LowerBounded s a b)
    (hb : b' ≤ b) : LowerBounded s a b' :=
  fun ha k hk1 hk2 => h ha k hk1 (by omega)

/-- A shuffle of a range disjoint from `[a, b)` keeps `[a, b)` sorted. -/
theorem SortedOn.of_outside {a b c d : Nat} {s t : logSorter} (h : SortedOn s a b)
    (hsh : Shuffle c d s t) (hd : b ≤ c ∨ d ≤ a) : SortedOn t a b := by
  intro i j hi hij hj
  rw [hsh.by_eq, hsh.val_outside (k := i) (by omega), hsh.val_outside (k := j) (by omega)]
  exact h i j hi hij hj

theorem scanOrdered_spec {less : logLine → logLine → Bool} (hsw : StrictWeak less)
    (s : logSorter) (hby : s.by_ = less) (a b : Nat) (hb : b ≤ s.logs.length) :
    ∀ (n i : Nat), a + 1 ≤ i → i + n = b → SortedOn s a i →
      ∃ i', scanOrdered s n i = some i' ∧ i ≤ i' ∧ i' ≤ b ∧ SortedOn s a i' ∧
        (i' < b → less (s.val i') (s.val (i' - 1)) = true) := by
  intro n
  induction n with
  | zero =>
    intro i _ hin hs
    exact ⟨i, rfl, Nat.le_refl _, by omega, hs, fun h => by omega⟩
  | succ n ih =>
    intro i hai hin hs
    simp only [scanOrdered,
      s.Less_eq (show i < s.logs.length by omega) (show i - 1 < s.logs.length by omega), hby]
    cases hc : less (s.val i) (s.val (i - 1))
    · have hs' : SortedOn s a (i + 1) := by
        intro p q hp hpq hq
        rw [hby]
        by_cases hqi : q = i
        · subst hqi
          by_cases hpi : p = q - 1
          · subst hpi
            exact hc
          · have := hs p (q - 1) hp (by omega) (by omega)
            rw [hby] at this
            exact hsw.negtrans _ _ _ hc this
        · have := hs p q hp hpq (by omega)
          rw [hby] at this
          exact this
      obtain ⟨i', h1, h2, h3, h4, h5⟩ := ih (i + 1) (by omega) (by omega) hs'
      exact ⟨i', h1, by omega, h3, h4, h5⟩
    · exact ⟨i, rfl, Nat.le_refl _, by omega, hs, fun _ => hc⟩

theorem shiftLeft_spec {less : logLine → logLine → Bool} (hsw : StrictWeak less)
    (a i : Nat) : ∀ (j : Nat) (s : logSorter), s.by_ = less → a ≤ j → j < i →
      i ≤ s.logs.length → LowerBounded s a i →
      (∀ p q, a ≤ p → p < q → q < i → q ≠ j → less (s.val q) (s.val p) = false) →
      ∃ s', shiftLeft j s = some s' ∧ Shuffle a i s s' ∧ SortedOn s' a i := by
  intro j
  induction j with
  | zero =>
    intro s hby _ _ _ _ hinv
    refine ⟨s, rfl, Shuffle.refl _ _ _, ?_⟩
    intro p q hp hpq hq
    rw [hby]
    exact hinv p q hp hpq hq (by omega)
  | succ j ih =>
    intro s hby haj hji hlen hlow hinv
    have hdone : (∀ p, a ≤ p → p < j + 1 → less (s.val (j + 1)) (s.val p) = false) →
        SortedOn s a i := by
      intro hj p q hp hpq hq
      rw [hby]
      by_cases hqj : q = j + 1
      · subst hqj
        exact hj p hp hpq
      · exact hinv p q hp hpq hq hqj
    simp only [shiftLeft,
      s.Less_eq (show j + 1 < s.logs.length by omega) (show j < s.logs.length by omega), hby]
    cases hc : less (s.val (j + 1)) (s.val j)
    · refine ⟨s, rfl, Shuffle.refl _ _ _, hdone ?_⟩
      intro p hp hpj
      by_cases hpj' : p = j
      · subst hpj'
        exact hc
      · exact hsw.negtrans _ _ _ hc (hinv p j hp (by omega) (by omega) (by omega))
    · have hgt : a < j + 1 := by
        by_contra hle
        have hja : j + 1 = a := by omega
        have := hlow (by omega) (j + 1) (by omega) hji
        rw [hby, ← hja] at this
        simp only [Nat.add_sub_cancel] at this
        rw [hc] at this
        exact absurd this (by simp)
      obtain ⟨s1, hswap, hby1, hlen1, hv1⟩ :=
        s.Swap_eq (show j + 1 < s.logs.length by omega) (show j < s.logs.length by omega)
      simp only [hswap]
      have hsh : Shuffle a i s s1 :=
        Shuffle.of_swap (i := j + 1) (j := j) (by omega) (by omega) hby1 hlen1 hv1
      obtain ⟨s', hs', hsh', hsorted⟩ := ih s1 (hby1.trans hby) (by omega) (by omega)
        (by rw [hlen1]; exact hlen) (hlow.shuffle hsh) (by
          intro p q hp hpq hq hqj
          rw [hv1 p, hv1 q]
          have hqj2 : ¬ q = j := hqj
          simp only [hqj2, if_false]
          by_cases hq1 : q = j + 1
          · subst hq1
            simp only [if_true]
            by_cases hpj : p = j
            · subst hpj
              simp only [if_true]
              exact hsw.asymm _ _ hc
            · have hp1 : ¬ p = j + 1 := by omega
              simp only [hpj, hp1, if_false]
              exact hinv p j hp (by omega) (by omega) (by omega)
          · simp only [hq1, if_false]
            by_cases hpj : p = j
            · subst hpj
              simp only [if_true]
              exact hinv (p + 1) q (by omega) (by omega) hq hq1
            · by_cases hp1 : p = j + 1
              · subst hp1
                simp only [hpj, if_false, if_true]
                exact hinv j q (by omega) (by omega) hq hq1
              · simp only [hpj, hp1, if_false]
                exact hinv p q hp hpq hq hq1)
      exact ⟨s', hs', hsh.trans hsh', hsorted⟩

theorem shiftRight_spec (lo b : Nat) : ∀ (n j : Nat) (s : logSorter), b ≤ s.logs.length →
    lo + 1 ≤ j → j + n = b →
    ∃ s', shiftRight n j s = some s' ∧ Shuffle lo b s s' := by
  intro n
  induction n with
  | zero => intro j s _ _ _; exact ⟨s, rfl, Shuffle.refl _ _ _⟩
  | succ n ih =>
    intro j s hb hlo hjn
    simp only [shiftRight,
      s.Less_eq (show j < s.logs.length by omega) (show j - 1 < s.logs.length by omega)]
    cases hc : s.by_ (s.val j) (s.val (j - 1))
    · exact ⟨s, rfl, Shuffle.refl _ _ _⟩
    · obtain ⟨s1, hswap, hby1, hlen1, hv1⟩ :=
        s.Swap_eq (show j < s.logs.length by omega) (show j - 1 < s.logs.length by omega)
      simp only [hswap]
      obtain ⟨s', h, hsh⟩ := ih (j + 1) s1 (by rw [hlen1]; exact hb) (by omega) (by omega)
      exact ⟨s', h, (Shuffle.of_swap (by omega) (by omega) hby1 hlen1 hv1).trans hsh⟩

theorem partialInsertionSortLoop_spec {less : logLine → logLine → Bool} (hsw : StrictWeak less)
    (a b : Nat) : ∀ (steps i : Nat) (s : logSorter), s.by_ = less → b ≤ s.logs.length →
      a + 1 ≤ i → i ≤ b → LowerBounded s a b → SortedOn s a i →
      ∃ s' r, partialInsertionSortLoop a b steps i s = some (s', r) ∧ Shuffle a b s s' ∧
        (r = true → SortedOn s' a b) ∧ (SortedOn s a b → s' = s ∧ r = true ∨ steps = 0) := by
  intro steps
  induction steps with
  | zero =>
    intro i s _ _ _ _ _ _
    exact ⟨s, false, rfl, Shuffle.refl _ _ _, fun h => by simp at h, fun _ => Or.inr rfl⟩
  | succ steps ih =>
    intro i s hby hb hai hib hlow hs
    obtain ⟨i', e1, hi1, hi2, hs1, hstop⟩ :=
      scanOrdered_spec hsw s hby a b hb (b - i) i hai (by omega) hs
    simp only [partialInsertionSortLoop, e1]
    by_cases hend : i' = b
    · simp only [hend, if_true]
      exact ⟨s, true, rfl, Shuffle.refl _ _ _, fun _ => hend ▸ hs1, fun _ => Or.inl ⟨rfl, rfl⟩⟩
    · have hnot : SortedOn s a b → False := by
        intro hsorted
        have h1 := hstop (by omega)
        have h2 := hsorted (i' - 1) i' (by omega) (by omega) (by omega)
        rw [hby, h1] at h2
        exact absurd h2 (by simp)
      simp only [hend, if_false]
      by_cases hshort : b - a < 50
      · simp only [hshort, if_true]
        exact ⟨s, false, rfl, Shuffle.refl _ _ _, fun h => by simp at h,
          fun h => (hnot h).elim⟩
      · simp only [hshort, if_false]
        obtain ⟨s1, hswap, hby1, hlen1, hv1⟩ :=
          s.Swap_eq (show i' < s.logs.length by omega) (show i' - 1 < s.logs.length by omega)
        have hsh1 : Shuffle a b s s1 :=
          Shuffle.of_swap (by omega) (by omega) hby1 hlen1 hv1
        have hby1' : s1.by_ = less := hby1.trans hby
        have hb1 : b ≤ s1.logs.length := by rw [hlen1]; exact hb
        simp only [hswap]
        have hleft : ∃ s2, (if i' - a ≥ 2 then shiftLeft (i' - 1) s1 else some s1) = some s2 ∧
            Shuffle a b s1 s2 ∧ SortedOn s2 a i' := by
          by_cases h2 : i' - a ≥ 2
          · simp only [h2, if_true]
            obtain ⟨s2, e, hsh, hso⟩ := shiftLeft_spec hsw a i' (i' - 1) s1 hby1' (by omega)
              (by omega) (by omega) ((hlow.shuffle hsh1).shrink hi2) (by
                intro p q hp hpq hq hqi
                rw [hv1 p, hv1 q]
                have e1 : ¬ q = i' - 1 := hqi
                have e2 : ¬ q = i' := by omega
                have e3 : ¬ p = i' - 1 := by omega
                have e4 : ¬ p = i' := by omega
                simp only [e1, e2, e3, e4, if_false]
                have := hs1 p q hp hpq (by omega)
                rw [hby] at this
                exact this)
            exact ⟨s2, e, hsh.mono (Nat.le_refl _) hi2, hso⟩
          · simp only [h2, if_false]
            refine ⟨s1, rfl, Shuffle.refl _ _ _, ?_⟩
            intro p q hp hpq hq
            omega
        obtain ⟨s2, e2, hsh2, hso2⟩ := hleft
        simp only [e2]
        have hb2 : b ≤ s2.logs.length := by rw [hsh2.len_eq]; exact hb1
        have hright : ∃ s3, (if b - i' ≥ 2 then shiftRight (b - (i' + 1)) (i' + 1) s2
            else some s2) = some s3 ∧ Shuffle a b s2 s3 ∧ SortedOn s3 a i' := by
          by_cases h2 : b - i' ≥ 2
          · simp only [h2, if_true]
            obtain ⟨s3, e, hsh⟩ := shiftRight_spec i' b (b - (i' + 1)) (i' + 1) s2 hb2
              (Nat.le_refl _) (by omega)
            exact ⟨s3, e, hsh.mono (by omega) (Nat.le_refl _),
              hso2.of_outside hsh (Or.inl (Nat.le_refl _))⟩
          · simp only [h2, if_false]
            exact ⟨s2, rfl, Shuffle.refl _ _ _, hso2⟩
        obtain ⟨s3, e3, hsh3, hso3⟩ := hright
        simp only [e3]
        have hsh13 : Shuffle a b s s3 := hsh1.trans (hsh2.trans hsh3)
        obtain ⟨s', r, e4, hsh4, hr, _⟩ := ih i' s3 (hsh13.by_eq.trans hby)
          (by rw [hsh13.len_eq]; exact hb) (by omega) hi2 (hlow.shuffle hsh13) hso3
        exact ⟨s', r, e4, hsh13.trans hsh4, hr, fun h => (hnot h).elim⟩

theorem partialInsertionSort_spec {less : logLine → logLine → Bool} (hsw : StrictWeak less)
    (s : logSorter) (hby : s.by_ = less) (a b : Nat) (hab : a < b) (hb : b ≤ s.logs.length)
    (hlow : LowerBounded s a b) :
    ∃ s' r, partialInsertionSort s a b = some (s', r) ∧ Shuffle a b s s' ∧
      (r = true → SortedOn s' a b) ∧ (SortedOn s a b → s' = s ∧ r = true) := by
  obtain ⟨s', r, e, hsh, hr, hid⟩ := partialInsertionSortLoop_spec hsw a b 5 (a + 1) s hby hb
    (Nat.le_refl _) (by omega) hlow (by intro p q hp hpq hq; omega)
  refine ⟨s', r, e, hsh, hr, fun h => ?_⟩
  rcases hid h with h | h
  · exact h
  · omega

/-! ## `pdqsort` -/

theorem pdqBreak_spec (s : logSorter) (a b limit : Nat) (wasBalanced : Bool) (hab : a ≤ b)
    (hb : b ≤ s.logs.length) :
    ∃ s' limit', pdqBreak s a b limit wasBalanced = some (s', limit') ∧ Shuffle a b s s' ∧
      (wasBalanced = true → s' = s) := by
  unfold pdqBreak
  cases wasBalanced
  · obtain ⟨s', e, hsh⟩ := breakPatterns_spec s a b hab hb
    simp only [Bool.not_false, if_true, e]
    exact ⟨s', _, rfl, hsh, fun h => by simp at h⟩
  · simp only [Bool.not_true, Bool.false_eq_true, if_false]
    exact ⟨s, _, rfl, Shuffle.refl _ _ _, fun _ => rfl⟩

theorem pdqReverse_spec (s : logSorter) (a b pivot : Nat) (hint : sortedHint)
    (hb : b ≤ s.logs.length) (hpa : a ≤ pivot) (hpb : pivot < b) :
    ∃ s' pivot' hint', pdqReverse s a b pivot hint = some (s', pivot', hint') ∧
      Shuffle a b s s' ∧ a ≤ pivot' ∧ pivot' < b ∧
      (hint = .increasingHint → s' = s ∧ hint' = .increasingHint) := by
  unfold pdqReverse
  by_cases h : hint = .decreasingHint
  · obtain ⟨s', e, hsh⟩ := reverseRange_spec s a b hb
    simp only [h, if_true, e]
    exact ⟨s', _, _, rfl, hsh, by omega, by omega, fun h => by simp at h⟩
  · simp only [h, if_false]
    exact ⟨s, _, _, rfl, Shuffle.refl _ _ _, hpa, hpb, fun h => ⟨rfl, h⟩⟩

theorem pdqPartial_spec {less : logLine → logLine → Bool} (hsw : StrictWeak less)
    (s : logSorter) (hby : s.by_ = less) (a b : Nat) (wasBalanced wasPartitioned : Bool)
    (hint : sortedHint) (hab : a < b) (hb : b ≤ s.logs.length) (hlow : LowerBounded s a b) :
    ∃ s' r, pdqPartial s a b wasBalanced wasPartitioned hint = some (s', r) ∧
      Shuffle a b s s' ∧ (r = true → SortedOn s' a b) ∧
      (wasBalanced = true → wasPartitioned = true → hint = .increasingHint →
        SortedOn s a b → s' = s ∧ r = true) := by
  unfold pdqPartial
  by_cases h : wasBalanced = true ∧ wasPartitioned = true ∧ hint = .increasingHint
  · simp only [h, and_self, if_true]
    obtain ⟨s', r, e, hsh, hr, hid⟩ := partialInsertionSort_spec hsw s hby a b hab hb hlow
    exact ⟨s', r, e, hsh, hr, fun _ _ _ hs => hid hs⟩
  · simp only [h, if_false]
    exact ⟨s, false, rfl, Shuffle.refl _ _ _, fun h => by simp at h,
      fun h1 h2 h3 _ => absurd ⟨h1, h2, h3⟩ h⟩

theorem pdqEqual_spec (s : logSorter) (a b pivot : Nat) (hb : b ≤ s.logs.length)
    (hab : a ≤ b) (hpb : pivot < b) :
    ∃ c, pdqEqual s a pivot = some c ∧
      (c = true → 0 < a ∧ s.by_ (s.val (a - 1)) (s.val pivot) = false) := by
  unfold pdqEqual
  by_cases ha : a > 0
  · simp only [ha, if_true,
      s.Less_eq (show a - 1 < s.logs.length by omega) (show pivot < s.logs.length by omega)]
    refine ⟨_, rfl, fun h => ?_⟩
    simp only [ha, true_and]
    simpa using h
  · simp only [ha, if_false]
    exact ⟨false, rfl, fun h => by simp at h⟩

theorem LowerBounded.keep_outside {a b c d : Nat} {s t : logSorter} (h : LowerBounded s a b)
    (hsh : Shuffle c d s t) (hc : b ≤ c) : LowerBounded t a b := by
  intro ha k hk1 hk2
  rw [hsh.by_eq, hsh.val_outside (k := a - 1) (Or.inl (by omega)),
    hsh.val_outside (k := k) (Or.inl (by omega))]
  exact h ha k hk1 hk2

/-- After a partition around the element at `mid`, sorting the two sides sorts the range. -/
theorem SortedOn.of_parts {less : logLine → logLine → Bool} (hsw : StrictWeak less)
    (s : logSorter) (hby : s.by_ = less) (a b mid : Nat)
    (hlo : ∀ k, a ≤ k → k < mid → less (s.val k) (s.val mid) = true)
    (hup : ∀ k, mid < k → k < b → less (s.val k) (s.val mid) = false)
    (hl : SortedOn s a mid) (hr : SortedOn s (mid + 1) b) : SortedOn s a b := by
  intro i j hi hij hj
  by_cases h1 : j < mid
  · exact hl i j hi hij h1
  · by_cases h2 : mid < i
    · exact hr i j (by omega) hij hj
    · rw [hby]
      by_cases h3 : j = mid
      · subst h3
        exact hsw.asymm _ _ (hlo i hi (by omega))
      · by_cases h4 : i = mid
        · subst h4
          exact hup j (by omega) hj
        · cases hc : less (s.val j) (s.val i)
          · rfl
          · have := hsw.lt_trans hc (hlo i hi (by omega))
            rw [hup j (by omega) hj] at this
            exact absurd this (by simp)

/-- The partition facts survive the sorting of the two sides, in either order. -/
theorem sorted_after_partition {less : logLine → logLine → Bool} (hsw : StrictWeak less)
    (s t : logSorter) (hby : s.by_ = less) (a b mid : Nat)
    (hlo : ∀ k, a ≤ k → k < mid → less (s.val k) (s.val mid) = true)
    (hup : ∀ k, mid < k → k < b → less (s.val k) (s.val mid) = false)
    (u : logSorter) (hleft : Shuffle a mid s u ∨ Shuffle (mid + 1) b s u)
    (hright : Shuffle a mid u t ∨ Shuffle (mid + 1) b u t)
    (hl : SortedOn t a mid) (hr : SortedOn t (mid + 1) b) : SortedOn t a b := by
  have hbyu : u.by_ = less := by
    rcases hleft with h | h <;> exact h.by_eq.trans hby
  have hbyt : t.by_ = less := by
    rcases hright with h | h <;> exact h.by_eq.trans hbyu
  have step : ∀ (x y : logSorter), (Shuffle a mid x y ∨ Shuffle (mid + 1) b x y) →
      ((∀ k, a ≤ k → k < mid → less (x.val k) (x.val mid) = true) ∧
        (∀ k, mid < k → k < b → less (x.val k) (x.val mid) = false)) →
      ((∀ k, a ≤ k → k < mid → less (y.val k) (y.val mid) = true) ∧
        (∀ k, mid < k → k < b → less (y.val k) (y.val mid) = false)) := by
    intro x y hxy ⟨h1, h2⟩
    rcases hxy with h | h
    · have em : y.val mid = x.val mid := h.val_outside (Or.inr (Nat.le_refl _))
      rw [em]
      refine ⟨h.forall_inside (P := fun z => less z (x.val mid) = true) h1, ?_⟩
      intro k hk1 hk2
      rw [h.val_outside (Or.inr (by omega))]
      exact h2 k hk1 hk2
    · have em : y.val mid = x.val mid := h.val_outside (Or.inl (by omega))
      rw [em]
      refine ⟨?_, fun k hk1 hk2 =>
        h.forall_inside (P := fun z => less z (x.val mid) = false)
          (fun k hk1 hk2 => h2 k (by omega) hk2) k (by omega) hk2⟩
      intro k hk1 hk2
      rw [h.val_outside (Or.inl (by omega))]
      exact h1 k hk1 hk2
  obtain ⟨h1, h2⟩ := step u t hright (step s u hleft ⟨hlo, hup⟩)
  exact SortedOn.of_parts hsw t hbyt a b mid h1 h2 hl hr

theorem pdqsortLoop_spec {less : logLine → logLine → Bool} (hsw : StrictWeak less) :
    ∀ (fuel : Nat) (s : logSorter) (a b limit : Nat) (wasBalanced wasPartitioned : Bool),
      s.by_ = less → a ≤ b → b ≤ s.logs.length → b - a < fuel → LowerBounded s a b →
      ∃ s', pdqsortLoop fuel s a b limit wasBalanced wasPartitioned = some s' ∧
        Shuffle a b s s' ∧ SortedOn s' a b := by
  intro fuel
  induction fuel with
  | zero => intro s a b _ _ _ _ _ _ h; omega
  | succ fuel ih =>
    intro s a b limit wasBalanced wasPartitioned hby hab hb hfuel hlow
    simp only [pdqsortLoop]
    by_cases h12 : b - a ≤ 12
    · simp only [h12, if_true]
      exact insertionSort_spec hsw s a b hby hb
    · simp only [h12, if_false]
      by_cases hlim : limit = 0
      · simp only [hlim, if_true]
        exact heapSort_spec hsw s a b hby hab hb
      · simp only [hlim, if_false]
        obtain ⟨s1, limit1, e1, hsh1, _⟩ := pdqBreak_spec s a b limit wasBalanced hab hb
        have hb1 : b ≤ s1.logs.length := by rw [hsh1.len_eq]; exact hb
        obtain ⟨pivot, hint, e2, hp1, hp2, _⟩ := choosePivot_spec s1 a b (by omega) hb1
        obtain ⟨s2, pivot2, hint2, e3, hsh2, hq1, hq2, _⟩ :=
          pdqReverse_spec s1 a b pivot hint hb1 hp1 hp2
        have hsh12 : Shuffle a b s s2 := hsh1.trans hsh2
        have hby2 : s2.by_ = less := hsh12.by_eq.trans hby
        have hb2 : b ≤ s2.logs.length := by rw [hsh12.len_eq]; exact hb
        obtain ⟨s3, r, e4, hsh3, hr, _⟩ := pdqPartial_spec hsw s2 hby2 a b wasBalanced
          wasPartitioned hint2 (by omega) hb2 (hlow.shuffle hsh12)
        have hsh13 : Shuffle a b s s3 := hsh12.trans hsh3
        have hby3 : s3.by_ = less := hsh13.by_eq.trans hby
        have hb3 : b ≤ s3.logs.length := by rw [hsh13.len_eq]; exact hb
        have hlow3 : LowerBounded s3 a b := hlow.shuffle hsh13
        simp only [e1, e2, e3, e4]
        cases r
        · simp only
          obtain ⟨c, e5, hc⟩ := pdqEqual_spec s3 a b pivot2 hb3 hab hq2
          simp only [e5]
          cases c
          · simp only
            obtain ⟨s4, mid, ap, e6, hsh4, hm1, hm2, hlo, hup⟩ :=
              partition_spec s3 hby3 a b pivot2 hb3 hq1 hq2
            have hsh14 : Shuffle a b s s4 := hsh13.trans hsh4
            have hby4 : s4.by_ = less := hsh14.by_eq.trans hby
            have hb4 : b ≤ s4.logs.length := by rw [hsh14.len_eq]; exact hb
            have hlow4 : LowerBounded s4 a b := hlow.shuffle hsh14
            have hlowR : ∀ t : logSorter, t.by_ = less → t.val mid = s4.val mid →
                (∀ k, mid < k → k < b → less (t.val k) (s4.val mid) = false) →
                LowerBounded t (mid + 1) b := by
              intro t hbyt hmid hk _ k hk1 hk2
              rw [hbyt, Nat.add_sub_cancel, hmid]
              exact hk k (by omega) hk2
            simp only [e6]
            by_cases hside : mid - a < b - mid
            · simp only [hside, if_true]
              obtain ⟨s5, e7, hsh5, hso5⟩ := ih s4 a mid limit1 true true hby4 hm1 (by omega)
                (by omega) (hlow4.shrink (by omega))
              have hby5 : s5.by_ = less := hsh5.by_eq.trans hby4
              simp only [e7]
              obtain ⟨s6, e8, hsh6, hso6⟩ := ih s5 (mid + 1) b limit1
                (decide (mid - a ≥ (b - a) / 8)) ap hby5 (by omega)
                (by rw [hsh5.len_eq]; exact hb4) (by omega)
                (hlowR s5 hby5 (hsh5.val_outside (Or.inr (Nat.le_refl _)))
                  (fun k hk1 hk2 => by
                    rw [hsh5.val_outside (Or.inr (by omega))]
                    exact hup k hk1 hk2))
              refine ⟨s6, e8, hsh14.trans ((hsh5.mono (Nat.le_refl _) (by omega)).trans
                (hsh6.mono (by omega) (Nat.le_refl _))), ?_⟩
              exact sorted_after_partition hsw s4 s6 hby4 a b mid hlo hup s5
                (Or.inl hsh5) (Or.inr hsh6)
                (hso5.of_outside hsh6 (Or.inl (by omega))) hso6
            · simp only [hside, if_false]
              obtain ⟨s5, e7, hsh5, hso5⟩ := ih s4 (mid + 1) b limit1 true true hby4 (by omega)
                hb4 (by omega) (hlowR s4 hby4 rfl hup)
              have hby5 : s5.by_ = less := hsh5.by_eq.trans hby4
              simp only [e7]
              obtain ⟨s6, e8, hsh6, hso6⟩ := ih s5 a mid limit1
                (decide (b - mid ≥ (b - a) / 8)) ap hby5 hm1
                (by rw [hsh5.len_eq]; omega) (by omega)
                ((hlow4.shrink (show mid ≤ b by omega)).keep_outside hsh5 (Nat.le_succ _))
              refine ⟨s6, e8, hsh14.trans ((hsh5.mono (by omega) (Nat.le_refl _)).trans
                (hsh6.mono (Nat.le_refl _) (by omega))), ?_⟩
              exact sorted_after_partition hsw s4 s6 hby4 a b mid hlo hup s5
                (Or.inr hsh5) (Or.inl hsh6) hso6
                (hso5.of_outside hsh6 (Or.inr (by omega)))
          · simp only
            obtain ⟨ha0, hle⟩ := hc rfl
            rw [hby3] at hle
            obtain ⟨s4, mid, e6, hsh4, hm1, hm2, hlo, hup⟩ :=
              partitionEqual_spec hsw s3 hby3 a b pivot2 hb3 hq1 hq2
            have hsh14 : Shuffle a b s s4 := hsh13.trans hsh4
            have hby4 : s4.by_ = less := hsh14.by_eq.trans hby
            have hb4 : b ≤ s4.logs.length := by rw [hsh14.len_eq]; exact hb
            have hnoless : ∀ k, a ≤ k → k < b → less (s4.val k) (s3.val pivot2) = false := by
              refine hsh4.forall_inside (P := fun z => less z (s3.val pivot2) = false) ?_
              intro k hk1 hk2
              have := hlow3 ha0 k hk1 hk2
              rw [hby3] at this
              exact hsw.negtrans _ _ _ this hle
            have hcross : ∀ x y, less (s3.val pivot2) x = false →
                less (s3.val pivot2) y = true → less y x = false := by
              intro x y hx hy
              cases hc : less y x
              · rfl
              · have := hsw.lt_trans hy hc
                rw [hx] at this
                exact absurd this (by simp)
            simp only [e6]
            obtain ⟨s5, e7, hsh5, hso5⟩ := ih s4 mid b limit1 wasBalanced wasPartitioned hby4
              hm2 hb4 (by omega) (by
                intro _ k hk1 hk2
                rw [hby4]
                exact hcross _ _ (hlo (mid - 1) (by omega) (by omega)) (hup k hk1 hk2))
            refine ⟨s5, e7, hsh14.trans (hsh5.mono (by omega) (Nat.le_refl _)), ?_⟩
            intro i j hi hij hj
            rw [hsh5.by_eq, hby4]
            by_cases h1 : mid ≤ i
            · have := hso5 i j h1 hij hj
              rw [hsh5.by_eq, hby4] at this
              exact this
            · rw [hsh5.val_outside (k := i) (Or.inl (by omega))]
              by_cases h2 : mid ≤ j
              · have := hsh5.forall_inside (P := fun z => less (s3.val pivot2) z = true) hup
                  j h2 hj
                exact hcross _ _ (hlo i hi (by omega)) this
              · rw [hsh5.val_outside (k := j) (Or.inl (by omega))]
                exact hsw.negtrans _ _ _ (hnoless j (by omega) hj) (hlo i hi (by omega))
        · simp only
          exact ⟨s3, rfl, hsh13, hr rfl⟩

/-! ## `sort.Sort` and `By.Sort` -/

theorem bitsLen_ne_zero (n : Nat) (h : 1 ≤ n) : bitsLen n ≠ 0 := by
  unfold bitsLen
  obtain ⟨m, rfl⟩ : ∃ m, n = m + 1 := ⟨n - 1, by omega⟩
  simp [bitsLenAux]

theorem sort_Sort_spec {less : logLine → logLine → Bool} (hsw : StrictWeak less)
    (s : logSorter) (hby : s.by_ = less) :
    ∃ s', sort_Sort s = some s' ∧ Shuffle 0 s.logs.length s s' ∧
      SortedOn s' 0 s.logs.length := by
  unfold sort_Sort logSorter.Len
  by_cases h1 : s.logs.length ≤ 1
  · simp only [h1, if_true]
    exact ⟨s, rfl, Shuffle.refl _ _ _, by intro i j hi hij hj; omega⟩
  · simp only [h1, if_false]
    have := pdqsortLoop_spec hsw (s.logs.length - 0 + 1) s 0 s.logs.length
      (bitsLen s.logs.length) true true hby (Nat.zero_le _) (Nat.le_refl _) (by omega)
      (by intro h; omega)
    exact this

theorem logs_eq_map_val (s : logSorter) :
    s.logs = (List.range s.logs.length).map s.val := by
  apply List.ext_getElem
  · simp
  · intro n h1 h2
    simp [logSorter.val, List.getD_eq_getElem?_getD, List.getElem?_eq_getElem h1]

/-- A shuffle of the whole slice is a permutation of its list of elements. -/
theorem Shuffle.perm_logs {s t : logSorter} (h : Shuffle 0 s.logs.length s t) :
    t.logs.Perm s.logs := by
  obtain ⟨σ, hσ, hv⟩ := h.perm
  have hin : ∀ k, k < s.logs.length → σ k < s.logs.length := by
    intro k hk
    by_contra hm
    have hfix : σ (σ k) = σ k := hσ (σ k) (by omega)
    have := σ.injective hfix
    omega
  have hin' : ∀ m, m < s.logs.length → σ.symm m < s.logs.length := by
    intro m hm
    by_contra hk
    have hfix : σ (σ.symm m) = σ.symm m := hσ _ (by omega)
    rw [Equiv.apply_symm_apply] at hfix
    omega
  have hperm : ((List.range s.logs.length).map σ).Perm (List.range s.logs.length) := by
    apply (List.perm_ext_iff_of_nodup ?_ (List.nodup_range _)).2
    · intro m
      simp only [List.mem_map, List.mem_range]
      constructor
      · rintro ⟨k, hk, rfl⟩
        exact hin k hk
      · intro hm
        exact ⟨σ.symm m, hin' m hm, by simp⟩
    · exact (List.nodup_range _).map σ.injective
  have e : t.logs = ((List.range s.logs.length).map σ).map s.val := by
    rw [logs_eq_map_val t, h.len_eq, List.map_map]
    apply List.map_congr_left
    intro k _
    exact hv k
  rw [e]
  conv_rhs => rw [logs_eq_map_val s]
  exact hperm.map _

theorem SortedOn.pairwise {s : logSorter} (h : SortedOn s 0 s.logs.length) :
    s.logs.Pairwise (fun x y => s.by_ y x = false) := by
  rw [List.pairwise_iff_getElem]
  intro i j hi hj hij
  have := h i j (Nat.zero_le _) hij hj
  simpa [logSorter.val, List.getD_eq_getElem?_getD, List.getElem?_eq_getElem hi,
    List.getElem?_eq_getElem hj] using this

theorem SortedOn.of_pairwise {s : logSorter}
    (h : s.logs.Pairwise (fun x y => s.by_ y x = false)) : SortedOn s 0 s.logs.length := by
  rw [List.pairwise_iff_getElem] at h
  intro i j _ hij hj
  have := h i j (by omega) hj hij
  simpa [logSorter.val, List.getD_eq_getElem?_getD, List.getElem?_eq_getElem hj,
    List.getElem?_eq_getElem (show i < s.logs.length by omega)] using this

/-- `By.Sort` with a strict weak ordering returns, and its result is a permutation of the
input in which no element is less than an earlier one. -/
theorem By_Sort_spec {less : logLine → logLine → Bool} (hsw : StrictWeak less)
    (logline : List logLine) :
    ∃ sorted, By_Sort less logline = some sorted ∧ sorted.Perm logline ∧
      sorted.Pairwise (fun x y => less y x = false) := by
  obtain ⟨s', e, hsh, hso⟩ := sort_Sort_spec hsw { logs := logline, by_ := less } rfl
  refine ⟨s'.logs, by simp [By_Sort, e], hsh.perm_logs, ?_⟩
  have hlen : s'.logs.length = logline.length := hsh.len_eq
  have hby : s'.by_ = less := hsh.by_eq
  have := SortedOn.pairwise (s := s') (by rw [hlen]; exact hso)
  rw [hby] at this
  exact this

/-! ## Sorting a sorted slice -/

theorem insertionSortOuter_sorted (s : logSorter) (a b : Nat) (hb : b ≤ s.logs.length)
    (hs : SortedOn s a b) : ∀ (n i : Nat), a < i → i + n = b →
      insertionSortOuter a n i s = some s := by
  intro n
  induction n with
  | zero => intro i _ _; rfl
  | succ n ih =>
    intro i hai hin
    have hinner : insertionSortInner a i s = some s := by
      obtain ⟨j, rfl⟩ : ∃ j, i = j + 1 := ⟨i - 1, by omega⟩
      simp only [insertionSortInner, hai, gt_iff_lt, if_true,
        s.Less_eq (show j + 1 < s.logs.length by omega) (show j < s.logs.length by omega),
        hs j (j + 1) (by omega) (by omega) (by omega)]
    simp only [insertionSortOuter, hinner]
    exact ih (i + 1) (by omega) (by omega)

theorem insertionSort_sorted (s : logSorter) (a b : Nat) (hb : b ≤ s.logs.length)
    (hs : SortedOn s a b) : insertionSort s a b = some s := by
  unfold insertionSort
  by_cases hab : a + 1 ≤ b
  · exact insertionSortOuter_sorted s a b hb hs _ _ (by omega) (by omega)
  · have : b - (a + 1) = 0 := by omega
    rw [this]
    rfl

theorem sort_Sort_sorted {less : logLine → logLine → Bool} (hsw : StrictWeak less)
    (s : logSorter) (hby : s.by_ = less) (hs : SortedOn s 0 s.logs.length) :
    sort_Sort s = some s := by
  unfold sort_Sort logSorter.Len
  by_cases h1 : s.logs.length ≤ 1
  · simp only [h1, if_true]
  · simp only [h1, if_false, pdqsort, Nat.sub_zero, pdqsortLoop]
    by_cases h12 : s.logs.length ≤ 12
    · simp only [h12, if_true]
      exact insertionSort_sorted s 0 _ (Nat.le_refl _) hs
    · have hlim : ¬ bitsLen s.logs.length = 0 := bitsLen_ne_zero _ (by omega)
      have hlow : LowerBounded s 0 s.logs.length := by intro h; omega
      simp only [h12, hlim, if_false]
      obtain ⟨s1, limit1, e1, _, hid1⟩ := pdqBreak_spec s 0 s.logs.length
        (bitsLen s.logs.length) true (Nat.zero_le _) (Nat.le_refl _)
      obtain rfl := hid1 rfl
      obtain ⟨pivot, hint, e2, hp1, hp2, hh⟩ :=
        choosePivot_spec s1 0 s1.logs.length (by omega) (Nat.le_refl _)
      obtain rfl := hh hs
      obtain ⟨s2, pivot2, hint2, e3, _, _, _, hid3⟩ :=
        pdqReverse_spec s1 0 s1.logs.length pivot .increasingHint (Nat.le_refl _) hp1 hp2
      obtain ⟨rfl, rfl⟩ := hid3 rfl
      obtain ⟨s3, r, e4, _, _, hid4⟩ := pdqPartial_spec hsw s2 hby 0 s2.logs.length true true
        .increasingHint (by omega) (Nat.le_refl _) hlow
      obtain ⟨rfl, rfl⟩ := hid4 rfl rfl rfl hs
      simp only [e1, e2, e3, e4]

/-- `By.Sort` leaves a slice that is already sorted as it is. -/
theorem By_Sort_sorted {less : logLine → logLine → Bool} (hsw : StrictWeak less)
    (logline : List logLine) (h : logline.Chain' (fun x y => less y x = false)) :
    By_Sort less logline = some logline := by
  haveI : IsTrans logLine (fun x y => less y x = false) :=
    ⟨fun a b c h1 h2 => hsw.negtrans c b a h2 h1⟩
  have hp := List.chain'_iff_pairwise.1 h
  have := sort_Sort_sorted hsw { logs := logline, by_ := less } rfl
    (SortedOn.of_pairwise hp)
  simp [By_Sort, this]

/-! ## The five comparators are strict weak orderings -/

theorem listLess_asymm : ∀ s t : List Char, listLess s t = true → listLess t s = false := by
  intro s
  induction s with
  | nil => intro t _; cases t <;> rfl
  | cons x xs ih =>
    intro t h
    cases t with
    | nil => simp [listLess] at h
    | cons y ys =>
      simp only [listLess] at h ⊢
      by_cases h1 : x.toNat < y.toNat
      · have h2 : ¬ y.toNat < x.toNat := by omega
        simp [h1, h2]
      · by_cases h2 : y.toNat < x.toNat
        · simp [h1, h2] at h
        · simp only [h1, h2, if_false] at h ⊢
          exact ih ys h

theorem listLess_negtrans : ∀ s t u : List Char, listLess s t = false →
    listLess t u = false → listLess s u = false := by
  intro s
  induction s with
  | nil =>
    intro t u h1 h2
    cases t with
    | nil => exact h2
    | cons y ys => simp [listLess] at h1
  | cons x xs ih =>
    intro t u h1 h2
    cases u with
    | nil => rfl
    | cons z zs =>
      cases t with
      | nil => simp [listLess] at h2
      | cons y ys =>
        simp only [listLess] at h1 h2 ⊢
        by_cases a1 : x.toNat < y.toNat
        · simp [a1] at h1
        · by_cases b1 : y.toNat < z.toNat
          · simp [b1] at h2
          · simp only [a1, b1, if_false] at h1 h2
            by_cases a2 : y.toNat < x.toNat
            · have c1 : ¬ x.toNat < z.toNat := by omega
              have c2 : z.toNat < x.toNat := by
                by_cases b2 : z.toNat < y.toNat
                · omega
                · omega
              simp [c1, c2]
            · by_cases b2 : z.toNat < y.toNat
              · have c1 : ¬ x.toNat < z.toNat := by omega
                have c2 : z.toNat < x.toNat := by omega
                simp [c1, c2]
              · simp only [a2, b2, if_false] at h1 h2
                have c1 : ¬ x.toNat < z.toNat := by omega
                have c2 : ¬ z.toNat < x.toNat := by omega
                simp only [c1, c2, if_false]
                exact ih ys zs h1 h2

theorem strictWeak_of_string_key (key : logLine → String) :
    StrictWeak (fun l1 l2 => stringLess (key l1) (key l2)) :=
  ⟨fun _ _ h => listLess_asymm _ _ h, fun _ _ _ h1 h2 => listLess_negtrans _ _ _ h1 h2⟩

theorem strictWeak_of_int_key (key : logLine → Int) :
    StrictWeak (fun l1 l2 => decide (key l1 < key l2)) := by
  constructor
  · intro x y h
    simp only [decide_eq_true_eq, decide_eq_false_iff_not] at h ⊢
    omega
  · intro x y z h1 h2
    simp only [decide_eq_false_iff_not] at h1 h2 ⊢
    omega

theorem sortBySrcPort_strictWeak : StrictWeak sortBySrcPort :=
  strictWeak_of_int_key (·.srcport)

theorem sortByDstPort_strictWeak : StrictWeak sortByDstPort :=
  strictWeak_of_int_key (·.dstport)

theorem sortByTime_strictWeak : StrictWeak sortByTime :=
  strictWeak_of_string_key (·.time)

theorem sortBySrcIP_strictWeak : StrictWeak sortBySrcIP :=
  strictWeak_of_string_key (fun l => IP.String l.srcip)

theorem sortByDstIP_strictWeak : StrictWeak sortByDstIP :=
  strictWeak_of_string_key (fun l => IP.String l.dstip)

/-! ## The sort step of `main` -/

theorem By_Sort_perm {less : logLine → logLine → Bool} (hsw : StrictWeak less)
    (logline sorted : List logLine) (h : By_Sort less logline = some sorted) :
    sorted.Perm logline := by
  obtain ⟨r, e, hp, _⟩ := By_Sort_spec hsw logline
  rw [e] at h
  obtain rfl := Option.some.inj h
  exact hp

/-- The sort step returns, whatever the key, and its result is a permutation of the slice. -/
theorem sortStep_perm (orderby : String) (logline : List logLine) :
    ∃ sorted, sortStep orderby logline = some sorted ∧ sorted.Perm logline := by
  unfold sortStep
  split_ifs
  · obtain ⟨r, e, hp, _⟩ := By_Sort_spec sortByTime_strictWeak logline
    exact ⟨r, e, hp⟩
  · obtain ⟨r, e, hp, _⟩ := By_Sort_spec sortBySrcIP_strictWeak logline
    exact ⟨r, e, hp⟩
  · obtain ⟨r, e, hp, _⟩ := By_Sort_spec sortBySrcPort_strictWeak logline
    exact ⟨r, e, hp⟩
  · obtain ⟨r, e, hp, _⟩ := By_Sort_spec sortByDstIP_strictWeak logline
    exact ⟨r, e, hp⟩
  · obtain ⟨r, e, hp, _⟩ := By_Sort_spec sortByDstPort_strictWeak logline
    exact ⟨r, e, hp⟩
  · exact ⟨logline, rfl, List.Perm.refl _⟩

/-- C6. The destination address of the record of an accepted line lies in none of the three
private networks; hence none of the records collected by `main`, and none of the records
it prints after the sort step, has a private destination. -/
theorem accepted_destination_not_private (splitchar line : String)
    (hacc : (filter splitchar line).2 = false) :
    Contains ipfilter10 (filter splitchar line).1.dstip = false ∧
    Contains ipfilter172 (filter splitchar line).1.dstip = false ∧
    Contains ipfilter192 (filter splitchar line).1.dstip = false ∧
    (∀ lines : List String, ∀ r ∈ collect splitchar lines, isPrivate r.dstip = false) ∧
    (∀ (orderby : String) (lines : List String) (sorted : List logLine),
      mainRecords splitchar orderby lines = some sorted →
      ∀ r ∈ sorted, isPrivate r.dstip = false) := by
  have hcollect : ∀ lines : List String, ∀ r ∈ collect splitchar lines,
      isPrivate r.dstip = false := by
    intro lines r hr
    rcases readLoop_mem splitchar lines ([], []) r hr with h | ⟨l, _, _, rfl⟩
    · simp at h
    · exact filter_dstip_not_private splitchar l
  have h := (isPrivate_eq_false_iff _).1 (filter_dstip_not_private splitchar line)
  have _ := hacc
  refine ⟨h.2.2, h.2.1, h.1, hcollect, ?_⟩
  intro orderby lines sorted hs r hr
  obtain ⟨sorted', e, hp⟩ := sortStep_perm orderby (collect splitchar lines)
  unfold mainRecords at hs
  rw [e] at hs
  obtain rfl := Option.some.inj hs
  exact hcollect lines r (hp.subset hr)

theorem accepted_destination_not_private_witness :
    Contains ipfilter10
      (filter ";" "12:00:01;allow;fw1;in;out;1;rule1;svc;8.8.8.8;5000;1.1.1.1;443").1.dstip
      = false :=
  (accepted_destination_not_private ";"
    "12:00:01;allow;fw1;in;out;1;rule1;svc;8.8.8.8;5000;1.1.1.1;443" (by decide)).1

/-- C7. Sorting with key `srcport` (resp. `dstport`) returns a sequence in which the source
(resp. destination) port of each record is at most that of the next one, and indeed of
every later one, in the order of the integers. -/
theorem sort_by_port_nondecreasing (logline : List logLine) :
    (∃ sorted, sortStep "srcport" logline = some sorted ∧
      By_Sort sortBySrcPort logline = some sorted ∧
      sorted.Chain' (fun x y => x.srcport ≤ y.srcport) ∧
      sorted.Pairwise (fun x y => x.srcport ≤ y.srcport)) ∧
    (∃ sorted, sortStep "dstport" logline = some sorted ∧
      By_Sort sortByDstPort logline = some sorted ∧
      sorted.Chain' (fun x y => x.dstport ≤ y.dstport) ∧
      sorted.Pairwise (fun x y => x.dstport ≤ y.dstport)) := by
  constructor
  · obtain ⟨r, e, _, hso⟩ := By_Sort_spec sortBySrcPort_strictWeak logline
    have hp : r.Pairwise (fun x y => x.srcport ≤ y.srcport) := by
      refine hso.imp ?_
      intro x y h
      simpa [sortBySrcPort] using h
    exact ⟨r, by simp [sortStep, e], e, hp.chain', hp⟩
  · obtain ⟨r, e, _, hso⟩ := By_Sort_spec sortByDstPort_strictWeak logline
    have hp : r.Pairwise (fun x y => x.dstport ≤ y.dstport) := by
      refine hso.imp ?_
      intro x y h
      simpa [sortByDstPort] using h
    exact ⟨r, by simp [sortStep, e], e, hp.chain', hp⟩

/-- C8. Sorting with key `time`, `srcip` or `dstip` returns a sequence that is
non-decreasing in the lexicographic order of the time string, of the text of the source
address and of the text of the destination address respectively: no record has a key that
is less than the key of an earlier record. -/
theorem sort_by_text_nondecreasing (logline : List logLine) :
    (∃ sorted, sortStep "time" logline = some sorted ∧
      By_Sort sortByTime logline = some sorted ∧
      sorted.Chain' (fun x y => stringLess y.time x.time = false) ∧
      sorted.Pairwise (fun x y => stringLess y.time x.time = false)) ∧
    (∃ sorted, sortStep "srcip" logline = some sorted ∧
      By_Sort sortBySrcIP logline = some sorted ∧
      sorted.Chain' (fun x y => stringLess (IP.String y.srcip) (IP.String x.srcip) = false) ∧
      sorted.Pairwise
        (fun x y => stringLess (IP.String y.srcip) (IP.String x.srcip) = false)) ∧
    (∃ sorted, sortStep "dstip" logline = some sorted ∧
      By_Sort sortByDstIP logline = some sorted ∧
      sorted.Chain' (fun x y => stringLess (IP.String y.dstip) (IP.String x.dstip) = false) ∧
      sorted.Pairwise
        (fun x y => stringLess (IP.String y.dstip) (IP.String x.dstip) = false)) := by
  refine ⟨?_, ?_, ?_⟩
  · obtain ⟨r, e, _, hso⟩ := By_Sort_spec sortByTime_strictWeak logline
    exact ⟨r, by simp [sortStep, e], e, hso.chain', hso⟩
  · obtain ⟨r, e, _, hso⟩ := By_Sort_spec sortBySrcIP_strictWeak logline
    exact ⟨r, by simp [sortStep, e], e, hso.chain', hso⟩
  · obtain ⟨r, e, _, hso⟩ := By_Sort_spec sortByDstIP_strictWeak logline
    exact ⟨r, by simp [sortStep, e], e, hso.chain', hso⟩

/-- C9. For each of the five comparators, sorting a sequence that is already sorted by it
(each record not less than the one before, records with equal keys included) returns the
same sequence, and sorting the result of a sort returns that result again. -/
theorem sort_idempotent (less : logLine → logLine → Bool)
    (hkey : less = sortByTime ∨ less = sortBySrcIP ∨ less = sortBySrcPort ∨
      less = sortByDstIP ∨ less = sortByDstPort) :
    (∀ logline : List logLine, logline.Chain' (fun x y => less y x = false) →
      By_Sort less logline = some logline) ∧
    (∀ logline : List logLine, ∃ sorted, By_Sort less logline = some sorted ∧
      By_Sort less sorted = some sorted) := by
  have hsw : StrictWeak less := by
    rcases hkey with rfl | rfl | rfl | rfl | rfl
    · exact sortByTime_strictWeak
    · exact sortBySrcIP_strictWeak
    · exact sortBySrcPort_strictWeak
    · exact sortByDstIP_strictWeak
    · exact sortByDstPort_strictWeak
  refine ⟨fun logline h => By_Sort_sorted hsw logline h, ?_⟩
  intro logline
  obtain ⟨r, e, _, hso⟩ := By_Sort_spec hsw logline
  exact ⟨r, e, By_Sort_sorted hsw r hso.chain'⟩

theorem sort_idempotent_witness :
    By_Sort sortBySrcPort
      [{ time := "b", srcport := 1 }, { time := "a", srcport := 1 }, { time := "c", srcport := 1 },
       { time := "z", srcport := 2 }, { time := "y", srcport := 2 }, { time := "x", srcport := 3 },
       { time := "w", srcport := 3 }, { time := "v", srcport := 3 }, { time := "u", srcport := 4 },
       { time := "t", srcport := 4 }, { time := "s", srcport := 5 }, { time := "r", srcport := 5 },
       { time := "q", srcport := 5 }, { time := "p", srcport := 6 }, { time := "o", srcport := 6 }] =
    some
      [{ time := "b", srcport := 1 }, { time := "a", srcport := 1 }, { time := "c", srcport := 1 },
       { time := "z", srcport := 2 }, { time := "y", srcport := 2 }, { time := "x", srcport := 3 },
       { time := "w", srcport := 3 }, { time := "v", srcport := 3 }, { time := "u", srcport := 4 },
       { time := "t", srcport := 4 }, { time := "s", srcport := 5 }, { time := "r", srcport := 5 },
       { time := "q", srcport := 5 }, { time := "p", srcport := 6 }, { time := "o", srcport := 6 }] :=
  (sort_idempotent sortBySrcPort (Or.inr (Or.inr (Or.inl rfl)))).1 _
    (by simp [sortBySrcPort])

/-! ## The fields `filter` reads, and short lines -/

/-- C11. The result of `filter` depends only on the fields at indices 0, 8, 9, 10 and 11:
two lines that both split into at least 12 fields and agree on these five fields give the
same record and the same rejection flag, whatever their other fields are and however many
fields follow. -/
theorem filter_depends_on_five_fields (splitchar line1 line2 : String)
    (hlen1 : 12 ≤ (Split line1 splitchar).length)
    (hlen2 : 12 ≤ (Split line2 splitchar).length)
    (h0 : field splitchar line1 0 = field splitchar line2 0)
    (h8 : field splitchar line1 8 = field splitchar line2 8)
    (h9 : field splitchar line1 9 = field splitchar line2 9)
    (h10 : field splitchar line1 10 = field splitchar line2 10)
    (h11 : field splitchar line1 11 = field splitchar line2 11) :
    filter splitchar line1 = filter splitchar line2 := by
  rw [filter_closed, filter_closed, h0, h8, h9, h10, h11]
  have a8 : 8 < (Split line1 splitchar).length := by omega
  have a9 : 9 < (Split line1 splitchar).length := by omega
  have a10 : 10 < (Split line1 splitchar).length := by omega
  have a11 : 11 < (Split line1 splitchar).length := by omega
  have b8 : 8 < (Split line2 splitchar).length := by omega
  have b9 : 9 < (Split line2 splitchar).length := by omega
  have b10 : 10 < (Split line2 splitchar).length := by omega
  have b11 : 11 < (Split line2 splitchar).length := by omega
  simp only [a8, a9, a10, a11, b8, b9, b10, b11]

theorem filter_depends_on_five_fields_witness :
    filter ";" "12:00:01;allow;fw1;in;out;1;rule1;svc;8.8.8.8;5000;1.1.1.1;443;tcp;;;;" =
      filter ";" "12:00:01;drop;fw2;x;y;77;;;8.8.8.8;5000;1.1.1.1;443" :=
  filter_depends_on_five_fields ";"
    "12:00:01;allow;fw1;in;out;1;rule1;svc;8.8.8.8;5000;1.1.1.1;443;tcp;;;;"
    "12:00:01;drop;fw2;x;y;77;;;8.8.8.8;5000;1.1.1.1;443"
    (by decide) (by decide) (by decide) (by decide) (by decide) (by decide) (by decide)

theorem Index_nil_sep (s : List Char) : Index s [] = some 0 := by
  cases s <;> simp [Index, startsWith]

theorem genSplit_nil (sep : List Char) : (genSplit [] sep).length ≤ 1 := by
  unfold genSplit
  by_cases h : sep = []
  · simp [h, explode]
  · simp [h, Count, countLoop, Index, genSplitLoop]

/-- The empty line splits into at most one field. -/
theorem Split_empty_line (splitchar : String) : (Split "" splitchar).length ≤ 1 := by
  unfold Split
  rw [List.length_map]
  exact genSplit_nil _

/-- A line in which the delimiter does not occur is its own single field. -/
theorem Split_no_delimiter (splitchar line : String)
    (h : Index line.data splitchar.data = none) : Split line splitchar = [line] := by
  have hsep : splitchar.data ≠ [] := by
    intro he
    rw [he, Index_nil_sep] at h
    exact absurd h (by simp)
  simp [Split, genSplit, hsep, Count, countLoop, h, genSplitLoop]

/-- C12. `filter` rejects a line exactly when field 8 is present and does not parse as an IP
address, or field 10 is present and does not parse or lies in a private network. So a line
with fewer than 9 fields is accepted (the empty line and a line without the delimiter
among them), and a line with 9 or 10 fields is accepted exactly when field 8 parses. -/
theorem short_line_rejection (splitchar line : String) :
    ((filter splitchar line).2 = true ↔
      (8 < (Split line splitchar).length ∧ ParseIP (field splitchar line 8) = []) ∨
      (10 < (Split line splitchar).length ∧ (ParseIP (field splitchar line 10) = [] ∨
        isPrivate (ParseIP (field splitchar line 10)) = true))) ∧
    ((Split line splitchar).length < 9 → (filter splitchar line).2 = false) ∧
    ((Split line splitchar).length = 9 ∨ (Split line splitchar).length = 10 →
      ((filter splitchar line).2 = false ↔ ParseIP (field splitchar line 8) ≠ [])) ∧
    (filter splitchar "").2 = false ∧
    (Index line.data splitchar.data = none → (filter splitchar line).2 = false) := by
  have hshort : ∀ l : String, (Split l splitchar).length < 9 →
      (filter splitchar l).2 = false := by
    intro l hl
    rw [filter_closed]
    have a8 : ¬ 8 < (Split l splitchar).length := by omega
    have a10 : ¬ 10 < (Split l splitchar).length := by omega
    simp [a8, a10]
  refine ⟨?_, hshort line, ?_, ?_, ?_⟩
  · rw [filter_closed]
    simp
  · intro hl
    rw [filter_closed]
    have a8 : 8 < (Split line splitchar).length := by omega
    have a10 : ¬ 10 < (Split line splitchar).length := by omega
    simp [a8, a10]
  · exact hshort "" (by have := Split_empty_line splitchar; omega)
  · intro h
    exact hshort line (by rw [Split_no_delimiter splitchar line h]; simp)

theorem short_line_rejection_witness :
    (filter ";" "12:00:01;allow;fw1").2 = false ∧
    ((filter ";" "12:00:01;allow;fw1;in;out;1;rule1;svc;8.8.8.8;5000").2 = false ↔
      ParseIP (field ";" "12:00:01;allow;fw1;in;out;1;rule1;svc;8.8.8.8;5000" 8) ≠ []) ∧
    (filter ";" "no delimiter here").2 = false :=
  ⟨(short_line_rejection ";" "12:00:01;allow;fw1").2.1 (by decide),
    (short_line_rejection ";" "12:00:01;allow;fw1;in;out;1;rule1;svc;8.8.8.8;5000").2.2.1
      (Or.inr (by decide)),
    (short_line_rejection ";" "no delimiter here").2.2.2.2 (by decide)⟩

/-! ## The accounting of the read loop -/

theorem readLoop_out (splitchar : String) (lines : List String)
    (st : List logLine × List String) :
    (readLoop splitchar lines st).2 =
      st.2 ++ List.replicate ((scanLines lines).countP fun line => (filter splitchar line).2)
        "Error parsing" := by
  induction lines generalizing st with
  | nil => simp [readLoop, scanLines]
  | cons line rest ih =>
    obtain ⟨logline, out⟩ := st
    simp only [readLoop, scanLines]
    by_cases hlong : line.utf8ByteSize ≥ MaxScanTokenSize
    · simp [hlong]
    · simp only [hlong, if_false]
      by_cases he : (filter splitchar (dropCR line)).2 = true
      · simp only [he, bne_self_eq_false, Bool.false_eq_true, if_false]
        rw [ih]
        simp [List.countP_cons, he, List.replicate_succ]
      · have he' : (filter splitchar (dropCR line)).2 = false := by simpa using he
        simp only [he', show (false != true) = true from rfl, if_true]
        rw [ih]
        simp [List.countP_cons, he']

/-- Over the lines the scanner delivers, the read loop of `main` prints one `Error parsing`
for each rejected line and appends one record for each accepted line, in the order of the
input; the number of records and the number of diagnostics add up to the number of lines
delivered, which is the number of input lines when none is too long for the scanner. -/
theorem readLoop_accounting_scanned (splitchar : String) (lines : List String) :
    (readLoop splitchar lines ([], [])).1 =
      ((scanLines lines).filter fun line => !(filter splitchar line).2).map
        (fun line => (filter splitchar line).1) ∧
    (readLoop splitchar lines ([], [])).2 =
      List.replicate ((scanLines lines).countP fun line => (filter splitchar line).2)
        "Error parsing" ∧
    (readLoop splitchar lines ([], [])).1.length +
      (readLoop splitchar lines ([], [])).2.length = (scanLines lines).length ∧
    ((∀ line ∈ lines, line.utf8ByteSize < MaxScanTokenSize) →
      (readLoop splitchar lines ([], [])).1.length +
        (readLoop splitchar lines ([], [])).2.length = lines.length) := by
  have h1 : (readLoop splitchar lines ([], [])).1 =
      ((scanLines lines).filter fun line => !(filter splitchar line).2).map
        (fun line => (filter splitchar line).1) := by
    rw [readLoop_eq]
    simp only [List.nil_append]
    generalize scanLines lines = texts
    induction texts with
    | nil => rfl
    | cons line rest ih =>
      by_cases he : (filter splitchar line).2 = true
      · simp [List.filterMap_cons, List.filter_cons, he, ih]
      · have he' : (filter splitchar line).2 = false := by simpa using he
        simp [List.filterMap_cons, List.filter_cons, he', ih]
  have h2 := readLoop_out splitchar lines ([], [])
  simp only [List.nil_append] at h2
  have h3 : (readLoop splitchar lines ([], [])).1.length =
      (scanLines lines).countP (fun line => !(filter splitchar line).2) := by
    rw [h1, List.length_map, List.countP_eq_length_filter]
  have h4 : (readLoop splitchar lines ([], [])).1.length +
      (readLoop splitchar lines ([], [])).2.length = (scanLines lines).length := by
    rw [h3, h2, List.length_replicate]
    have hsum := List.length_eq_countP_add_countP (fun line => (filter splitchar line).2)
      (scanLines lines)
    have e : List.countP (fun a => decide ¬(filter splitchar a).2 = true) (scanLines lines) =
        List.countP (fun line => !(filter splitchar line).2) (scanLines lines) := by
      congr 1
      funext a
      cases (filter splitchar a).2 <;> rfl
    rw [e] at hsum
    omega
  refine ⟨h1, h2, h4, ?_⟩
  intro hshort
  rw [h4, scanLines_all lines hshort, List.length_map]

theorem readLoop_too_long (splitchar line : String) (rest : List String)
    (st : List logLine × List String) (h : line.utf8ByteSize ≥ MaxScanTokenSize) :
    readLoop splitchar (line :: rest) st = st := by
  obtain ⟨logline, out⟩ := st
  simp only [readLoop, h, if_true]

theorem readLoop_accepted (splitchar line : String) (rest : List String)
    (logline : List logLine) (out : List String)
    (h : ¬ line.utf8ByteSize ≥ MaxScanTokenSize)
    (hacc : (filter splitchar (dropCR line)).2 = false) :
    readLoop splitchar (line :: rest) (logline, out) =
      readLoop splitchar rest (logline ++ [(filter splitchar (dropCR line)).1], out) := by
  simp only [readLoop, h, if_false, hacc, show (false != true) = true from rfl, if_true]

theorem utf8ByteSize_replicate (n : Nat) :
    (String.mk (List.replicate n 'x')).utf8ByteSize = n := by
  simp only [String.utf8ByteSize]
  induction n with
  | zero => rfl
  | succ n ih =>
    simp only [List.replicate_succ, String.utf8ByteSize.go, ih]
    rfl

/-- C13. At an input of three lines whose second line has 65536 bytes, the read loop of
`main` collects the record of the first line and prints no diagnostic: the scanner stops
at the long line, so the second and the third line are neither recorded nor reported, and
records and diagnostics add up to 1, not to the 3 lines of the input. -/
theorem read_loop_stops_at_long_line :
    readLoop ";"
      ["a;;;;;;;;1.1.1.1;1;2.2.2.2;1", String.mk (List.replicate 65536 'x'),
       "b;;;;;;;;1.1.1.1;2;2.2.2.2;2"] ([], []) =
      ([(filter ";" "a;;;;;;;;1.1.1.1;1;2.2.2.2;1").1], []) ∧
    (filter ";" "a;;;;;;;;1.1.1.1;1;2.2.2.2;1").2 = false ∧
    (filter ";" "b;;;;;;;;1.1.1.1;2;2.2.2.2;2").2 = false ∧
    (readLoop ";"
      ["a;;;;;;;;1.1.1.1;1;2.2.2.2;1", String.mk (List.replicate 65536 'x'),
       "b;;;;;;;;1.1.1.1;2;2.2.2.2;2"] ([], [])).1.length +
    (readLoop ";"
      ["a;;;;;;;;1.1.1.1;1;2.2.2.2;1", String.mk (List.replicate 65536 'x'),
       "b;;;;;;;;1.1.1.1;2;2.2.2.2;2"] ([], [])).2.length ≠ 3 := by
  have hshort : ¬ ("a;;;;;;;;1.1.1.1;1;2.2.2.2;1".utf8ByteSize ≥ MaxScanTokenSize) := by decide
  have hlong : (String.mk (List.replicate 65536 'x')).utf8ByteSize ≥ MaxScanTokenSize := by
    rw [utf8ByteSize_replicate]
    decide
  have hcr : dropCR "a;;;;;;;;1.1.1.1;1;2.2.2.2;1" = "a;;;;;;;;1.1.1.1;1;2.2.2.2;1" := by decide
  have hacc : (filter ";" "a;;;;;;;;1.1.1.1;1;2.2.2.2;1").2 = false := by decide
  have hrun : readLoop ";"
      ["a;;;;;;;;1.1.1.1;1;2.2.2.2;1", String.mk (List.replicate 65536 'x'),
       "b;;;;;;;;1.1.1.1;2;2.2.2.2;2"] ([], []) =
      ([(filter ";" "a;;;;;;;;1.1.1.1;1;2.2.2.2;1").1], []) := by
    rw [readLoop_accepted ";" _ _ _ _ hshort (by rw [hcr]; exact hacc), hcr,
      readLoop_too_long ";" _ _ _ hlong]
    rfl
  refine ⟨hrun, hacc, by decide, ?_⟩
  rw [hrun]
  decide

/-! ## The printed block of a record -/

theorem digitChar_ne_newline (n : Nat) : Nat.digitChar n ≠ '\n' := by
  by_cases h : n < 16
  · interval_cases n <;> decide
  · have e : Nat.digitChar n = '*' := by
      unfold Nat.digitChar
      repeat rw [if_neg (by omega)]
    rw [e]
    decide

theorem toDigitsCore_no_newline : ∀ (fuel n : Nat) (ds : List Char), '\n' ∉ ds →
    '\n' ∉ Nat.toDigitsCore 10 fuel n ds := by
  intro fuel
  induction fuel with
  | zero => intro n ds h; simpa [Nat.toDigitsCore] using h
  | succ fuel ih =>
    intro n ds h
    have hd : '\n' ∉ Nat.digitChar (n % 10) :: ds := by
      simp only [List.mem_cons, not_or]
      exact ⟨fun e => digitChar_ne_newline _ e.symm, h⟩
    simp only [Nat.toDigitsCore]
    split_ifs
    · exact hd
    · exact ih _ _ hd

theorem repr_no_newline (n : Nat) : '\n' ∉ (Nat.repr n).data := by
  simp only [Nat.repr, Nat.toDigits, List.asString]
  exact toDigitsCore_no_newline _ _ _ (by simp)

theorem Itoa_no_newline (i : Int) : '\n' ∉ (Itoa i).data := by
  unfold Itoa
  split_ifs
  · simp only [List.mem_cons, not_or]
    exact ⟨by decide, repr_no_newline _⟩
  · exact repr_no_newline _

theorem hexDigit_ne_newline (d : Nat) : hexDigit d ≠ '\n' := by
  unfold hexDigit
  by_cases h : d < 16
  · interval_cases d <;> decide
  · rw [List.getD_eq_default _ _ (by simp; omega)]
    decide

theorem appendHex_no_newline (b : List Char) (x : Nat) (h : '\n' ∉ b) :
    '\n' ∉ appendHex b x := by
  have hne : ∀ d, ¬ '\n' = hexDigit d := fun d e => hexDigit_ne_newline d e.symm
  unfold appendHex
  simp only
  split_ifs <;> simp [h, hne]

theorem appendGroups_no_newline (ip : IP) (zeroStart zeroEnd : Nat) :
    ∀ (n i : Nat) (ret : List Char), '\n' ∉ ret →
      '\n' ∉ appendGroups ip zeroStart zeroEnd n i ret := by
  intro n
  induction n with
  | zero => intro i ret h; simpa [appendGroups] using h
  | succ n ih =>
    intro i ret h
    simp only [appendGroups]
    split_ifs
    all_goals first
      | exact h
      | exact ih _ _ (appendHex_no_newline _ _ h)
      | exact ih _ _ (appendHex_no_newline _ _ (by simp [h]))
      | simp [h]

theorem IP_String_no_newline (ip : IP) : '\n' ∉ (IP.String ip).data := by
  unfold IP.String
  split_ifs
  · decide
  · simp only [List.singleton_append, List.mem_cons, not_or]
    refine ⟨by decide, ?_⟩
    unfold hexString
    simp only [List.mem_flatMap, List.mem_cons, List.mem_singleton, not_exists, not_and, not_or]
    intro x _
    exact ⟨fun e => hexDigit_ne_newline _ e.symm, fun e => hexDigit_ne_newline _ e.symm,
      by simp⟩
  · have := repr_no_newline
    simp [string4, this]
  · exact appendGroups_no_newline _ _ _ _ _ _ (by simp)

/-- C14. For a record whose time string contains no newline, the text `String()` returns is
the concatenation of exactly five lines, each ended by a newline and containing no other
newline: the labels `Time: `, `Source IP: `, `Source Port: `, `Destination IP: ` and
`Destination Port: `, in this order, followed by the time, the text of the source address,
the decimal source port, the text of the destination address and the decimal destination
port. -/
theorem String_is_five_lines (l : logLine) (htime : '\n' ∉ l.time.data) :
    logLine.String l = String.join ((specLines l).map fun x => x ++ "\n") ∧
    (specLines l).length = 5 ∧
    (∀ x ∈ specLines l, '\n' ∉ x.data) ∧
    (logLine.String l).data.count '\n' = 5 := by
  have h1 : '\n' ∉ ("Time: " ++ l.time).data := by
    simp only [String.data_append, List.mem_append, not_or]
    exact ⟨by decide, htime⟩
  have h2 : '\n' ∉ ("Source IP: " ++ IP.String l.srcip).data := by
    simp only [String.data_append, List.mem_append, not_or]
    exact ⟨by decide, IP_String_no_newline _⟩
  have h3 : '\n' ∉ ("Source Port: " ++ Itoa l.srcport).data := by
    simp only [String.data_append, List.mem_append, not_or]
    exact ⟨by decide, Itoa_no_newline _⟩
  have h4 : '\n' ∉ ("Destination IP: " ++ IP.String l.dstip).data := by
    simp only [String.data_append, List.mem_append, not_or]
    exact ⟨by decide, IP_String_no_newline _⟩
  have h5 : '\n' ∉ ("Destination Port: " ++ Itoa l.dstport).data := by
    simp only [String.data_append, List.mem_append, not_or]
    exact ⟨by decide, Itoa_no_newline _⟩
  have hjoin : logLine.String l = String.join ((specLines l).map fun x => x ++ "\n") := by
    apply String.ext
    simp [logLine.String, specLines, String.join, String.data_append]
  refine ⟨hjoin, rfl, ?_, ?_⟩
  · intro x hx
    simp only [specLines, List.mem_cons, List.mem_singleton, List.not_mem_nil, or_false] at hx
    rcases hx with rfl | rfl | rfl | rfl | rfl <;> assumption
  · simp only [logLine.String, String.data_append, List.count_append]
    have e1 := List.count_eq_zero_of_not_mem h1
    have e2 := List.count_eq_zero_of_not_mem h2
    have e3 := List.count_eq_zero_of_not_mem h3
    have e4 := List.count_eq_zero_of_not_mem h4
    have e5 := List.count_eq_zero_of_not_mem h5
    simp only [String.data_append, List.count_append] at e1 e2 e3 e4 e5
    rw [e1, e2, e3, e4, e5]
    rfl

theorem String_is_five_lines_witness :
    logLine.String
      (filter ";" "12:00:01;allow;fw1;in;out;1;rule1;svc;8.8.8.8;5000;1.1.1.1;443;tcp;;;;").1 =
      "Time: 12:00:01\nSource IP: 8.8.8.8\nSource Port: 5000\nDestination IP: 1.1.1.1\nDestination Port: 443\n" :=
  ((String_is_five_lines
    (filter ";" "12:00:01;allow;fw1;in;out;1;rule1;svc;8.8.8.8;5000;1.1.1.1;443;tcp;;;;").1
    (by decide)).1).trans (by decide)

/-! ## The textual order of addresses -/

/-- `By.Sort` on a slice of two records. -/
theorem By_Sort_pair (less : logLine → logLine → Bool) (x y : logLine) :
    By_Sort less [x, y] = some (if less y x = true then [y, x] else [x, y]) := by
  cases h : less y x <;>
    simp [By_Sort, sort_Sort, logSorter.Len, pdqsort, pdqsortLoop, insertionSort,
      insertionSortOuter, insertionSortInner, logSorter.Less, logSorter.Swap, h]

/-- C15 (amended). In the textual comparison used for the keys `srcip` and `dstip` the
address 10.0.0.2 is less than the address 9.0.0.1, since the character `1` comes before
`9`: for a record `a` with address 9.0.0.1 and a record `b` with address 10.0.0.2 the
comparator is false on `(a, b)` and true on `(b, a)`, so sorting `[b, a]` leaves `[b, a]`
and sorting `[a, b]` gives `[b, a]`. -/
theorem address_text_order (a b : logLine) :
    (a.srcip = ParseIP "9.0.0.1" → b.srcip = ParseIP "10.0.0.2" →
      sortBySrcIP a b = false ∧ sortBySrcIP b a = true ∧
      By_Sort sortBySrcIP [b, a] = some [b, a] ∧ By_Sort sortBySrcIP [a, b] = some [b, a]) ∧
    (a.dstip = ParseIP "9.0.0.1" → b.dstip = ParseIP "10.0.0.2" →
      sortByDstIP a b = false ∧ sortByDstIP b a = true ∧
      By_Sort sortByDstIP [b, a] = some [b, a] ∧ By_Sort sortByDstIP [a, b] = some [b, a]) := by
  constructor
  · intro ha hb
    have h1 : sortBySrcIP a b = false := by
      unfold sortBySrcIP
      rw [ha, hb]
      decide
    have h2 : sortBySrcIP b a = true := by
      unfold sortBySrcIP
      rw [ha, hb]
      decide
    refine ⟨h1, h2, ?_, ?_⟩
    · rw [By_Sort_pair, h1]
      rfl
    · rw [By_Sort_pair, h2]
      rfl
  · intro ha hb
    have h1 : sortByDstIP a b = false := by
      unfold sortByDstIP
      rw [ha, hb]
      decide
    have h2 : sortByDstIP b a = true := by
      unfold sortByDstIP
      rw [ha, hb]
      decide
    refine ⟨h1, h2, ?_, ?_⟩
    · rw [By_Sort_pair, h1]
      rfl
    · rw [By_Sort_pair, h2]
      rfl

theorem address_text_order_witness :
    IP.String (ParseIP "9.0.0.1") = "9.0.0.1" ∧ IP.String (ParseIP "10.0.0.2") = "10.0.0.2" ∧
    sortBySrcIP { srcip := ParseIP "9.0.0.1" } { srcip := ParseIP "10.0.0.2" } = false ∧
    By_Sort sortBySrcIP [{ srcip := ParseIP "10.0.0.2" }, { srcip := ParseIP "9.0.0.1" }] =
      some [{ srcip := ParseIP "10.0.0.2" }, { srcip := ParseIP "9.0.0.1" }] :=
  ⟨by decide, by decide,
    ((address_text_order { srcip := ParseIP "9.0.0.1" } { srcip := ParseIP "10.0.0.2" }).1
      rfl rfl).1,
    ((address_text_order { srcip := ParseIP "9.0.0.1" } { srcip := ParseIP "10.0.0.2" }).1
      rfl rfl).2.2.1⟩

/-- C15 as stated fails: with `a` at 9.0.0.1 and `b` at 10.0.0.2, `sortBySrcIP(a, b)` is not
true and sorting `[b, a]` by `srcip` does not give `[a, b]`. -/
theorem address_text_order_not_numeric :
    ¬ (sortBySrcIP { srcip := ParseIP "9.0.0.1" } { srcip := ParseIP "10.0.0.2" } = true) ∧
    ¬ (sortByDstIP { dstip := ParseIP "9.0.0.1" } { dstip := ParseIP "10.0.0.2" } = true) ∧
    By_Sort sortBySrcIP [{ srcip := ParseIP "10.0.0.2" }, { srcip := ParseIP "9.0.0.1" }] ≠
      some [{ srcip := ParseIP "9.0.0.1" }, { srcip := ParseIP "10.0.0.2" }] := by
  decide

/-! ## Sorting is a permutation -/

/-- C16. Sorting loses and invents nothing: for each of the five keys (and for any other key,
which sorts nothing) the sort step returns a sequence that is a permutation of its input,
with the same length and the same number of occurrences of every record. -/
theorem sorting_is_permutation (orderby : String) (logline : List logLine) :
    (∃ sorted, sortStep orderby logline = some sorted ∧ sorted.Perm logline ∧
      sorted.length = logline.length ∧ ∀ r, sorted.count r = logline.count r) ∧
    sortStep "time" logline = By_Sort sortByTime logline ∧
    sortStep "srcip" logline = By_Sort sortBySrcIP logline ∧
    sortStep "srcport" logline = By_Sort sortBySrcPort logline ∧
    sortStep "dstip" logline = By_Sort sortByDstIP logline ∧
    sortStep "dstport" logline = By_Sort sortByDstPort logline := by
  have key : ∀ less, StrictWeak less → ∃ sorted, By_Sort less logline = some sorted ∧
      sorted.Perm logline ∧ sorted.length = logline.length ∧
      ∀ r, sorted.count r = logline.count r := by
    intro less hsw
    obtain ⟨r, e, hp, _⟩ := By_Sort_spec hsw logline
    exact ⟨r, e, hp, hp.length_eq, fun x => hp.count_eq x⟩
  refine ⟨?_, by simp [sortStep], by simp [sortStep], by simp [sortStep], by simp [sortStep],
    by simp [sortStep]⟩
  unfold sortStep
  split_ifs
  · exact key _ sortByTime_strictWeak
  · exact key _ sortBySrcIP_strictWeak
  · exact key _ sortBySrcPort_strictWeak
  · exact key _ sortByDstIP_strictWeak
  · exact key _ sortByDstPort_strictWeak
  · exact ⟨logline, rfl, List.Perm.refl _, rfl, fun _ => rfl⟩

/-! ## The comparators as strict weak orderings -/

theorem listLess_irrefl : ∀ s : List Char, listLess s s = false := by
  intro s
  induction s with
  | nil => rfl
  | cons x xs ih => simp [listLess, ih]

theorem listLess_incomparable : ∀ s t : List Char, listLess s t = false →
    listLess t s = false → s = t := by
  intro s
  induction s with
  | nil =>
    intro t h1 _
    cases t with
    | nil => rfl
    | cons y ys => simp [listLess] at h1
  | cons x xs ih =>
    intro t h1 h2
    cases t with
    | nil => simp [listLess] at h2
    | cons y ys =>
      simp only [listLess] at h1 h2
      by_cases a1 : x.toNat < y.toNat
      · simp [a1] at h1
      · by_cases a2 : y.toNat < x.toNat
        · simp [a2] at h2
        · simp only [a1, a2, if_false] at h1 h2
          have hxy : x = y := by
            have e : x.toNat = y.toNat := by omega
            rw [← Char.ofNat_toNat x, ← Char.ofNat_toNat y, e]
          rw [hxy, ih ys h1 h2]

theorem strictWeakByKey_of_string_key (key : logLine → String) :
    StrictWeakByKey (fun l1 l2 => stringLess (key l1) (key l2)) key := by
  have hsw := strictWeak_of_string_key key
  have hinc : ∀ x y, (stringLess (key x) (key y) = false ∧
      stringLess (key y) (key x) = false) ↔ key x = key y := by
    intro x y
    constructor
    · rintro ⟨h1, h2⟩
      exact String.ext (listLess_incomparable _ _ h1 h2)
    · intro h
      rw [h]
      exact ⟨listLess_irrefl _, listLess_irrefl _⟩
  refine ⟨hsw.irrefl, hsw.asymm, fun x y z h1 h2 => hsw.lt_trans h1 h2, hinc, ?_⟩
  intro x y z h1 h2
  exact (hinc x z).2 (((hinc x y).1 h1).trans ((hinc y z).1 h2))

theorem strictWeakByKey_of_int_key (key : logLine → Int) :
    StrictWeakByKey (fun l1 l2 => decide (key l1 < key l2)) key := by
  have hsw := strictWeak_of_int_key key
  have hinc : ∀ x y, (decide (key x < key y) = false ∧
      decide (key y < key x) = false) ↔ key x = key y := by
    intro x y
    simp only [decide_eq_false_iff_not]
    omega
  refine ⟨hsw.irrefl, hsw.asymm, fun x y z h1 h2 => hsw.lt_trans h1 h2, hinc, ?_⟩
  intro x y z h1 h2
  exact (hinc x z).2 (((hinc x y).1 h1).trans ((hinc y z).1 h2))

/-- C17. Each of the five comparators is a strict weak ordering on records: irreflexive,
asymmetric and transitive, with two records incomparable exactly when they have the same
key (the time string, the text of the address, or the port), so that incomparability is
transitive. -/
theorem comparators_are_strict_weak_orderings :
    StrictWeakByKey sortByTime (fun l => l.time) ∧
    StrictWeakByKey sortBySrcIP (fun l => IP.String l.srcip) ∧
    StrictWeakByKey sortBySrcPort (fun l => l.srcport) ∧
    StrictWeakByKey sortByDstIP (fun l => IP.String l.dstip) ∧
    StrictWeakByKey sortByDstPort (fun l => l.dstport) :=
  ⟨strictWeakByKey_of_string_key _, strictWeakByKey_of_string_key _,
    strictWeakByKey_of_int_key _, strictWeakByKey_of_string_key _,
    strictWeakByKey_of_int_key _⟩

end LogFilter
